import Mathlib

/-! CaseControl: the control selector.

A shallow embedding of `src/ControlSelector.cpp` (nested case-control sampling)
and the properties of its match test, its age-caliper range search, its
two-phase control sampling and its per-case loop.

Modelling conventions.

* C++ `int` / `int64_t` values are mathematical integers (`Int`); signed
  overflow is undefined behaviour in C++ and is outside the model.
* A computation whose C++ behaviour is undefined (reading a vector outside its
  bounds, dereferencing `end()`, a uniform distribution over an empty interval)
  yields `none`.
* Loops are iterated with an explicit iteration budget that is large enough for
  the loop to finish; the budget is never the reason a result is `none` (see
  the totality lemmas).
* The random engine is a stream `gen : Nat → Nat` of raw draws together with
  the number of draws consumed so far; a draw from
  `uniform_int_distribution(a, b)` maps the next raw draw into `[a, b]`.
* The headers are not part of the sources: the constants `NO_MATCH` and
  `MAX_ITER` are fields of the configuration, the fields of the records are
  those `ControlSelector.cpp` reads and writes, and the comparison operators of
  `NestingCohortData` and `IndexDate` used by `std::sort` compare `dateOfBirth`
  and `date`, as the spec describes.
-/

namespace CaseControl

/-! ## Data model -/

/-- R's integer `NA` (`NA_INTEGER`), the smallest 32-bit integer. -/
def NA_INTEGER : Int := -2147483648

/-- One record of the nesting cohort (a person's cohort entry). -/
structure NestingCohortData where
  personId : Int
  genderConceptId : Int
  dateOfBirth : Int
  providerId : Int
  careSiteId : Int
  startDate : Int
  endDate : Int
  observationPeriodStartDate : Int
  indexDates : List Int
  visitDates : List Int
  deriving DecidableEq, Repr

/-- An outcome date of a case, flagged when it falls in the washout. -/
structure IndexDate where
  date : Int
  washedOut : Bool
  deriving DecidableEq, Repr

/-- The per-person case record: a snapshot and the outcome dates. -/
structure CaseData where
  genderConceptId : Int
  dateOfBirth : Int
  providerId : Int
  careSiteId : Int
  startDate : Int
  indexDates : List IndexDate
  deriving DecidableEq, Repr

/-- One row handed to the result sink by `result.add`. -/
structure Row where
  personId : Int
  date : Int
  isCase : Bool
  stratumId : Int
  deriving DecidableEq, Repr

/-- The constructor arguments of `ControlSelector` that are kept as members,
with `ageCaliperDays` standing for the value `floor(ageCaliper * 365.25)` and
with the two constants of the missing header. -/
structure Config where
  firstOutcomeOnly : Bool
  washoutPeriod : Int
  controlsPerCase : Int
  matchOnAge : Bool
  ageCaliperDays : Int
  matchOnGender : Bool
  matchOnProvider : Bool
  matchOnCareSite : Bool
  matchOnVisitDate : Bool
  visitDateCaliper : Int
  matchOnTimeInCohort : Bool
  daysInCohortCaliper : Int
  minAgeDays : Int
  maxAgeDays : Int
  NO_MATCH : Int
  MAX_ITER : Nat
  deriving DecidableEq, Repr

/-- Reading `v[i]` for an `int` index: undefined outside `0 .. size-1`. -/
def getAt {α : Type} (v : List α) (i : Int) : Option α :=
  if 0 ≤ i then v[i.toNat]? else none

/-! ## The match test -/

/-- The loop of `std::lower_bound` over a vector of integers: `first` is the
start of the remaining window and `len` its length. -/
def lowerBoundLoop (v : List Int) (val : Int) : Nat → Nat → Nat → Nat
  | 0, first, _ => first
  | fuel + 1, first, len =>
    if 0 < len then
      let half := len / 2
      let mid := first + half
      match v[mid]? with
      | some x =>
        if x < val then lowerBoundLoop v val fuel (mid + 1) (len - half - 1)
        else lowerBoundLoop v val fuel first half
      | none => first
    else first

/-- The position returned by `std::lower_bound(v.begin(), v.end(), val)`. -/
def lowerBoundPos (v : List Int) (val : Int) : Nat :=
  lowerBoundLoop v val v.length 0 v.length

/-- The outcome-exclusion loop of `isMatch`: true when the candidate has an
own index date that rules it out. -/
def hasExcludingOutcome (cfg : Config) (controlData : NestingCohortData) (indexDate : Int) : Bool :=
  if cfg.firstOutcomeOnly then controlData.indexDates.any (fun d => decide (d ≤ indexDate))
  else controlData.indexDates.any (fun d => decide (d = indexDate))

/-- The function `ControlSelector::isMatch`. The result is `none` when the
iterator returned by `std::lower_bound` is `end()` and is dereferenced. -/
def isMatch (cfg : Config) (controlData : NestingCohortData) (caseData : CaseData)
    (indexDate : Int) : Option Int :=
  if indexDate < controlData.startDate ∨ indexDate > controlData.endDate
      ∨ indexDate < controlData.observationPeriodStartDate + cfg.washoutPeriod then
    some cfg.NO_MATCH
  else if cfg.matchOnGender = true ∧ caseData.genderConceptId ≠ controlData.genderConceptId then
    some cfg.NO_MATCH
  else if cfg.matchOnProvider = true ∧ caseData.providerId ≠ controlData.providerId then
    some cfg.NO_MATCH
  else if cfg.matchOnCareSite = true ∧ caseData.careSiteId ≠ controlData.careSiteId then
    some cfg.NO_MATCH
  else if cfg.matchOnTimeInCohort = true
      ∧ |controlData.startDate - caseData.startDate| > cfg.daysInCohortCaliper then
    some cfg.NO_MATCH
  else if hasExcludingOutcome cfg controlData indexDate = true then
    some cfg.NO_MATCH
  else if cfg.matchOnVisitDate = true then
    if controlData.visitDates.length = 0 then some cfg.NO_MATCH
    else
      match controlData.visitDates[lowerBoundPos controlData.visitDates indexDate]? with
      | none => none
      | some visitDate =>
        if |visitDate - indexDate| ≤ cfg.visitDateCaliper then some visitDate
        else some cfg.NO_MATCH
  else some 0

/-! ## The age-caliper range search -/

/-- The loop of `binarySearchDateOfBirthLowerBound`, with C++ `int` division
(truncating). -/
def lowerBoundSearchLoop (store : List NestingCohortData) (key : Int) : Nat → Int → Int → Option Int
  | 0, lowerbound, upperbound => if lowerbound < upperbound then none else some lowerbound
  | fuel + 1, lowerbound, upperbound =>
    if lowerbound < upperbound then
      let index := (lowerbound + upperbound).tdiv 2
      match getAt store index with
      | none => none
      | some r =>
        if r.dateOfBirth < key then lowerBoundSearchLoop store key fuel (index + 1) upperbound
        else lowerBoundSearchLoop store key fuel lowerbound index
    else some lowerbound

/-- The function `ControlSelector::binarySearchDateOfBirthLowerBound`. -/
def binarySearchDateOfBirthLowerBound (store : List NestingCohortData) (key : Int) : Option Int :=
  lowerBoundSearchLoop store key store.length 0 ((store.length : Int) - 1)

/-- The loop of `binarySearchDateOfBirthUpperBound`; the midpoint is rounded
up as in the source. -/
def upperBoundSearchLoop (store : List NestingCohortData) (key : Int) : Nat → Int → Int → Option Int
  | 0, lowerbound, upperbound => if lowerbound < upperbound then none else some lowerbound
  | fuel + 1, lowerbound, upperbound =>
    if lowerbound < upperbound then
      let index :=
        if (lowerbound + upperbound).tmod 2 ≠ 0 then 1 + (lowerbound + upperbound).tdiv 2
        else (lowerbound + upperbound).tdiv 2
      match getAt store index with
      | none => none
      | some r =>
        if r.dateOfBirth > key then upperBoundSearchLoop store key fuel lowerbound (index - 1)
        else upperBoundSearchLoop store key fuel index upperbound
    else some lowerbound

/-- The function `ControlSelector::binarySearchDateOfBirthUpperBound`. -/
def binarySearchDateOfBirthUpperBound (store : List NestingCohortData) (lowerBound key : Int) :
    Option Int :=
  upperBoundSearchLoop store key store.length lowerBound ((store.length : Int) - 1)

/-! ## The control sampler -/

/-- The comparison `controlPersonIds.size() < controlsPerCase`: the `int` on the
right is converted to the unsigned 64-bit type of `size()`. -/
def sizeLt (n : Nat) (c : Int) : Bool :=
  if c < 0 then decide ((n : Int) < c + 2 ^ 64) else decide ((n : Int) < c)

/-- A draw from `std::uniform_int_distribution<int>(a, b)` given the next raw
draw of the engine; the distribution requires `a ≤ b`. -/
def uniformInt (a b : Int) (raw : Nat) : Option Int :=
  if a ≤ b then some (a + (raw : Int) % (b - a + 1)) else none

/-- Insertion into the `std::set` of selected person ids. -/
def setInsert (s : List Int) (x : Int) : List Int :=
  if x ∈ s then s else x :: s

/-- The date a control is reported with: the matched visit date when matching
on visit date, the index date of the case otherwise. -/
def controlDate (cfg : Config) (value indexDate : Int) : Int :=
  if cfg.matchOnVisitDate then value else indexDate

/-- The local state of one call of `findControls`: the set of selected person
ids, the rows added to the result so far and the number of draws consumed. -/
structure Sampling where
  controlPersonIds : List Int
  rows : List Row
  draws : Nat
  deriving DecidableEq, Repr

/-- Strategy 1 of `findControls`: the random probing loop, with `fuel` the
number of iterations left before `iter` reaches `MAX_ITER`. -/
def probeLoop (cfg : Config) (store : List NestingCohortData) (gen : Nat → Nat)
    (personId : Int) (caseData : CaseData) (indexDate stratumId lb ub : Int) :
    Nat → Sampling → Option Sampling
  | 0, s => some s
  | fuel + 1, s =>
    if sizeLt s.controlPersonIds.length cfg.controlsPerCase = true then
      match uniformInt lb ub (gen s.draws) with
      | none => none
      | some idx =>
        match getAt store idx with
        | none => none
        | some controlData =>
          match isMatch cfg controlData caseData indexDate with
          | none => none
          | some value =>
            if value ≠ cfg.NO_MATCH ∧ controlData.personId ≠ personId
                ∧ controlData.personId ∉ s.controlPersonIds then
              probeLoop cfg store gen personId caseData indexDate stratumId lb ub fuel
                { controlPersonIds := controlData.personId :: s.controlPersonIds
                  rows := s.rows ++
                    [⟨controlData.personId, controlDate cfg value indexDate, false, stratumId⟩]
                  draws := s.draws + 1 }
            else
              probeLoop cfg store gen personId caseData indexDate stratumId lb ub fuel
                { s with draws := s.draws + 1 }
    else some s

/-- The values taken by `i` in `for (int i = lb; i <= ub; i++)`. -/
def scanIndices (lb ub : Int) : List Int :=
  (List.range (ub - lb + 1).toNat).map (fun (k : Nat) => lb + (k : Int))

/-- Strategy 2, first half: the linear scan collecting the parallel vectors
`personIds` and `indexDates`, kept here as one list of pairs. -/
def scanLoop (cfg : Config) (store : List NestingCohortData) (personId : Int)
    (caseData : CaseData) (indexDate : Int) (selected : List Int) :
    List Int → List (Int × Int) → Option (List (Int × Int))
  | [], acc => some acc
  | i :: rest, acc =>
    match getAt store i with
    | none => none
    | some controlData =>
      match isMatch cfg controlData caseData indexDate with
      | none => none
      | some value =>
        if value ≠ cfg.NO_MATCH ∧ controlData.personId ≠ personId
            ∧ controlData.personId ∉ selected then
          scanLoop cfg store personId caseData indexDate selected rest
            (acc ++ [(controlData.personId, controlDate cfg value indexDate)])
        else scanLoop cfg store personId caseData indexDate selected rest acc

/-- Strategy 2, second half: drawing without replacement from the collected
candidates. Every iteration erases one candidate, so a budget equal to the
number of candidates is never exhausted. -/
def drawLoop (cfg : Config) (gen : Nat → Nat) (stratumId : Int) :
    Nat → List (Int × Int) → Sampling → Option Sampling
  | 0, cands, s =>
    if sizeLt s.controlPersonIds.length cfg.controlsPerCase = true ∧ cands.length > 0 then none
    else some s
  | fuel + 1, cands, s =>
    if sizeLt s.controlPersonIds.length cfg.controlsPerCase = true ∧ cands.length > 0 then
      match uniformInt 0 ((cands.length : Int) - 1) (gen s.draws) with
      | none => none
      | some idx =>
        match getAt cands idx with
        | none => none
        | some c =>
          drawLoop cfg gen stratumId fuel (cands.eraseIdx idx.toNat)
            { controlPersonIds := setInsert s.controlPersonIds c.1
              rows := s.rows ++ [⟨c.1, c.2, false, stratumId⟩]
              draws := s.draws + 1 }
    else some s

/-- The two strategies of `findControls` on the candidate range `lb .. ub`;
returns the rows added to the result and the number of draws consumed. -/
def sampleControls (cfg : Config) (store : List NestingCohortData) (gen : Nat → Nat)
    (personId : Int) (caseData : CaseData) (indexDate stratumId lb ub : Int) (draws : Nat) :
    Option (List Row × Nat) :=
  match probeLoop cfg store gen personId caseData indexDate stratumId lb ub cfg.MAX_ITER
      ⟨[], [], draws⟩ with
  | none => none
  | some s1 =>
    if sizeLt s1.controlPersonIds.length cfg.controlsPerCase = true then
      match scanLoop cfg store personId caseData indexDate s1.controlPersonIds
          (scanIndices lb ub) [] with
      | none => none
      | some cands =>
        match drawLoop cfg gen stratumId cands.length cands s1 with
        | none => none
        | some s2 => some (s2.rows, s2.draws)
    else some (s1.rows, s1.draws)

/-- The candidate index range `lb .. ub` computed at the start of
`findControls`. -/
def candidateRange (cfg : Config) (store : List NestingCohortData) (caseData : CaseData) :
    Option (Int × Int) :=
  if cfg.matchOnAge then
    match binarySearchDateOfBirthLowerBound store (caseData.dateOfBirth - cfg.ageCaliperDays) with
    | none => none
    | some lb =>
      match binarySearchDateOfBirthUpperBound store lb
          (caseData.dateOfBirth + cfg.ageCaliperDays) with
      | none => none
      | some ub => some (lb, ub)
  else some (0, (store.length : Int) - 1)

/-- The function `ControlSelector::findControls`: the control rows it adds to
the result, in order, and the number of draws consumed afterwards. -/
def findControls (cfg : Config) (store : List NestingCohortData) (gen : Nat → Nat)
    (personId : Int) (caseData : CaseData) (indexDate stratumId : Int) (draws : Nat) :
    Option (List Row × Nat) :=
  match candidateRange cfg store caseData with
  | none => none
  | some (lb, ub) =>
    if cfg.matchOnAge = true ∧ ub < lb then some ([], draws)
    else sampleControls cfg store gen personId caseData indexDate stratumId lb ub draws

/-! ## The per-case loop -/

/-- The members of the selector that change during `selectControls`: the
result rows, the draws consumed and the stratum counter. -/
structure RunState where
  rows : List Row
  draws : Nat
  stratumId : Int
  deriving DecidableEq, Repr

/-- The body of the loop of `processCase` for one entry, before the test on
`firstOutcomeOnly`. -/
def processEntry (cfg : Config) (store : List NestingCohortData) (gen : Nat → Nat)
    (personId : Int) (caseData : CaseData) (d : IndexDate) (st : RunState) : Option RunState :=
  if d.washedOut = false then
    match findControls cfg store gen personId caseData d.date (st.stratumId + 1) st.draws with
    | none => none
    | some (controls, draws) =>
      some { rows := st.rows ++ [⟨personId, d.date, true, st.stratumId + 1⟩] ++ controls
             draws := draws
             stratumId := st.stratumId + 1 }
  else some st

/-- The loop of `processCase` over the sorted index dates. -/
def processEntries (cfg : Config) (store : List NestingCohortData) (gen : Nat → Nat)
    (personId : Int) (caseData : CaseData) : List IndexDate → RunState → Option RunState
  | [], st => some st
  | d :: rest, st =>
    match processEntry cfg store gen personId caseData d st with
    | none => none
    | some st1 =>
      if cfg.firstOutcomeOnly = true then some st1
      else processEntries cfg store gen personId caseData rest st1

/-- Modelled from the spec: the `operator<` of `IndexDate`, declared in the missing
header `ControlSelector.h`; the spec has the list sorted ascending by date. The
call of `std::sort` on the index dates of a case is a parameter `sortDates` of
`processCase`, and this is all the standard says of it: its result is a
rearrangement of the list in ascending order of date. The relative order of
entries with equal dates is left to the library. -/
def IsDateSort (sortDates : List IndexDate → List IndexDate) : Prop :=
  ∀ ds, (sortDates ds).Perm ds ∧ (sortDates ds).Sorted (fun a b => a.date ≤ b.date)

/-- One admissible `std::sort` of the index dates, used where a concrete one is
needed to evaluate the model: an insertion sort by date, which keeps entries of
equal dates in their order. -/
def sortIndexDates (ds : List IndexDate) : List IndexDate :=
  ds.insertionSort (fun a b => a.date ≤ b.date)

/-- The function `ControlSelector::processCase`, with `sortDates` the effect of
`std::sort` on the index dates. -/
def processCase (cfg : Config) (store : List NestingCohortData) (gen : Nat → Nat)
    (sortDates : List IndexDate → List IndexDate)
    (personId : Int) (caseData : CaseData) (st : RunState) : Option RunState :=
  processEntries cfg store gen personId
    { caseData with indexDates := sortDates caseData.indexDates }
    (sortDates caseData.indexDates) st

/-! ## Construction and the main loop -/

/-- The data members filled by the constructor: the eligibility store and the
case index (a `std::map`, kept as a list ascending by person id). -/
structure Selector where
  nestingCohortDatas : List NestingCohortData
  personId2CaseData : List (Int × CaseData)
  deriving DecidableEq, Repr

/-- Lookup in the case index (`std::map::find`). -/
def mapFind (m : List (Int × CaseData)) (k : Int) : Option CaseData :=
  (m.find? (fun p => decide (p.1 = k))).map Prod.snd

/-- The call `std::map::insert`: keeps the keys ascending and leaves an entry
that is already present untouched. -/
def mapInsert : List (Int × CaseData) → Int → CaseData → List (Int × CaseData)
  | [], k, v => [(k, v)]
  | p :: rest, k, v =>
    if k < p.1 then (k, v) :: p :: rest
    else if k = p.1 then p :: rest
    else p :: mapInsert rest k v

/-- The statement `personId2CaseData[k].indexDates.push_back(d)` for a key that
is present. -/
def mapPushIndexDate (m : List (Int × CaseData)) (k : Int) (d : IndexDate) :
    List (Int × CaseData) :=
  m.map (fun p => if p.1 = k then (p.1, { p.2 with indexDates := p.2.indexDates ++ [d] }) else p)

/-- The test of the constructor on one index date of a record: whether the date
is kept, and the washed-out flag it is stored with. -/
def keepsIndexDate (cfg : Config) (r : NestingCohortData) (date : Int) : Bool :=
  decide (date ≤ min (r.dateOfBirth + cfg.maxAgeDays) r.endDate)

/-- The washed-out flag computed by the constructor. -/
def washedOutFlag (cfg : Config) (r : NestingCohortData) (date : Int) : Bool :=
  decide (date < max (max (r.observationPeriodStartDate + cfg.washoutPeriod)
    (r.dateOfBirth + cfg.minAgeDays)) r.startDate)

/-- The inner loop of the constructor over the index dates of one record. -/
def addIndexDates (cfg : Config) (r : NestingCohortData) :
    List Int → List (Int × CaseData) → List (Int × CaseData)
  | [], m => m
  | date :: rest, m =>
    if keepsIndexDate cfg r date = true then
      addIndexDates cfg r rest (mapPushIndexDate m r.personId ⟨date, washedOutFlag cfg r date⟩)
    else addIndexDates cfg r rest m

/-- The test of the constructor deciding whether a record is retained. -/
def isRetained (cfg : Config) (r : NestingCohortData) : Bool :=
  (!cfg.matchOnProvider || decide (r.providerId ≠ NA_INTEGER))
    && (!cfg.matchOnCareSite || decide (r.careSiteId ≠ NA_INTEGER))

/-- The body of the loading loop of the constructor for one record. -/
def loadRecord (cfg : Config) (s : Selector) (r : NestingCohortData) : Selector :=
  if isRetained cfg r = true then
    let m :=
      if (mapFind s.personId2CaseData r.personId).isNone then
        mapInsert s.personId2CaseData r.personId
          ⟨r.genderConceptId, r.dateOfBirth, r.providerId, r.careSiteId, r.startDate, []⟩
      else s.personId2CaseData
    { nestingCohortDatas := s.nestingCohortDatas ++ [r]
      personId2CaseData := addIndexDates cfg r r.indexDates m }
  else s

/-- Modelled from the spec: the `operator<` of `NestingCohortData`, declared in the
missing header `NestingCohortDataIterator.h`; the spec has the store sorted
ascending by `dateOfBirth`. This is the result of `std::sort` on the store (the
order of records with equal dates of birth is not fixed by `std::sort`; here
they keep their order). -/
def sortStore (store : List NestingCohortData) : List NestingCohortData :=
  store.insertionSort (fun a b => a.dateOfBirth ≤ b.dateOfBirth)

/-- The constructor `ControlSelector::ControlSelector`, applied to the records
produced by the cohort data iterator. -/
def construct (cfg : Config) (records : List NestingCohortData) : Selector :=
  let s := records.foldl (loadRecord cfg) ⟨[], []⟩
  if cfg.matchOnAge then { s with nestingCohortDatas := sortStore s.nestingCohortDatas } else s

/-- The loop of `selectControls` over the case index. -/
def processCases (cfg : Config) (store : List NestingCohortData) (gen : Nat → Nat)
    (sortDates : List IndexDate → List IndexDate) :
    List (Int × CaseData) → RunState → Option RunState
  | [], st => some st
  | p :: rest, st =>
    match processCase cfg store gen sortDates p.1 p.2 st with
    | none => none
    | some st1 => processCases cfg store gen sortDates rest st1

/-- The function `ControlSelector::selectControls` on a freshly constructed
selector: the rows of the returned table. -/
def selectControls (cfg : Config) (sel : Selector) (gen : Nat → Nat)
    (sortDates : List IndexDate → List IndexDate) : Option (List Row) :=
  if sel.personId2CaseData.length = 0 then some []
  else
    (processCases cfg sel.nestingCohortDatas gen sortDates sel.personId2CaseData ⟨[], 0, 0⟩).map
      RunState.rows

/-! ## The loop bodies of the range search -/

/-- One iteration of the loop of `binarySearchDateOfBirthLowerBound`, taken
when `lowerbound < upperbound`: the new bounds. -/
def lowerBoundSearchStep (store : List NestingCohortData) (key lowerbound upperbound : Int) :
    Option (Int × Int) :=
  match getAt store ((lowerbound + upperbound).tdiv 2) with
  | none => none
  | some r =>
    if r.dateOfBirth < key then some ((lowerbound + upperbound).tdiv 2 + 1, upperbound)
    else some (lowerbound, (lowerbound + upperbound).tdiv 2)

/-- One iteration of the loop of `binarySearchDateOfBirthUpperBound`, taken
when `lowerbound < upperbound`: the new bounds. -/
def upperBoundSearchStep (store : List NestingCohortData) (key lowerbound upperbound : Int) :
    Option (Int × Int) :=
  match getAt store
      (if (lowerbound + upperbound).tmod 2 ≠ 0 then 1 + (lowerbound + upperbound).tdiv 2
       else (lowerbound + upperbound).tdiv 2) with
  | none => none
  | some r =>
    if r.dateOfBirth > key then
      some (lowerbound,
        (if (lowerbound + upperbound).tmod 2 ≠ 0 then 1 + (lowerbound + upperbound).tdiv 2
         else (lowerbound + upperbound).tdiv 2) - 1)
    else
      some ((if (lowerbound + upperbound).tmod 2 ≠ 0 then 1 + (lowerbound + upperbound).tdiv 2
         else (lowerbound + upperbound).tdiv 2), upperbound)

/-! ## Predicates used in the statements -/

/-- The store is ascending by date of birth (the order `std::sort` leaves). -/
def SortedByDob (store : List NestingCohortData) : Prop :=
  ∀ (i j : Int) (a b : NestingCohortData), i ≤ j → getAt store i = some a →
    getAt store j = some b → a.dateOfBirth ≤ b.dateOfBirth

/-- A control row of a call of `findControls` is justified when it is built from
a record of the candidate range `lb .. ub` that belongs to another person and
on which the match test does not answer `NO_MATCH`. -/
def Justified (cfg : Config) (store : List NestingCohortData) (personId : Int)
    (caseData : CaseData) (indexDate stratumId lb ub : Int) (row : Row) : Prop :=
  ∃ (i : Int) (controlData : NestingCohortData) (value : Int),
    lb ≤ i ∧ i ≤ ub ∧ getAt store i = some controlData ∧
    isMatch cfg controlData caseData indexDate = some value ∧ value ≠ cfg.NO_MATCH ∧
    controlData.personId ≠ personId ∧
    row = ⟨controlData.personId, controlDate cfg value indexDate, false, stratumId⟩

/-- Whether a record may serve as a control of the case: it belongs to another
person and the match test answers something other than `NO_MATCH`. -/
def isEligible (cfg : Config) (personId : Int) (caseData : CaseData) (indexDate : Int)
    (r : NestingCohortData) : Bool :=
  decide (r.personId ≠ personId) &&
    (match isMatch cfg r caseData indexDate with
     | some value => decide (value ≠ cfg.NO_MATCH)
     | none => false)

/-- The records at the indices `lb .. ub` of the store. -/
def rangeRecords (store : List NestingCohortData) (lb ub : Int) : List NestingCohortData :=
  (scanIndices lb ub).filterMap (getAt store)

/-- The distinct person ids, other than the case's, that have at least one
record in the candidate range passing the match test. -/
def availableControls (cfg : Config) (store : List NestingCohortData) (personId : Int)
    (caseData : CaseData) (indexDate lb ub : Int) : List Int :=
  (((rangeRecords store lb ub).filter (isEligible cfg personId caseData indexDate)).map
    (fun r => r.personId)).dedup

/-- The records of the candidate range of `findControls`. -/
def candidateRecords (cfg : Config) (store : List NestingCohortData) (caseData : CaseData) :
    List NestingCohortData :=
  match candidateRange cfg store caseData with
  | some (lb, ub) => rangeRecords store lb ub
  | none => []

/-- The distinct person ids, other than the case's, that have at least one
record in the candidate range of `findControls` passing the match test. -/
def eligibleControls (cfg : Config) (store : List NestingCohortData) (personId : Int)
    (caseData : CaseData) (indexDate : Int) : List Int :=
  match candidateRange cfg store caseData with
  | some (lb, ub) => availableControls cfg store personId caseData indexDate lb ub
  | none => []

/-- The invariant of the probing loop: the selected ids are distinct, they are
the ids of the rows added so far (in reverse order), every row is justified,
and the quota is not exceeded. -/
def ProbeInv (cfg : Config) (store : List NestingCohortData) (personId : Int)
    (caseData : CaseData) (indexDate stratumId lb ub : Int) (s : Sampling) : Prop :=
  s.controlPersonIds.Nodup ∧
  s.rows.map (fun r => r.personId) = s.controlPersonIds.reverse ∧
  (∀ r ∈ s.rows, Justified cfg store personId caseData indexDate stratumId lb ub r) ∧
  (s.controlPersonIds.length : Int) ≤ cfg.controlsPerCase

/-- The invariant of the loading loop of the constructor: the person ids of the
case index are distinct, and every case record carries the person id and the
date of birth of a record of the store. -/
def LoadInv (s : Selector) : Prop :=
  (s.personId2CaseData.map Prod.fst).Nodup ∧
  ∀ q ∈ s.personId2CaseData, ∃ r ∈ s.nestingCohortDatas,
    r.personId = q.1 ∧ r.dateOfBirth = q.2.dateOfBirth

/-- The control `row` was taken from a record of another person whose date of
birth lies within the age caliper of the snapshot of the case of row `c`. -/
def WithinAge (cfg : Config) (sel : Selector) (c row : Row) : Prop :=
  ∃ caseData, mapFind sel.personId2CaseData c.personId = some caseData ∧
    ∃ r ∈ sel.nestingCohortDatas, r.personId = row.personId ∧ r.personId ≠ c.personId ∧
      |r.dateOfBirth - caseData.dateOfBirth| ≤ cfg.ageCaliperDays

/-- The invariant of the main loop used for the age caliper: stratum ids of
the rows do not exceed the counter, two case rows never share a stratum id, and
every control row has a case row in its stratum within whose age window it
was selected. -/
def AgeInv (cfg : Config) (sel : Selector) (st : RunState) : Prop :=
  (∀ r ∈ st.rows, r.stratumId ≤ st.stratumId) ∧
  (∀ c ∈ st.rows, ∀ c1 ∈ st.rows, c.isCase = true → c1.isCase = true →
    c.stratumId = c1.stratumId → c = c1) ∧
  (∀ row ∈ st.rows, row.isCase = false →
    ∃ c ∈ st.rows, c.isCase = true ∧ c.stratumId = row.stratumId ∧ WithinAge cfg sel c row)

/-- The rows of a sequence of strata blocks, each made of a case row and the
rows that follow it. -/
def blockRows : List (Row × List Row) → List Row
  | [] => []
  | b :: rest => b.1 :: b.2 ++ blockRows rest

/-- The rows are a concatenation of strata blocks, the `k`-th of which (counted
from 1) is one case row with stratum id `k` followed only by control rows with
stratum id `k`. -/
def StrataBlocks (blocks : List (Row × List Row)) : Prop :=
  ∀ (k : Nat) (b : Row × List Row), blocks[k]? = some b →
    b.1.isCase = true ∧ b.1.stratumId = (k : Int) + 1 ∧
    ∀ r ∈ b.2, r.isCase = false ∧ r.stratumId = (k : Int) + 1

/-- The retention rule in the words of the spec: a record is dropped when its
provider is absent while provider matching is used, or its care site is absent
while care-site matching is used. -/
def retainedBySpec (cfg : Config) (r : NestingCohortData) : Bool :=
  !((cfg.matchOnProvider && decide (r.providerId = NA_INTEGER))
    || (cfg.matchOnCareSite && decide (r.careSiteId = NA_INTEGER)))

/-- The index-date entries the spec derives from one record: the dates not
exceeding `min(dateOfBirth + maxAgeDays, endDate)`, each flagged washed out when
it precedes the latest of observation-period start plus washout, date of birth
plus minimum age, and cohort start. -/
def specEntries (cfg : Config) (r : NestingCohortData) : List IndexDate :=
  (r.indexDates.filter
    (fun date => decide (date ≤ min (r.dateOfBirth + cfg.maxAgeDays) r.endDate))).map
    (fun date => ⟨date, decide (date < max (r.observationPeriodStartDate + cfg.washoutPeriod)
      (max (r.dateOfBirth + cfg.minAgeDays) r.startDate))⟩)

/-- The index-date list the spec gives to person `p`: the entries of the
retained records of `p`, record after record. -/
def specIndexDates (cfg : Config) : List NestingCohortData → Int → List IndexDate
  | [], _ => []
  | r :: rest, p =>
    (if retainedBySpec cfg r = true ∧ r.personId = p then specEntries cfg r else [])
      ++ specIndexDates cfg rest p

/-- The invariant of the loading loop after the records `pre`: the store holds
the retained records in order, the case index has distinct keys and an entry
exactly for the persons with a retained record, and each entry holds the index
dates the spec gives to that person. -/
def CaseIndexInv (cfg : Config) (pre : List NestingCohortData) (s : Selector) : Prop :=
  (s.personId2CaseData.map Prod.fst).Nodup ∧
  s.nestingCohortDatas = pre.filter (retainedBySpec cfg) ∧
  (∀ p, mapFind s.personId2CaseData p = none ↔
    ∀ r ∈ pre, retainedBySpec cfg r = true → r.personId ≠ p) ∧
  (∀ p cd, mapFind s.personId2CaseData p = some cd →
    cd.indexDates = specIndexDates cfg pre p)

/-- The conjunction of the checks 1 to 6 of the match test. -/
def PassesChecks (cfg : Config) (controlData : NestingCohortData) (caseData : CaseData)
    (indexDate : Int) : Prop :=
  (controlData.startDate ≤ indexDate ∧ indexDate ≤ controlData.endDate) ∧
  controlData.observationPeriodStartDate + cfg.washoutPeriod ≤ indexDate ∧
  (cfg.matchOnGender = true → caseData.genderConceptId = controlData.genderConceptId) ∧
  (cfg.matchOnProvider = true → caseData.providerId = controlData.providerId) ∧
  (cfg.matchOnCareSite = true → caseData.careSiteId = controlData.careSiteId) ∧
  (cfg.matchOnTimeInCohort = true →
    |controlData.startDate - caseData.startDate| ≤ cfg.daysInCohortCaliper) ∧
  (cfg.firstOutcomeOnly = true → ∀ d ∈ controlData.indexDates, ¬ d ≤ indexDate) ∧
  (cfg.firstOutcomeOnly = false → ∀ d ∈ controlData.indexDates, d ≠ indexDate)

/-! ## Concrete data used to instantiate the theorems -/

/-- A configuration without any matching criterion: all outcomes, one control
per case, `NO_MATCH = -1` and three probes. -/
def plainConfig : Config :=
  { firstOutcomeOnly := false, washoutPeriod := 0, controlsPerCase := 1, matchOnAge := false,
    ageCaliperDays := 0, matchOnGender := false, matchOnProvider := false,
    matchOnCareSite := false, matchOnVisitDate := false, visitDateCaliper := 0,
    matchOnTimeInCohort := false, daysInCohortCaliper := 0, minAgeDays := 0,
    maxAgeDays := 40000, NO_MATCH := -1, MAX_ITER := 3 }

/-- A cohort entry observed over days `0 .. 100`. -/
def entry (personId dateOfBirth : Int) (indexDates visitDates : List Int) : NestingCohortData :=
  { personId := personId, genderConceptId := 8507, dateOfBirth := dateOfBirth, providerId := 1,
    careSiteId := 1, startDate := 0, endDate := 100, observationPeriodStartDate := 0,
    indexDates := indexDates, visitDates := visitDates }

/-- The case snapshot taken from `entry personId dateOfBirth _ _`. -/
def snapshot (dateOfBirth : Int) : CaseData :=
  { genderConceptId := 8507, dateOfBirth := dateOfBirth, providerId := 1, careSiteId := 1,
    startDate := 0, indexDates := [] }

/-- A store in which the case (person 1, outcome on day 50) has two entries and
person 2 has one. -/
def smallStore : List NestingCohortData :=
  [entry 1 0 [50] [], entry 1 0 [] [], entry 2 0 [] [40, 52, 60]]

/-- A configuration asking for two controls per case, with an arbitrary probing
budget. -/
def twoControlsConfig (maxIter : Nat) : Config :=
  { plainConfig with controlsPerCase := 2, MAX_ITER := maxIter }

/-- A store in which person 2 has two entries that are both eligible on day 50. -/
def repeatedStore : List NestingCohortData :=
  [entry 1 0 [50] [], entry 2 0 [] [], entry 2 0 [] []]

/-- A store in which person 2 has three entries that are all eligible on day 50. -/
def tripleStore : List NestingCohortData :=
  [entry 1 0 [50] [], entry 2 0 [] [], entry 2 0 [] [], entry 2 0 [] []]

/-- First outcome only, with a washout of ten days. -/
def firstOnlyConfig : Config :=
  { plainConfig with firstOutcomeOnly := true, washoutPeriod := 10 }

/-- Two cohort entries: person 1 with outcomes on days 5 and 50, person 2
without outcome. -/
def washedFirstRecords : List NestingCohortData :=
  [entry 1 0 [5, 50] [], entry 2 0 [] []]

/-- The case record the constructor builds for person 1 from
`washedFirstRecords`: the outcome of day 5 is washed out, that of day 50 is
not. -/
def washedFirstCase : CaseData :=
  { snapshot 0 with indexDates := [⟨5, true⟩, ⟨50, false⟩] }

/-- Age matching with a caliper of 365 days and two controls per case. -/
def ageConfig : Config :=
  { plainConfig with matchOnAge := true, ageCaliperDays := 365, controlsPerCase := 2 }

/-- Three persons: the case (born on day 0, outcome on day 50), one born 100
days later and one born 10000 days later; the records arrive unsorted. -/
def ageRecords : List NestingCohortData :=
  [entry 3 10000 [] [], entry 1 0 [50] [], entry 2 100 [] []]

/-- Visit-date matching with a caliper of five days. -/
def visitConfig : Config :=
  { plainConfig with matchOnVisitDate := true, visitDateCaliper := 5 }

/-- Three persons: person 1 with an outcome on day 50, person 2 with outcomes on
days 60 and 20, person 3 without outcome. -/
def twoCaseRecords : List NestingCohortData :=
  [entry 1 0 [50] [], entry 2 0 [60, 20] [], entry 3 0 [] []]

/-! # Properties -/

/-! ## Vector access and the range search -/

theorem getAt_some_iff {α : Type} (v : List α) (i : Int) (hi : 0 ≤ i) (hlt : i < v.length) :
    ∃ x, getAt v i = some x := by
  have h : i.toNat < v.length := by omega
  exact ⟨v[i.toNat], by simp [getAt, hi, List.getElem?_eq_getElem h]⟩

theorem getAt_mem {α : Type} {v : List α} {i : Int} {x : α} (h : getAt v i = some x) : x ∈ v := by
  unfold getAt at h
  split at h
  · exact List.getElem?_mem h
  · cases h

theorem getAt_bounds {α : Type} {v : List α} {i : Int} {x : α} (h : getAt v i = some x) :
    0 ≤ i ∧ i < v.length := by
  unfold getAt at h
  split at h
  · rename_i h0
    obtain ⟨this, _⟩ := List.getElem?_eq_some_iff.mp h
    omega
  · cases h

/-- The lower-bound search returns a valid index between its bounds. -/
theorem lowerBoundSearchLoop_bounds (store : List NestingCohortData) (key : Int) :
    ∀ (fuel : Nat) (lo hi : Int), 0 ≤ lo → lo ≤ hi → hi < store.length → hi - lo ≤ fuel →
      ∃ r, lowerBoundSearchLoop store key fuel lo hi = some r ∧ lo ≤ r ∧ r ≤ hi := by
  intro fuel
  induction fuel with
  | zero =>
    intro lo hi h0 hle hn hf
    have : ¬ lo < hi := by omega
    exact ⟨lo, by simp [lowerBoundSearchLoop, this], le_refl _, hle⟩
  | succ fuel ih =>
    intro lo hi h0 hle hn hf
    unfold lowerBoundSearchLoop
    by_cases hlt : lo < hi
    · have hdiv : (lo + hi).tdiv 2 = (lo + hi) / 2 := Int.tdiv_eq_ediv (by omega) (by omega)
      simp only [hlt, if_true, hdiv]
      obtain ⟨x, hx⟩ := getAt_some_iff store ((lo + hi) / 2) (by omega) (by omega)
      simp only [hx]
      split
      · obtain ⟨r, hr, h1, h2⟩ := ih ((lo + hi) / 2 + 1) hi (by omega) (by omega) hn (by omega)
        exact ⟨r, hr, by omega, h2⟩
      · obtain ⟨r, hr, h1, h2⟩ := ih lo ((lo + hi) / 2) h0 (by omega) (by omega) (by omega)
        exact ⟨r, hr, h1, by omega⟩
    · exact ⟨lo, by simp [hlt], le_refl _, hle⟩

/-- The upper-bound search returns a valid index between its bounds. -/
theorem upperBoundSearchLoop_bounds (store : List NestingCohortData) (key : Int) :
    ∀ (fuel : Nat) (lo hi : Int), 0 ≤ lo → lo ≤ hi → hi < store.length → hi - lo ≤ fuel →
      ∃ r, upperBoundSearchLoop store key fuel lo hi = some r ∧ lo ≤ r ∧ r ≤ hi := by
  intro fuel
  induction fuel with
  | zero =>
    intro lo hi h0 hle hn hf
    have : ¬ lo < hi := by omega
    exact ⟨lo, by simp [upperBoundSearchLoop, this], le_refl _, hle⟩
  | succ fuel ih =>
    intro lo hi h0 hle hn hf
    unfold upperBoundSearchLoop
    by_cases hlt : lo < hi
    · have hdiv : (lo + hi).tdiv 2 = (lo + hi) / 2 := Int.tdiv_eq_ediv (by omega) (by omega)
      have hmod : (lo + hi).tmod 2 = (lo + hi) % 2 := Int.tmod_eq_emod (by omega) (by omega)
      simp only [hlt, if_true, hdiv, hmod]
      generalize hidx : (if (lo + hi) % 2 ≠ 0 then 1 + (lo + hi) / 2 else (lo + hi) / 2) = idx
      have hidx1 : lo < idx ∧ idx ≤ hi := by
        rw [← hidx]; split <;> omega
      obtain ⟨x, hx⟩ := getAt_some_iff store idx (by omega) (by omega)
      simp only [hx]
      split
      · obtain ⟨r, hr, h1, h2⟩ := ih lo (idx - 1) h0 (by omega) (by omega) (by omega)
        exact ⟨r, hr, h1, by omega⟩
      · obtain ⟨r, hr, h1, h2⟩ := ih idx hi (by omega) (by omega) hn (by omega)
        exact ⟨r, hr, by omega, h2⟩
    · exact ⟨lo, by simp [hlt], le_refl _, hle⟩

/-- On a sorted store the lower-bound search finds the first record born on or
after `key`, provided the record at the initial upper end is such a record. -/
theorem lowerBoundSearchLoop_spec (store : List NestingCohortData) (key : Int)
    (hs : SortedByDob store) :
    ∀ (fuel : Nat) (lo hi : Int), 0 ≤ lo → lo ≤ hi → hi < store.length → hi - lo ≤ fuel →
      (∀ i a, i < lo → getAt store i = some a → a.dateOfBirth < key) →
      (∀ a, getAt store hi = some a → key ≤ a.dateOfBirth) →
      ∃ r a, lowerBoundSearchLoop store key fuel lo hi = some r ∧ lo ≤ r ∧ r ≤ hi ∧
        getAt store r = some a ∧ key ≤ a.dateOfBirth ∧
        ∀ i b, i < r → getAt store i = some b → b.dateOfBirth < key := by
  intro fuel
  induction fuel with
  | zero =>
    intro lo hi h0 hle hn hf hlow hhigh
    have heq : hi = lo := by omega
    subst heq
    obtain ⟨a, ha⟩ := getAt_some_iff store hi h0 hn
    exact ⟨hi, a, by simp [lowerBoundSearchLoop], le_refl _, le_refl _, ha, hhigh a ha, hlow⟩
  | succ fuel ih =>
    intro lo hi h0 hle hn hf hlow hhigh
    unfold lowerBoundSearchLoop
    by_cases hlt : lo < hi
    · have hdiv : (lo + hi).tdiv 2 = (lo + hi) / 2 := Int.tdiv_eq_ediv (by omega) (by omega)
      simp only [hlt, if_true, hdiv]
      obtain ⟨x, hx⟩ := getAt_some_iff store ((lo + hi) / 2) (by omega) (by omega)
      simp only [hx]
      split
      · rename_i hxk
        obtain ⟨r, a, hr, h1, h2, h3⟩ := ih ((lo + hi) / 2 + 1) hi (by omega) (by omega) hn
          (by omega)
          (fun i b hi1 hb => lt_of_le_of_lt (hs i ((lo + hi) / 2) b x (by omega) hb hx) hxk)
          hhigh
        exact ⟨r, a, hr, by omega, h2, h3⟩
      · rename_i hxk
        obtain ⟨r, a, hr, h1, h2, h3⟩ := ih lo ((lo + hi) / 2) h0 (by omega) (by omega)
          (by omega) hlow (fun a ha => by rw [hx] at ha; cases ha; omega)
        exact ⟨r, a, hr, h1, by omega, h3⟩
    · have heq : hi = lo := by omega
      subst heq
      obtain ⟨a, ha⟩ := getAt_some_iff store hi h0 hn
      exact ⟨hi, a, by simp, le_refl _, le_refl _, ha, hhigh a ha, hlow⟩

/-- On a sorted store the upper-bound search finds the last record born on or
before `key`, provided the record at the initial lower end is such a record. -/
theorem upperBoundSearchLoop_spec (store : List NestingCohortData) (key : Int)
    (hs : SortedByDob store) :
    ∀ (fuel : Nat) (lo hi : Int), 0 ≤ lo → lo ≤ hi → hi < store.length → hi - lo ≤ fuel →
      (∀ a, getAt store lo = some a → a.dateOfBirth ≤ key) →
      (∀ i a, hi < i → getAt store i = some a → key < a.dateOfBirth) →
      ∃ r a, upperBoundSearchLoop store key fuel lo hi = some r ∧ lo ≤ r ∧ r ≤ hi ∧
        getAt store r = some a ∧ a.dateOfBirth ≤ key ∧
        ∀ i b, r < i → getAt store i = some b → key < b.dateOfBirth := by
  intro fuel
  induction fuel with
  | zero =>
    intro lo hi h0 hle hn hf hlow hhigh
    have heq : hi = lo := by omega
    subst heq
    obtain ⟨a, ha⟩ := getAt_some_iff store hi h0 hn
    exact ⟨hi, a, by simp [upperBoundSearchLoop], le_refl _, le_refl _, ha, hlow a ha, hhigh⟩
  | succ fuel ih =>
    intro lo hi h0 hle hn hf hlow hhigh
    unfold upperBoundSearchLoop
    by_cases hlt : lo < hi
    · have hdiv : (lo + hi).tdiv 2 = (lo + hi) / 2 := Int.tdiv_eq_ediv (by omega) (by omega)
      have hmod : (lo + hi).tmod 2 = (lo + hi) % 2 := Int.tmod_eq_emod (by omega) (by omega)
      simp only [hlt, if_true, hdiv, hmod]
      generalize hidx : (if (lo + hi) % 2 ≠ 0 then 1 + (lo + hi) / 2 else (lo + hi) / 2) = idx
      have hidx1 : lo < idx ∧ idx ≤ hi := by
        rw [← hidx]; split <;> omega
      obtain ⟨x, hx⟩ := getAt_some_iff store idx (by omega) (by omega)
      simp only [hx]
      split
      · rename_i hxk
        obtain ⟨r, a, hr, h1, h2, h3⟩ := ih lo (idx - 1) h0 (by omega) (by omega) (by omega)
          hlow
          (fun i b hi1 hb => lt_of_lt_of_le hxk (hs idx i x b (by omega) hx hb))
        exact ⟨r, a, hr, h1, by omega, h3⟩
      · rename_i hxk
        obtain ⟨r, a, hr, h1, h2, h3⟩ := ih idx hi (by omega) (by omega) hn (by omega)
          (fun a ha => by rw [hx] at ha; cases ha; omega) hhigh
        exact ⟨r, a, hr, by omega, h2, h3⟩
    · have heq : hi = lo := by omega
      subst heq
      obtain ⟨a, ha⟩ := getAt_some_iff store hi h0 hn
      exact ⟨hi, a, by simp, le_refl _, le_refl _, ha, hlow a ha, hhigh⟩

/-- For a non-empty store both searches return, and the range they delimit is a
non-empty range of valid indices, whatever the keys and the order of the store. -/
theorem binarySearch_range_valid (store : List NestingCohortData) (lowKey highKey : Int)
    (hne : store ≠ []) :
    ∃ lb ub, binarySearchDateOfBirthLowerBound store lowKey = some lb ∧
      binarySearchDateOfBirthUpperBound store lb highKey = some ub ∧
      0 ≤ lb ∧ lb ≤ ub ∧ ub < store.length := by
  have hlen : 0 < store.length := List.length_pos.mpr hne
  obtain ⟨lb, hlb, h1, h2⟩ := lowerBoundSearchLoop_bounds store lowKey store.length 0
    ((store.length : Int) - 1) (le_refl _) (by omega) (by omega) (by omega)
  obtain ⟨ub, hub, h3, h4⟩ := upperBoundSearchLoop_bounds store highKey store.length lb
    ((store.length : Int) - 1) h1 h2 (by omega) (by omega)
  exact ⟨lb, ub, hlb, hub, h1, h3, by omega⟩

/-- On a store sorted by date of birth that holds a record born inside the
window, the two searches delimit exactly the records born inside the window. -/
theorem binarySearch_range_exact (store : List NestingCohortData) (lowKey highKey : Int)
    (hs : SortedByDob store)
    (hw : ∃ r ∈ store, lowKey ≤ r.dateOfBirth ∧ r.dateOfBirth ≤ highKey) :
    ∃ lb ub, binarySearchDateOfBirthLowerBound store lowKey = some lb ∧
      binarySearchDateOfBirthUpperBound store lb highKey = some ub ∧
      0 ≤ lb ∧ lb ≤ ub ∧ ub < store.length ∧
      ∀ i a, getAt store i = some a →
        ((lb ≤ i ∧ i ≤ ub) ↔ (lowKey ≤ a.dateOfBirth ∧ a.dateOfBirth ≤ highKey)) := by
  obtain ⟨w, hwm, hw1, hw2⟩ := hw
  obtain ⟨k, hk⟩ := List.mem_iff_getElem?.mp hwm
  have hkj : getAt store (k : Int) = some w := by simp [getAt, hk]
  obtain ⟨hk0, hkn⟩ := getAt_bounds hkj
  obtain ⟨last, hlast⟩ := getAt_some_iff store ((store.length : Int) - 1) (by omega) (by omega)
  obtain ⟨lb, a, hlb, h1, h2, ha, hak, hbelow⟩ := lowerBoundSearchLoop_spec store lowKey hs
    store.length 0 ((store.length : Int) - 1) (le_refl _) (by omega) (by omega) (by omega)
    (fun i b hi hb => absurd (getAt_bounds hb).1 (by omega))
    (fun b hb => le_trans hw1 (hs k _ w b (by omega) hkj hb))
  have hlbk : lb ≤ k := by
    by_contra hc
    have := hbelow k w (by omega) hkj
    omega
  obtain ⟨ub, c, hub, h3, h4, hc, hck, habove⟩ := upperBoundSearchLoop_spec store highKey hs
    store.length lb ((store.length : Int) - 1) h1 h2 (by omega) (by omega)
    (fun b hb => le_trans (hs lb k b w hlbk hb hkj) hw2)
    (fun i b hi hb => absurd (getAt_bounds hb).2 (by omega))
  refine ⟨lb, ub, hlb, hub, h1, h3, by omega, ?_⟩
  intro i b hb
  constructor
  · rintro ⟨hi1, hi2⟩
    exact ⟨le_trans hak (hs lb i a b hi1 ha hb), le_trans (hs i ub b c hi2 hb hc) hck⟩
  · rintro ⟨hb1, hb2⟩
    constructor
    · by_contra hcon
      have := hbelow i b (by omega) hb
      omega
    · by_contra hcon
      have := habove i b (by omega) hb
      omega

/-- A list sorted by date of birth is ascending in the sense of `SortedByDob`. -/
theorem sortedByDob_of_sorted (store : List NestingCohortData)
    (h : store.Sorted (fun a b => a.dateOfBirth ≤ b.dateOfBirth)) : SortedByDob store := by
  intro i j a b hij ha hb
  obtain ⟨hi0, _⟩ := getAt_bounds ha
  obtain ⟨hj0, _⟩ := getAt_bounds hb
  simp only [getAt, hi0, hj0, if_true] at ha hb
  obtain ⟨hi1, rfl⟩ := List.getElem?_eq_some_iff.mp ha
  obtain ⟨hj1, rfl⟩ := List.getElem?_eq_some_iff.mp hb
  by_cases heq : i.toNat = j.toNat
  · simp [heq]
  · exact List.pairwise_iff_getElem.mp h i.toNat j.toNat hi1 hj1 (by omega)

/-! ## The control sampler: every row comes from a matching record -/

theorem uniformInt_range {a b : Int} {raw : Nat} {i : Int} (h : uniformInt a b raw = some i) :
    a ≤ i ∧ i ≤ b := by
  unfold uniformInt at h
  split at h
  · rename_i hab
    injection h with h
    have h1 : 0 ≤ (raw : Int) % (b - a + 1) := Int.emod_nonneg _ (by omega)
    have h2 : (raw : Int) % (b - a + 1) < b - a + 1 := Int.emod_lt_of_pos _ (by omega)
    omega
  · cases h

theorem uniformInt_defined {a b : Int} (raw : Nat) (h : a ≤ b) :
    ∃ i, uniformInt a b raw = some i := by
  exact ⟨a + (raw : Int) % (b - a + 1), by simp [uniformInt, h]⟩

section Sampler

variable (cfg : Config) (store : List NestingCohortData) (gen : Nat → Nat)
  (personId : Int) (caseData : CaseData) (indexDate stratumId lb ub : Int)

/-- Every row added by the probing loop is justified. -/
theorem probeLoop_justified :
    ∀ (fuel : Nat) (s t : Sampling),
      probeLoop cfg store gen personId caseData indexDate stratumId lb ub fuel s = some t →
      (∀ r ∈ s.rows, Justified cfg store personId caseData indexDate stratumId lb ub r) →
      ∀ r ∈ t.rows, Justified cfg store personId caseData indexDate stratumId lb ub r := by
  intro fuel
  induction fuel with
  | zero =>
    intro s t h hs
    simp only [probeLoop, Option.some.injEq] at h
    subst h
    exact hs
  | succ fuel ih =>
    intro s t h hs
    unfold probeLoop at h
    split at h
    · split at h
      · cases h
      · rename_i idx hidx
        split at h
        · cases h
        · rename_i controlData hget
          split at h
          · cases h
          · rename_i value hval
            split at h
            · rename_i hc
              refine ih _ t h ?_
              intro r hr
              simp only [List.mem_append, List.mem_singleton] at hr
              rcases hr with hr | hr
              · exact hs r hr
              · obtain ⟨h1, h2⟩ := uniformInt_range hidx
                exact ⟨idx, controlData, value, h1, h2, hget, hval, hc.1, hc.2.1, hr⟩
            · exact ih _ t h hs
    · injection h with h
      subst h
      exact hs

/-- Every candidate collected by the scan is justified and not yet selected. -/
theorem scanLoop_justified (selected : List Int) :
    ∀ (idxs : List Int) (acc cands : List (Int × Int)),
      scanLoop cfg store personId caseData indexDate selected idxs acc = some cands →
      (∀ i ∈ idxs, lb ≤ i ∧ i ≤ ub) →
      (∀ c ∈ acc, c.1 ∉ selected ∧
        Justified cfg store personId caseData indexDate stratumId lb ub
          ⟨c.1, c.2, false, stratumId⟩) →
      ∀ c ∈ cands, c.1 ∉ selected ∧
        Justified cfg store personId caseData indexDate stratumId lb ub
          ⟨c.1, c.2, false, stratumId⟩ := by
  intro idxs
  induction idxs with
  | nil =>
    intro acc cands h _ hacc
    simp only [scanLoop, Option.some.injEq] at h
    subst h
    exact hacc
  | cons i rest ih =>
    intro acc cands h hidx hacc
    unfold scanLoop at h
    have hrest : ∀ j ∈ rest, lb ≤ j ∧ j ≤ ub := fun j hj => hidx j (List.mem_cons_of_mem _ hj)
    split at h
    · cases h
    · rename_i controlData hget
      split at h
      · cases h
      · rename_i value hval
        split at h
        · rename_i hc
          refine ih _ cands h hrest ?_
          intro c hcm
          simp only [List.mem_append, List.mem_singleton] at hcm
          rcases hcm with hcm | hcm
          · exact hacc c hcm
          · subst hcm
            obtain ⟨h1, h2⟩ := hidx i (List.mem_cons_self _ _)
            exact ⟨hc.2.2, i, controlData, value, h1, h2, hget, hval, hc.1, hc.2.1, rfl⟩
        · exact ih _ cands h hrest hacc

theorem mem_scanIndices_iff {i : Int} : i ∈ scanIndices lb ub ↔ lb ≤ i ∧ i ≤ ub := by
  unfold scanIndices
  rw [List.mem_map]
  constructor
  · rintro ⟨k, hk, rfl⟩
    rw [List.mem_range] at hk
    omega
  · intro ⟨h1, h2⟩
    refine ⟨(i - lb).toNat, ?_, ?_⟩
    · rw [List.mem_range]; omega
    · omega

theorem mem_scanIndices {i : Int} (h : i ∈ scanIndices lb ub) : lb ≤ i ∧ i ≤ ub :=
  (mem_scanIndices_iff lb ub).mp h

/-- Every row added by the drawing loop reports one of the candidates. -/
theorem drawLoop_rows :
    ∀ (fuel : Nat) (cands : List (Int × Int)) (s t : Sampling),
      drawLoop cfg gen stratumId fuel cands s = some t →
      ∀ r ∈ t.rows, r ∈ s.rows ∨ ∃ c ∈ cands, r = ⟨c.1, c.2, false, stratumId⟩ := by
  intro fuel
  induction fuel with
  | zero =>
    intro cands s t h r hr
    unfold drawLoop at h
    split at h
    · cases h
    · injection h with h
      subst h
      exact Or.inl hr
  | succ fuel ih =>
    intro cands s t h r hr
    unfold drawLoop at h
    split at h
    · split at h
      · cases h
      · rename_i idx hidx
        split at h
        · cases h
        · rename_i c hget
          rcases ih _ _ t h r hr with h1 | ⟨c2, hc2, hr2⟩
          · simp only [List.mem_append, List.mem_singleton] at h1
            rcases h1 with h1 | h1
            · exact Or.inl h1
            · exact Or.inr ⟨c, getAt_mem hget, h1⟩
          · exact Or.inr ⟨c2, List.mem_of_mem_eraseIdx hc2, hr2⟩
    · injection h with h
      subst h
      exact Or.inl hr

/-- Every row produced by the two strategies is justified. -/
theorem sampleControls_justified (draws : Nat) (out : List Row × Nat)
    (h : sampleControls cfg store gen personId caseData indexDate stratumId lb ub draws
      = some out) :
    ∀ r ∈ out.1, Justified cfg store personId caseData indexDate stratumId lb ub r := by
  unfold sampleControls at h
  split at h
  · cases h
  · rename_i s1 hs1
    have h1 := probeLoop_justified cfg store gen personId caseData indexDate stratumId lb ub
      _ _ _ hs1 (by intro r hr; cases hr)
    split at h
    · split at h
      · cases h
      · rename_i cands hcands
        have h2 := scanLoop_justified cfg store personId caseData indexDate stratumId lb ub
          _ _ _ _ hcands (fun i hi => mem_scanIndices lb ub hi) (by intro c hc; cases hc)
        split at h
        · cases h
        · rename_i s2 hs2
          injection h with h
          subst h
          intro r hr
          rcases drawLoop_rows cfg gen stratumId _ _ _ _ hs2 r hr with h3 | ⟨c, hc, rfl⟩
          · exact h1 r h3
          · exact (h2 c hc).2
    · injection h with h
      subst h
      exact h1

end Sampler

/-- Every row produced by `findControls` is justified by a record of the
candidate range. -/
theorem findControls_justified (cfg : Config) (store : List NestingCohortData) (gen : Nat → Nat)
    (personId : Int) (caseData : CaseData) (indexDate stratumId : Int) (draws : Nat)
    (out : List Row × Nat)
    (h : findControls cfg store gen personId caseData indexDate stratumId draws = some out) :
    ∃ lb ub, candidateRange cfg store caseData = some (lb, ub) ∧
      ∀ r ∈ out.1, Justified cfg store personId caseData indexDate stratumId lb ub r := by
  unfold findControls at h
  split at h
  · cases h
  · rename_i lb ub hrange
    refine ⟨lb, ub, hrange, ?_⟩
    split at h
    · injection h with h
      subst h
      intro r hr
      cases hr
    · exact sampleControls_justified cfg store gen personId caseData indexDate stratumId lb ub
        draws out h

/-- With visit-date matching, a value other than `NO_MATCH` returned by the
match test is one of the candidate's visit dates, within the caliper. -/
theorem isMatch_visitDate (cfg : Config) (controlData : NestingCohortData) (caseData : CaseData)
    (indexDate value : Int) (hv : cfg.matchOnVisitDate = true)
    (h : isMatch cfg controlData caseData indexDate = some value) (hne : value ≠ cfg.NO_MATCH) :
    value ∈ controlData.visitDates ∧ |value - indexDate| ≤ cfg.visitDateCaliper := by
  unfold isMatch at h
  repeat' split at h
  all_goals first
    | (injection h with h; exact absurd h.symm hne)
    | (cases h; done)
    | (exact absurd hv ‹_›)
    | skip
  rename_i visitDate hget hcal
  injection h with h
  subst h
  exact ⟨List.getElem?_mem hget, hcal⟩

/-! ## Claims about the rows of one call and about the match test -/

/-- C3. No control row emitted by `findControls`, in the probing phase or in
the exhaustive phase, carries the person id of the case. -/
theorem findControls_excludes_case (cfg : Config) (store : List NestingCohortData)
    (gen : Nat → Nat) (personId : Int) (caseData : CaseData) (indexDate stratumId : Int)
    (draws : Nat) (out : List Row × Nat)
    (h : findControls cfg store gen personId caseData indexDate stratumId draws = some out) :
    ∀ row ∈ out.1, row.isCase = false ∧ row.personId ≠ personId := by
  obtain ⟨lb, ub, _, hj⟩ := findControls_justified cfg store gen personId caseData indexDate
    stratumId draws out h
  intro row hrow
  obtain ⟨i, controlData, value, _, _, _, _, _, hp, rfl⟩ := hj row hrow
  exact ⟨rfl, hp⟩

/-- An instance of C3 on `smallStore`: the second entry of the case passes the
match test and is skipped because it belongs to the case. -/
theorem findControls_excludes_case_witness :
    findControls plainConfig smallStore (fun n => n) 1 (snapshot 0) 50 1 0
        = some ([⟨2, 50, false, 1⟩], 3) ∧
      ∀ row ∈ ([⟨2, 50, false, 1⟩] : List Row), row.isCase = false ∧ row.personId ≠ 1 :=
  ⟨by decide,
    findControls_excludes_case plainConfig smallStore (fun n => n) 1 (snapshot 0) 50 1 0
      ([⟨2, 50, false, 1⟩], 3) (by decide)⟩

/-- C4. Every control row emitted by `findControls` has the person id of a
record in the candidate range on which `isMatch`, for the same case snapshot
and index date, returns a value other than `NO_MATCH`. -/
theorem findControls_rows_match (cfg : Config) (store : List NestingCohortData)
    (gen : Nat → Nat) (personId : Int) (caseData : CaseData) (indexDate stratumId : Int)
    (draws : Nat) (out : List Row × Nat)
    (h : findControls cfg store gen personId caseData indexDate stratumId draws = some out) :
    ∃ lb ub, candidateRange cfg store caseData = some (lb, ub) ∧
      ∀ row ∈ out.1, ∃ (i : Int) (controlData : NestingCohortData) (value : Int),
        lb ≤ i ∧ i ≤ ub ∧ getAt store i = some controlData ∧
        controlData.personId = row.personId ∧
        isMatch cfg controlData caseData indexDate = some value ∧ value ≠ cfg.NO_MATCH := by
  obtain ⟨lb, ub, hr, hj⟩ := findControls_justified cfg store gen personId caseData indexDate
    stratumId draws out h
  refine ⟨lb, ub, hr, ?_⟩
  intro row hrow
  obtain ⟨i, controlData, value, h1, h2, h3, h4, h5, _, rfl⟩ := hj row hrow
  exact ⟨i, controlData, value, h1, h2, h3, rfl, h4, h5⟩

/-- An instance of C4 on `smallStore`, where the control is found by the
exhaustive phase. -/
theorem findControls_rows_match_witness :
    findControls plainConfig smallStore (fun _ => 0) 1 (snapshot 0) 50 1 0
        = some ([⟨2, 50, false, 1⟩], 4) ∧
      ∃ lb ub, candidateRange plainConfig smallStore (snapshot 0) = some (lb, ub) ∧
        ∀ row ∈ ([⟨2, 50, false, 1⟩] : List Row),
          ∃ (i : Int) (controlData : NestingCohortData) (value : Int),
            lb ≤ i ∧ i ≤ ub ∧ getAt smallStore i = some controlData ∧
            controlData.personId = row.personId ∧
            isMatch plainConfig controlData (snapshot 0) 50 = some value ∧
            value ≠ plainConfig.NO_MATCH :=
  ⟨by decide,
    findControls_rows_match plainConfig smallStore (fun _ => 0) 1 (snapshot 0) 50 1 0
      ([⟨2, 50, false, 1⟩], 4) (by decide)⟩

/-- Where the call of `findControls` is defined, that is where no match test it
makes reads past the last visit date of a candidate: with visit-date matching
every control row emitted for index date `t` reports a date `v` that is the
value `isMatch` returned on a record of that person in the candidate range, is
an element of that record's `visitDates`, and satisfies
`|v - t| ≤ visitDateCaliper`. -/
theorem findControls_visit_dates (cfg : Config) (store : List NestingCohortData)
    (gen : Nat → Nat) (personId : Int) (caseData : CaseData) (indexDate stratumId : Int)
    (draws : Nat) (out : List Row × Nat) (hv : cfg.matchOnVisitDate = true)
    (h : findControls cfg store gen personId caseData indexDate stratumId draws = some out) :
    ∃ lb ub, candidateRange cfg store caseData = some (lb, ub) ∧
      ∀ row ∈ out.1, ∃ (i : Int) (controlData : NestingCohortData),
        lb ≤ i ∧ i ≤ ub ∧ getAt store i = some controlData ∧
        controlData.personId = row.personId ∧
        isMatch cfg controlData caseData indexDate = some row.date ∧
        row.date ∈ controlData.visitDates ∧
        |row.date - indexDate| ≤ cfg.visitDateCaliper := by
  obtain ⟨lb, ub, hr, hj⟩ := findControls_justified cfg store gen personId caseData indexDate
    stratumId draws out h
  refine ⟨lb, ub, hr, ?_⟩
  intro row hrow
  obtain ⟨i, controlData, value, h1, h2, h3, h4, h5, _, rfl⟩ := hj row hrow
  obtain ⟨h6, h7⟩ := isMatch_visitDate cfg controlData caseData indexDate value hv h4 h5
  have hd : controlDate cfg value indexDate = value := by simp [controlDate, hv]
  simp only [hd]
  exact ⟨i, controlData, h1, h2, h3, rfl, h4, h6, h7⟩

/-- A defined call on `smallStore`: person 2 is reported with the visit of day
52, the first on or after day 50. -/
theorem findControls_visit_dates_witness :
    ({ plainConfig with matchOnVisitDate := true, visitDateCaliper := 5 } : Config).matchOnVisitDate
        = true ∧
      findControls { plainConfig with matchOnVisitDate := true, visitDateCaliper := 5 }
        smallStore (fun _ => 0) 1 (snapshot 0) 50 1 0 = some ([⟨2, 52, false, 1⟩], 4) ∧
      ∃ lb ub, candidateRange { plainConfig with matchOnVisitDate := true, visitDateCaliper := 5 }
          smallStore (snapshot 0) = some (lb, ub) ∧
        ∀ row ∈ ([⟨2, 52, false, 1⟩] : List Row),
          ∃ (i : Int) (controlData : NestingCohortData),
            lb ≤ i ∧ i ≤ ub ∧ getAt smallStore i = some controlData ∧
            controlData.personId = row.personId ∧
            isMatch { plainConfig with matchOnVisitDate := true, visitDateCaliper := 5 }
              controlData (snapshot 0) 50 = some row.date ∧
            row.date ∈ controlData.visitDates ∧
            |row.date - 50| ≤
              ({ plainConfig with matchOnVisitDate := true, visitDateCaliper := 5 } :
                Config).visitDateCaliper :=
  ⟨by decide, by decide,
    findControls_visit_dates { plainConfig with matchOnVisitDate := true, visitDateCaliper := 5 }
      smallStore (fun _ => 0) 1 (snapshot 0) 50 1 0 ([⟨2, 52, false, 1⟩], 4) (by decide)
      (by decide)⟩

theorem hasExcludingOutcome_eq_false (cfg : Config) (controlData : NestingCohortData)
    (indexDate : Int) :
    hasExcludingOutcome cfg controlData indexDate = false ↔
      (cfg.firstOutcomeOnly = true → ∀ d ∈ controlData.indexDates, ¬ d ≤ indexDate) ∧
      (cfg.firstOutcomeOnly = false → ∀ d ∈ controlData.indexDates, d ≠ indexDate) := by
  unfold hasExcludingOutcome
  cases hf : cfg.firstOutcomeOnly <;> simp [List.any_eq_false]

/-- When the checks 1 to 6 fail the match test answers `NO_MATCH`. -/
theorem isMatch_of_not_passes (cfg : Config) (controlData : NestingCohortData)
    (caseData : CaseData) (indexDate : Int)
    (h : ¬ PassesChecks cfg controlData caseData indexDate) :
    isMatch cfg controlData caseData indexDate = some cfg.NO_MATCH := by
  have key : ¬ (indexDate < controlData.startDate ∨ indexDate > controlData.endDate
        ∨ indexDate < controlData.observationPeriodStartDate + cfg.washoutPeriod) →
      ¬ (cfg.matchOnGender = true ∧ caseData.genderConceptId ≠ controlData.genderConceptId) →
      ¬ (cfg.matchOnProvider = true ∧ caseData.providerId ≠ controlData.providerId) →
      ¬ (cfg.matchOnCareSite = true ∧ caseData.careSiteId ≠ controlData.careSiteId) →
      ¬ (cfg.matchOnTimeInCohort = true
        ∧ |controlData.startDate - caseData.startDate| > cfg.daysInCohortCaliper) →
      ¬ (hasExcludingOutcome cfg controlData indexDate = true) → False := by
    intro c1 c2 c3 c4 c5 c6
    apply h
    have h7 := (hasExcludingOutcome_eq_false cfg controlData indexDate).mp (by simpa using c6)
    simp only [not_or, not_lt, not_and, ne_eq, not_not, gt_iff_lt] at c1 c2 c3 c4 c5
    exact ⟨⟨c1.1, c1.2.1⟩, c1.2.2, c2, c3, c4, c5, h7.1, h7.2⟩
  unfold isMatch
  split_ifs with c1 c2 c3 c4 c5 c6 c7 c8
  all_goals first
    | rfl
    | exact absurd (key c1 c2 c3 c4 c5 c6) id

/-- When the checks 1 to 6 pass and visit-date matching is disabled the match
test answers `0`. -/
theorem isMatch_of_passes (cfg : Config) (controlData : NestingCohortData)
    (caseData : CaseData) (indexDate : Int) (hv : cfg.matchOnVisitDate = false)
    (h : PassesChecks cfg controlData caseData indexDate) :
    isMatch cfg controlData caseData indexDate = some 0 := by
  obtain ⟨⟨h1, h2⟩, h3, h4, h5, h6, h7, h8, h9⟩ := h
  have hx : hasExcludingOutcome cfg controlData indexDate = false :=
    (hasExcludingOutcome_eq_false cfg controlData indexDate).mpr ⟨h8, h9⟩
  unfold isMatch
  rw [if_neg (by omega), if_neg (fun c => c.2 (h4 c.1)), if_neg (fun c => c.2 (h5 c.1)),
    if_neg (fun c => c.2 (h6 c.1)), if_neg (fun c => not_lt.mpr (h7 c.1) c.2),
    if_neg (by simp [hx]), if_neg (by simp [hv])]

/-- C10. With visit-date matching disabled (and `NO_MATCH` different from `0`),
`isMatch` returns `0` exactly when the index date lies in the candidate's
`[startDate, endDate]`, is at least `observationPeriodStartDate + washoutPeriod`,
gender, provider and care site agree whenever the corresponding flag is set,
the start dates differ by at most `daysInCohortCaliper` when matching on time in
cohort, and the candidate has no own index date `≤ indexDate` (first outcome
only) respectively `= indexDate` (all outcomes); otherwise it returns
`NO_MATCH`. -/
theorem isMatch_without_visit_matching (cfg : Config) (controlData : NestingCohortData)
    (caseData : CaseData) (indexDate : Int) (hv : cfg.matchOnVisitDate = false)
    (hnm : cfg.NO_MATCH ≠ 0) :
    (isMatch cfg controlData caseData indexDate = some 0 ↔
      PassesChecks cfg controlData caseData indexDate) ∧
    (isMatch cfg controlData caseData indexDate = some cfg.NO_MATCH ↔
      ¬ PassesChecks cfg controlData caseData indexDate) := by
  by_cases hp : PassesChecks cfg controlData caseData indexDate
  · have h0 := isMatch_of_passes cfg controlData caseData indexDate hv hp
    rw [h0]
    refine ⟨⟨fun _ => hp, fun _ => rfl⟩, ⟨fun h => ?_, fun h => absurd hp h⟩⟩
    injection h with h
    exact absurd h.symm hnm
  · have h0 := isMatch_of_not_passes cfg controlData caseData indexDate hp
    rw [h0]
    refine ⟨⟨fun h => ?_, fun h => absurd h hp⟩, ⟨fun _ => hp, fun _ => rfl⟩⟩
    injection h with h
    exact absurd h hnm

/-- An instance of C10 for an entry of person 2 and the case of day 50. -/
theorem isMatch_without_visit_matching_witness :
    plainConfig.matchOnVisitDate = false ∧ plainConfig.NO_MATCH ≠ 0 ∧
      ((isMatch plainConfig (entry 2 0 [] []) (snapshot 0) 50 = some 0 ↔
        PassesChecks plainConfig (entry 2 0 [] []) (snapshot 0) 50) ∧
      (isMatch plainConfig (entry 2 0 [] []) (snapshot 0) 50 = some plainConfig.NO_MATCH ↔
        ¬ PassesChecks plainConfig (entry 2 0 [] []) (snapshot 0) 50)) :=
  ⟨by decide, by decide,
    isMatch_without_visit_matching plainConfig (entry 2 0 [] []) (snapshot 0) 50 (by decide)
      (by decide)⟩

/-! ## Counting the controls of one call -/

theorem sizeLt_iff {n : Nat} {c : Int} (hc : 0 ≤ c) : sizeLt n c = true ↔ (n : Int) < c := by
  unfold sizeLt
  rw [if_neg (by omega)]
  simp

theorem mem_setInsert {s : List Int} {a x : Int} : x ∈ setInsert s a ↔ x = a ∨ x ∈ s := by
  unfold setInsert
  split
  · rename_i h
    constructor
    · exact Or.inr
    · rintro (rfl | h1)
      · exact h
      · exact h1
  · simp

theorem nodup_setInsert {s : List Int} (a : Int) (h : s.Nodup) : (setInsert s a).Nodup := by
  unfold setInsert
  split
  · exact h
  · rename_i hn
    exact List.nodup_cons.mpr ⟨hn, h⟩

theorem length_setInsert_le (s : List Int) (a : Int) :
    (setInsert s a).length ≤ s.length + 1 := by
  unfold setInsert
  split <;> simp

section Count

variable (cfg : Config) (store : List NestingCohortData) (gen : Nat → Nat)
  (personId : Int) (caseData : CaseData) (indexDate stratumId lb ub : Int)

theorem mem_availableControls {x : Int} :
    x ∈ availableControls cfg store personId caseData indexDate lb ub ↔
      ∃ (i : Int) (r : NestingCohortData), lb ≤ i ∧ i ≤ ub ∧ getAt store i = some r ∧
        isEligible cfg personId caseData indexDate r = true ∧ r.personId = x := by
  unfold availableControls rangeRecords
  rw [List.mem_dedup, List.mem_map]
  constructor
  · rintro ⟨r, hr, rfl⟩
    rw [List.mem_filter, List.mem_filterMap] at hr
    obtain ⟨⟨i, hi, hget⟩, he⟩ := hr
    obtain ⟨h1, h2⟩ := mem_scanIndices lb ub hi
    exact ⟨i, r, h1, h2, hget, he, rfl⟩
  · rintro ⟨i, r, h1, h2, hget, he, rfl⟩
    refine ⟨r, ?_, rfl⟩
    rw [List.mem_filter, List.mem_filterMap]
    exact ⟨⟨i, (mem_scanIndices_iff lb ub).mpr ⟨h1, h2⟩, hget⟩, he⟩

theorem isEligible_of_match {r : NestingCohortData} {value : Int}
    (h1 : isMatch cfg r caseData indexDate = some value) (h2 : value ≠ cfg.NO_MATCH)
    (h3 : r.personId ≠ personId) : isEligible cfg personId caseData indexDate r = true := by
  simp [isEligible, h1, h2, h3]

theorem match_of_isEligible {r : NestingCohortData}
    (h : isEligible cfg personId caseData indexDate r = true) :
    r.personId ≠ personId ∧
      ∃ value, isMatch cfg r caseData indexDate = some value ∧ value ≠ cfg.NO_MATCH := by
  unfold isEligible at h
  rw [Bool.and_eq_true] at h
  obtain ⟨h1, h2⟩ := h
  refine ⟨of_decide_eq_true h1, ?_⟩
  split at h2
  · rename_i value hv
    exact ⟨value, hv, of_decide_eq_true h2⟩
  · cases h2

/-- A justified row reports an available control. -/
theorem Justified.available {row : Row}
    (h : Justified cfg store personId caseData indexDate stratumId lb ub row) :
    row.personId ∈ availableControls cfg store personId caseData indexDate lb ub := by
  obtain ⟨i, r, value, h1, h2, h3, h4, h5, h6, rfl⟩ := h
  exact (mem_availableControls cfg store personId caseData indexDate lb ub).mpr
    ⟨i, r, h1, h2, h3, isEligible_of_match cfg personId caseData indexDate h4 h5 h6, rfl⟩

/-- On a valid candidate range, with the match test defined on every record of
the range, the probing loop returns and keeps its invariant. -/
theorem probeLoop_inv (hc : 0 ≤ cfg.controlsPerCase) (h0 : 0 ≤ lb) (hle : lb ≤ ub)
    (hn : ub < store.length)
    (hdef : ∀ (i : Int) (r : NestingCohortData), lb ≤ i → i ≤ ub → getAt store i = some r →
      ∃ value, isMatch cfg r caseData indexDate = some value) :
    ∀ (fuel : Nat) (s : Sampling),
      ProbeInv cfg store personId caseData indexDate stratumId lb ub s →
      ∃ t, probeLoop cfg store gen personId caseData indexDate stratumId lb ub fuel s = some t ∧
        ProbeInv cfg store personId caseData indexDate stratumId lb ub t := by
  intro fuel
  induction fuel with
  | zero => intro s hs; exact ⟨s, rfl, hs⟩
  | succ fuel ih =>
    intro s hs
    unfold probeLoop
    by_cases hlt : sizeLt s.controlPersonIds.length cfg.controlsPerCase = true
    · rw [if_pos hlt]
      obtain ⟨idx, hidx⟩ := uniformInt_defined (gen s.draws) hle
      obtain ⟨hi1, hi2⟩ := uniformInt_range hidx
      obtain ⟨controlData, hget⟩ := getAt_some_iff store idx (by omega) (by omega)
      obtain ⟨value, hval⟩ := hdef idx controlData hi1 hi2 hget
      simp only [hidx, hget, hval]
      split
      · rename_i hcnd
        apply ih
        obtain ⟨hs1, hs2, hs3, hs4⟩ := hs
        refine ⟨List.nodup_cons.mpr ⟨hcnd.2.2, hs1⟩, ?_, ?_, ?_⟩
        · simp [hs2]
        · intro r hr
          simp only [List.mem_append, List.mem_singleton] at hr
          rcases hr with hr | hr
          · exact hs3 r hr
          · exact ⟨idx, controlData, value, hi1, hi2, hget, hval, hcnd.1, hcnd.2.1, hr⟩
        · have := (sizeLt_iff hc).mp hlt
          simp only [List.length_cons]
          push_cast
          omega
      · apply ih
        exact hs
    · rw [if_neg hlt]
      exact ⟨s, rfl, hs⟩

/-- With the match test defined on the scanned records, the scan returns, and
the ids it collects are those of the eligible scanned records that were not
selected before. -/
theorem scanLoop_spec (selected : List Int) :
    ∀ (idxs : List Int) (acc : List (Int × Int)),
      (∀ i ∈ idxs, ∃ r, getAt store i = some r ∧
        ∃ value, isMatch cfg r caseData indexDate = some value) →
      ∃ cands, scanLoop cfg store personId caseData indexDate selected idxs acc = some cands ∧
        ∀ x, x ∈ cands.map Prod.fst ↔
          (x ∈ acc.map Prod.fst ∨
            ∃ i ∈ idxs, ∃ r, getAt store i = some r ∧
              isEligible cfg personId caseData indexDate r = true ∧ r.personId = x ∧
              x ∉ selected) := by
  intro idxs
  induction idxs with
  | nil =>
    intro acc _
    exact ⟨acc, rfl, fun x => by simp⟩
  | cons i rest ih =>
    intro acc hdef
    obtain ⟨r, hget, value, hval⟩ := hdef i (List.mem_cons_self _ _)
    have hrest : ∀ j ∈ rest, ∃ r, getAt store j = some r ∧
        ∃ value, isMatch cfg r caseData indexDate = some value :=
      fun j hj => hdef j (List.mem_cons_of_mem _ hj)
    unfold scanLoop
    simp only [hget, hval]
    split
    · rename_i hcnd
      obtain ⟨cands, hc1, hc2⟩ := ih (acc ++ [(r.personId, controlDate cfg value indexDate)]) hrest
      refine ⟨cands, hc1, fun x => ?_⟩
      rw [hc2 x]
      simp only [List.map_append, List.map_cons, List.map_nil, List.mem_append,
        List.mem_singleton, List.mem_cons, List.not_mem_nil, or_false]
      constructor
      · rintro ((h | h) | ⟨j, hj, h⟩)
        · exact Or.inl h
        · subst h
          exact Or.inr ⟨i, Or.inl rfl, r, hget,
            isEligible_of_match cfg personId caseData indexDate hval hcnd.1 hcnd.2.1, rfl,
            hcnd.2.2⟩
        · exact Or.inr ⟨j, Or.inr hj, h⟩
      · rintro (h | ⟨j, (rfl | hj), r2, hget2, he, hx, hsel⟩)
        · exact Or.inl (Or.inl h)
        · rw [hget] at hget2
          cases hget2
          exact Or.inl (Or.inr hx.symm)
        · exact Or.inr ⟨j, hj, r2, hget2, he, hx, hsel⟩
    · rename_i hcnd
      obtain ⟨cands, hc1, hc2⟩ := ih acc hrest
      refine ⟨cands, hc1, fun x => ?_⟩
      rw [hc2 x]
      simp only [List.mem_cons]
      constructor
      · rintro (h | ⟨j, hj, h⟩)
        · exact Or.inl h
        · exact Or.inr ⟨j, Or.inr hj, h⟩
      · rintro (h | ⟨j, (rfl | hj), r2, hget2, he, hx, hsel⟩)
        · exact Or.inl h
        · exfalso
          rw [hget] at hget2
          cases hget2
          obtain ⟨hp, v2, hv2, hne⟩ := match_of_isEligible cfg personId caseData indexDate he
          rw [hval] at hv2
          cases hv2
          exact hcnd ⟨hne, hp, hx ▸ hsel⟩
        · exact Or.inr ⟨j, hj, r2, hget2, he, hx, hsel⟩

/-- Once the quota is reached the drawing loop returns its state unchanged. -/
theorem drawLoop_done (fuel : Nat) (cands : List (Int × Int)) (s : Sampling)
    (h : sizeLt s.controlPersonIds.length cfg.controlsPerCase ≠ true) :
    drawLoop cfg gen stratumId fuel cands s = some s := by
  cases fuel <;> simp [drawLoop, h]

/-- An element of a list either survives the erasure of a position or sits at
that position. -/
theorem mem_eraseIdx_or {α : Type} {l : List α} {k : Nat} {x a : α} (hx : x ∈ l)
    (hk : l[k]? = some a) : x ∈ l.eraseIdx k ∨ x = a := by
  obtain ⟨i, hi, rfl⟩ := List.getElem_of_mem hx
  by_cases hik : i = k
  · subst hik
    right
    rw [List.getElem?_eq_getElem hi] at hk
    injection hk
  · left
    exact List.mem_eraseIdx_iff_getElem.mpr ⟨i, hi, hik, rfl⟩

/-- The drawing loop returns; afterwards the selected ids are still distinct
and within the quota, they are exactly the ids of the rows, they come from the
ids selected before or from the candidates, and either the quota is reached or
every candidate has been selected. -/
theorem drawLoop_spec (hc : 0 ≤ cfg.controlsPerCase) :
    ∀ (fuel : Nat) (cands : List (Int × Int)) (s : Sampling),
      cands.length ≤ fuel →
      s.controlPersonIds.Nodup →
      (s.controlPersonIds.length : Int) ≤ cfg.controlsPerCase →
      (∀ x, x ∈ s.rows.map (fun r => r.personId) ↔ x ∈ s.controlPersonIds) →
      ∃ t, drawLoop cfg gen stratumId fuel cands s = some t ∧
        t.controlPersonIds.Nodup ∧
        (t.controlPersonIds.length : Int) ≤ cfg.controlsPerCase ∧
        (∀ x, x ∈ t.rows.map (fun r => r.personId) ↔ x ∈ t.controlPersonIds) ∧
        (∀ x ∈ t.controlPersonIds, x ∈ s.controlPersonIds ∨ x ∈ cands.map Prod.fst) ∧
        (sizeLt t.controlPersonIds.length cfg.controlsPerCase = false ∨
          ∀ x, x ∈ s.controlPersonIds ∨ x ∈ cands.map Prod.fst → x ∈ t.controlPersonIds) := by
  intro fuel
  induction fuel with
  | zero =>
    intro cands s hlen hnd hq hrows
    have hnil : cands = [] := List.length_eq_zero.mp (by omega)
    subst hnil
    refine ⟨s, by simp [drawLoop], hnd, hq, hrows, fun x hx => Or.inl hx, Or.inr ?_⟩
    rintro x (hx | hx)
    · exact hx
    · cases hx
  | succ fuel ih =>
    intro cands s hlen hnd hq hrows
    by_cases hcond : sizeLt s.controlPersonIds.length cfg.controlsPerCase = true ∧ cands.length > 0
    · unfold drawLoop
      rw [if_pos hcond]
      obtain ⟨idx, hidx⟩ := uniformInt_defined (a := 0) (b := (cands.length : Int) - 1)
        (gen s.draws) (by omega)
      obtain ⟨hi1, hi2⟩ := uniformInt_range hidx
      obtain ⟨c, hget⟩ := getAt_some_iff cands idx hi1 (by omega)
      simp only [hidx, hget]
      have hget2 : cands[idx.toNat]? = some c := by simpa [getAt, hi1] using hget
      have hlt := (sizeLt_iff hc).mp hcond.1
      obtain ⟨t, ht, h1, h2, h3, h4, h5⟩ := ih (cands.eraseIdx idx.toNat)
        { controlPersonIds := setInsert s.controlPersonIds c.1
          rows := s.rows ++ [⟨c.1, c.2, false, stratumId⟩]
          draws := s.draws + 1 }
        (by
          have hlen2 : idx.toNat < cands.length := by omega
          rw [List.length_eraseIdx, if_pos hlen2]
          omega)
        (nodup_setInsert _ hnd)
        (by
          have := length_setInsert_le s.controlPersonIds c.1
          simp only
          omega)
        (by
          intro x
          simp only [List.map_append, List.map_cons, List.map_nil, List.mem_append,
            List.mem_singleton]
          rw [mem_setInsert, hrows x]
          tauto)
      refine ⟨t, ht, h1, h2, h3, ?_, ?_⟩
      · intro x hx
        rcases h4 x hx with h | h
        · rcases mem_setInsert.mp h with rfl | h
          · exact Or.inr (List.mem_map_of_mem _ (getAt_mem hget))
          · exact Or.inl h
        · obtain ⟨p, hp, rfl⟩ := List.mem_map.mp h
          exact Or.inr (List.mem_map_of_mem _ (List.mem_of_mem_eraseIdx hp))
      · rcases h5 with h | h
        · exact Or.inl h
        · right
          rintro x (hx | hx)
          · exact h x (Or.inl (mem_setInsert.mpr (Or.inr hx)))
          · obtain ⟨p, hp, rfl⟩ := List.mem_map.mp hx
            rcases mem_eraseIdx_or hp hget2 with h6 | rfl
            · exact h p.1 (Or.inr (List.mem_map_of_mem _ h6))
            · exact h p.1 (Or.inl (mem_setInsert.mpr (Or.inl rfl)))
    · have hres : drawLoop cfg gen stratumId (fuel + 1) cands s = some s := by
        unfold drawLoop
        rw [if_neg hcond]
      refine ⟨s, hres, hnd, hq, hrows, fun x hx => Or.inl hx, ?_⟩
      by_cases hs : sizeLt s.controlPersonIds.length cfg.controlsPerCase = true
      · right
        have hnil : cands = [] := by
          by_contra hne
          exact hcond ⟨hs, List.length_pos.mpr hne⟩
        subst hnil
        rintro x (hx | hx)
        · exact hx
        · cases hx
      · left
        simpa using hs

theorem nodup_length_le_of_subset {l m : List Int} (hl : l.Nodup) (h : ∀ x ∈ l, x ∈ m) :
    l.length ≤ m.length :=
  (List.subperm_of_subset hl h).length_le

theorem dedup_length_of_mem_iff {l m : List Int} (hm : m.Nodup) (h : ∀ x, x ∈ l ↔ x ∈ m) :
    l.dedup.length = m.length :=
  ((List.perm_ext_iff_of_nodup (List.nodup_dedup l) hm).mpr
    (fun x => by rw [List.mem_dedup]; exact h x)).length_eq

/-- With a quota of one and nothing selected yet, the drawing loop adds exactly
one row when there is a candidate. -/
theorem drawLoop_single (hq : cfg.controlsPerCase = 1) (cands : List (Int × Int))
    (hne : cands ≠ []) (draws : Nat) :
    ∃ t, drawLoop cfg gen stratumId cands.length cands ⟨[], [], draws⟩ = some t ∧
      t.rows.length = 1 := by
  obtain ⟨k, hk⟩ : ∃ k, cands.length = k + 1 :=
    ⟨cands.length - 1, by have := List.length_pos.mpr hne; omega⟩
  rw [hk]
  unfold drawLoop
  have hcond : sizeLt ([] : List Int).length cfg.controlsPerCase = true ∧ cands.length > 0 := by
    rw [hq]
    exact ⟨by decide, by omega⟩
  simp only [hk] at hcond ⊢
  rw [if_pos hcond]
  obtain ⟨idx, hidx⟩ := uniformInt_defined (a := 0) (b := ((k + 1 : Nat) : Int) - 1)
    (gen draws) (by omega)
  obtain ⟨hi1, hi2⟩ := uniformInt_range hidx
  obtain ⟨c, hget⟩ := getAt_some_iff cands idx hi1 (by omega)
  simp only [hidx, hget]
  refine ⟨_, drawLoop_done cfg gen stratumId _ _ _ ?_, by simp⟩
  rw [hq]
  simp [setInsert, sizeLt]

/-- On a valid candidate range, with the match test defined on every record of
the range, the two strategies return, and the number of distinct persons they
report is the smaller of the quota and the number of available controls. -/
theorem sampleControls_count (hc : 0 ≤ cfg.controlsPerCase) (h0 : 0 ≤ lb) (hle : lb ≤ ub)
    (hn : ub < store.length)
    (hdef : ∀ (i : Int) (r : NestingCohortData), lb ≤ i → i ≤ ub → getAt store i = some r →
      ∃ value, isMatch cfg r caseData indexDate = some value)
    (draws : Nat) :
    ∃ rows d, sampleControls cfg store gen personId caseData indexDate stratumId lb ub draws
        = some (rows, d) ∧
      (((rows.map (fun r => r.personId)).dedup.length : Nat) : Int) =
        min cfg.controlsPerCase
          ((availableControls cfg store personId caseData indexDate lb ub).length : Int) ∧
      (cfg.controlsPerCase = 1 →
        (availableControls cfg store personId caseData indexDate lb ub).length = 1 →
        rows.length = 1) := by
  obtain ⟨s1, hs1, hnd1, hrows1, hj1, hq1⟩ := probeLoop_inv cfg store gen personId caseData
    indexDate stratumId lb ub hc h0 hle hn hdef cfg.MAX_ITER ⟨[], [], draws⟩
    ⟨List.nodup_nil, rfl, fun r hr => (by cases hr), (by simpa using hc)⟩
  have hmem1 : ∀ x, x ∈ s1.rows.map (fun r => r.personId) ↔ x ∈ s1.controlPersonIds := by
    intro x
    rw [hrows1, List.mem_reverse]
  have havail1 : ∀ x ∈ s1.controlPersonIds,
      x ∈ availableControls cfg store personId caseData indexDate lb ub := by
    intro x hx
    obtain ⟨r, hr, rfl⟩ := List.mem_map.mp ((hmem1 x).mpr hx)
    exact (hj1 r hr).available
  have hlen1 : s1.rows.length = s1.controlPersonIds.length := by
    have := congrArg List.length hrows1
    simpa using this
  unfold sampleControls
  simp only [hs1]
  by_cases hlt : sizeLt s1.controlPersonIds.length cfg.controlsPerCase = true
  · rw [if_pos hlt]
    obtain ⟨cands, hcands, hmem⟩ := scanLoop_spec cfg store personId caseData indexDate
      s1.controlPersonIds (scanIndices lb ub) []
      (fun i hi => by
        obtain ⟨hi1, hi2⟩ := mem_scanIndices lb ub hi
        obtain ⟨r, hr⟩ := getAt_some_iff store i (by omega) (by omega)
        exact ⟨r, hr, hdef i r hi1 hi2 hr⟩)
    obtain ⟨t, ht, hnd2, hq2, hmem2, hsub2, hfin⟩ := drawLoop_spec cfg gen stratumId hc
      cands.length cands s1 (le_refl _) hnd1 hq1 hmem1
    simp only [hcands, ht]
    have hcands_avail : ∀ x ∈ cands.map Prod.fst,
        x ∈ availableControls cfg store personId caseData indexDate lb ub := by
      intro x hx
      rcases (hmem x).mp hx with h | ⟨i, hi, r, hget, he, hx2, _⟩
      · cases h
      · obtain ⟨hi1, hi2⟩ := mem_scanIndices lb ub hi
        exact (mem_availableControls cfg store personId caseData indexDate lb ub).mpr
          ⟨i, r, hi1, hi2, hget, he, hx2⟩
    have hsub : ∀ x ∈ t.controlPersonIds,
        x ∈ availableControls cfg store personId caseData indexDate lb ub := by
      intro x hx
      rcases hsub2 x hx with h | h
      · exact havail1 x h
      · exact hcands_avail x h
    have hle1 := nodup_length_le_of_subset hnd2 hsub
    refine ⟨t.rows, t.draws, rfl, ?_, ?_⟩
    · rw [dedup_length_of_mem_iff hnd2 hmem2]
      rcases hfin with h | h
      · have hge : ¬ ((t.controlPersonIds.length : Int) < cfg.controlsPerCase) := by
          intro hcon
          have := (sizeLt_iff hc).mpr hcon
          rw [h] at this
          cases this
        rw [min_eq_left (by omega)]
        omega
      · have hle2 : (availableControls cfg store personId caseData indexDate lb ub).length
            ≤ t.controlPersonIds.length := by
          apply nodup_length_le_of_subset (List.nodup_dedup _)
          intro x hx
          by_cases hsel : x ∈ s1.controlPersonIds
          · exact h x (Or.inl hsel)
          · obtain ⟨i, r, hi1, hi2, hget, he, hx2⟩ :=
              (mem_availableControls cfg store personId caseData indexDate lb ub).mp hx
            exact h x (Or.inr ((hmem x).mpr (Or.inr
              ⟨i, (mem_scanIndices_iff lb ub).mpr ⟨hi1, hi2⟩, r, hget, he, hx2, hsel⟩)))
        rw [min_eq_right (by omega)]
        omega
    · intro hone havail
      have hlt2 := (sizeLt_iff hc).mp hlt
      have hnil : s1.controlPersonIds = [] := List.length_eq_zero.mp (by omega)
      have hrnil : s1.rows = [] := List.length_eq_zero.mp (by rw [hlen1, hnil]; rfl)
      have hs1eq : s1 = ⟨[], [], s1.draws⟩ := by
        cases s1
        simp only at hnil hrnil
        subst hnil hrnil
        rfl
      have hcne : cands ≠ [] := by
        intro hcn
        obtain ⟨x, hx⟩ := List.exists_mem_of_length_pos
          (show 0 < (availableControls cfg store personId caseData indexDate lb ub).length by
            omega)
        obtain ⟨i, r, hi1, hi2, hget, he, hx2⟩ :=
          (mem_availableControls cfg store personId caseData indexDate lb ub).mp hx
        have : x ∈ cands.map Prod.fst := (hmem x).mpr (Or.inr
          ⟨i, (mem_scanIndices_iff lb ub).mpr ⟨hi1, hi2⟩, r, hget, he, hx2, by
            rw [hnil]; exact List.not_mem_nil _⟩)
        rw [hcn] at this
        cases this
      obtain ⟨t2, ht2, hlen2⟩ := drawLoop_single cfg gen stratumId hone cands hcne s1.draws
      rw [hs1eq] at ht
      rw [ht2] at ht
      injection ht with ht
      rw [← ht]
      exact hlen2
  · rw [if_neg hlt]
    have hge : ¬ ((s1.controlPersonIds.length : Int) < cfg.controlsPerCase) :=
      fun hcon => hlt ((sizeLt_iff hc).mpr hcon)
    have hle1 := nodup_length_le_of_subset hnd1 havail1
    refine ⟨s1.rows, s1.draws, rfl, ?_, ?_⟩
    · rw [dedup_length_of_mem_iff hnd1 hmem1, min_eq_left (by omega)]
      omega
    · intro hone _
      rw [hlen1]
      omega

end Count

/-- For a non-empty store the candidate range of `findControls` is a non-empty
range of valid indices. -/
theorem candidateRange_valid (cfg : Config) (store : List NestingCohortData)
    (caseData : CaseData) (hne : store ≠ []) :
    ∃ lb ub, candidateRange cfg store caseData = some (lb, ub) ∧
      0 ≤ lb ∧ lb ≤ ub ∧ ub < store.length := by
  have hlen : 0 < store.length := List.length_pos.mpr hne
  unfold candidateRange
  cases hage : cfg.matchOnAge
  · exact ⟨0, (store.length : Int) - 1, by simp, le_refl _, by omega, by omega⟩
  · obtain ⟨lb, ub, h1, h2, h3, h4, h5⟩ := binarySearch_range_valid store
      (caseData.dateOfBirth - cfg.ageCaliperDays) (caseData.dateOfBirth + cfg.ageCaliperDays) hne
    exact ⟨lb, ub, by simp [h1, h2], h3, h4, h5⟩

/-- When the quota is zero the probing loop does nothing. -/
theorem probeLoop_zero_quota (cfg : Config) (store : List NestingCohortData) (gen : Nat → Nat)
    (personId : Int) (caseData : CaseData) (indexDate stratumId lb ub : Int)
    (hq : cfg.controlsPerCase = 0) (fuel : Nat) (s : Sampling) :
    probeLoop cfg store gen personId caseData indexDate stratumId lb ub fuel s = some s := by
  cases fuel
  · rfl
  · unfold probeLoop
    rw [if_neg (by simp [sizeLt, hq])]

/-- When the call is defined, `findControls` returns and the number of distinct
persons among its rows is the smaller of the quota and the number of available
controls of the candidate range. -/
theorem findControls_count_on_range (cfg : Config) (store : List NestingCohortData)
    (gen : Nat → Nat) (personId : Int) (caseData : CaseData) (indexDate stratumId : Int)
    (draws : Nat) (hc : 0 ≤ cfg.controlsPerCase)
    (hne : store ≠ [] ∨ cfg.controlsPerCase = 0)
    (hdef : ∀ lb ub, candidateRange cfg store caseData = some (lb, ub) →
      ∀ (i : Int) (r : NestingCohortData), lb ≤ i → i ≤ ub → getAt store i = some r →
        ∃ value, isMatch cfg r caseData indexDate = some value) :
    ∃ lb ub rows d, candidateRange cfg store caseData = some (lb, ub) ∧
      findControls cfg store gen personId caseData indexDate stratumId draws = some (rows, d) ∧
      (((rows.map (fun r => r.personId)).dedup.length : Nat) : Int) =
        min cfg.controlsPerCase
          ((availableControls cfg store personId caseData indexDate lb ub).length : Int) ∧
      (cfg.controlsPerCase = 1 →
        (availableControls cfg store personId caseData indexDate lb ub).length = 1 →
        rows.length = 1) := by
  by_cases hs : store = []
  · have hq : cfg.controlsPerCase = 0 := hne.resolve_left (fun h => h hs)
    subst hs
    have hr : ∃ lb ub, candidateRange cfg [] caseData = some (lb, ub) ∧ ¬ ub < lb ∨
        candidateRange cfg [] caseData = some (lb, ub) ∧ cfg.matchOnAge = false := by
      unfold candidateRange
      cases hage : cfg.matchOnAge
      · exact ⟨0, -1, Or.inr ⟨by simp, rfl⟩⟩
      · exact ⟨0, 0, Or.inl ⟨by
          simp [binarySearchDateOfBirthLowerBound, binarySearchDateOfBirthUpperBound,
            lowerBoundSearchLoop, upperBoundSearchLoop], by omega⟩⟩
    obtain ⟨lb, ub, hr⟩ := hr
    have hr1 : candidateRange cfg [] caseData = some (lb, ub) := by
      rcases hr with h | h <;> exact h.1
    have hr2 : ¬ (cfg.matchOnAge = true ∧ ub < lb) := by
      rcases hr with h | h
      · exact fun hcon => h.2 hcon.2
      · exact fun hcon => by rw [h.2] at hcon; cases hcon.1
    refine ⟨lb, ub, [], draws, hr1, ?_, ?_, ?_⟩
    · unfold findControls
      simp only [hr1]
      rw [if_neg hr2]
      unfold sampleControls
      rw [probeLoop_zero_quota cfg [] gen personId caseData indexDate stratumId lb ub hq]
      simp only
      rw [if_neg (by simp [sizeLt, hq])]
    · rw [hq]
      simp
    · intro h1
      rw [hq] at h1
      cases h1
  · obtain ⟨lb, ub, hr, h0, hle, hn⟩ := candidateRange_valid cfg store caseData hs
    obtain ⟨rows, d, hsc, hcount, hone⟩ := sampleControls_count cfg store gen personId caseData
      indexDate stratumId lb ub hc h0 hle hn (hdef lb ub hr) draws
    refine ⟨lb, ub, rows, d, hr, ?_, hcount, hone⟩
    unfold findControls
    simp only [hr]
    rw [if_neg (fun hcon => by omega)]
    exact hsc

/-- C6. When the call is defined (the match test is defined on every record
of the candidate range, and the store is not empty unless no control is asked
for), `findControls` returns, and the number of distinct control person ids it
emits is `min(controlsPerCase, A)`, with `A` the number of distinct person ids
other than the case's that have a record in the candidate range passing
`isMatch`; with `controlsPerCase = 1` and `A = 1` exactly one control row is
emitted, whatever the draws. -/
theorem findControls_control_count (cfg : Config) (store : List NestingCohortData)
    (gen : Nat → Nat) (personId : Int) (caseData : CaseData) (indexDate stratumId : Int)
    (draws : Nat) (hc : 0 ≤ cfg.controlsPerCase)
    (hne : store ≠ [] ∨ cfg.controlsPerCase = 0)
    (hdef : ∀ r ∈ candidateRecords cfg store caseData,
      (isMatch cfg r caseData indexDate).isSome = true) :
    ∃ rows d,
      findControls cfg store gen personId caseData indexDate stratumId draws = some (rows, d) ∧
      (((rows.map (fun r => r.personId)).dedup.length : Nat) : Int) =
        min cfg.controlsPerCase
          ((eligibleControls cfg store personId caseData indexDate).length : Int) ∧
      (cfg.controlsPerCase = 1 →
        (eligibleControls cfg store personId caseData indexDate).length = 1 →
        rows.length = 1) := by
  obtain ⟨lb, ub, rows, d, hr, hfc, hcount, hone⟩ := findControls_count_on_range cfg store gen
    personId caseData indexDate stratumId draws hc hne
    (fun lb ub hr i r hi1 hi2 hget => Option.isSome_iff_exists.mp (hdef r (by
      unfold candidateRecords rangeRecords
      simp only [hr]
      exact List.mem_filterMap.mpr ⟨i, (mem_scanIndices_iff lb ub).mpr ⟨hi1, hi2⟩, hget⟩)))
  have he : eligibleControls cfg store personId caseData indexDate
      = availableControls cfg store personId caseData indexDate lb ub := by
    unfold eligibleControls
    simp only [hr]
  rw [he]
  exact ⟨rows, d, hfc, hcount, hone⟩

/-- An instance of C6 on `smallStore`, with one control asked for and one
person available. -/
theorem findControls_control_count_witness :
    (0 ≤ plainConfig.controlsPerCase ∧
      (smallStore ≠ [] ∨ plainConfig.controlsPerCase = 0) ∧
      ∀ r ∈ candidateRecords plainConfig smallStore (snapshot 0),
        (isMatch plainConfig r (snapshot 0) 50).isSome = true) ∧
    ∃ rows d,
      findControls plainConfig smallStore (fun _ => 0) 1 (snapshot 0) 50 1 0 = some (rows, d) ∧
      (((rows.map (fun r => r.personId)).dedup.length : Nat) : Int) =
        min plainConfig.controlsPerCase
          ((eligibleControls plainConfig smallStore 1 (snapshot 0) 50).length : Int) ∧
      (plainConfig.controlsPerCase = 1 →
        (eligibleControls plainConfig smallStore 1 (snapshot 0) 50).length = 1 →
        rows.length = 1) :=
  ⟨⟨by decide, Or.inl (by decide), by decide⟩,
    findControls_control_count plainConfig smallStore (fun _ => 0) 1 (snapshot 0) 50 1 0
      (by decide) (Or.inl (by decide)) (by decide)⟩

/-! ## The per-case loop in first-outcome-only mode -/

/-- The control rows of `findControls` are not case rows. -/
theorem findControls_isCase (cfg : Config) (store : List NestingCohortData) (gen : Nat → Nat)
    (personId : Int) (caseData : CaseData) (indexDate stratumId : Int) (draws : Nat)
    (out : List Row × Nat)
    (h : findControls cfg store gen personId caseData indexDate stratumId draws = some out) :
    ∀ r ∈ out.1, r.isCase = false ∧ r.stratumId = stratumId ∧ r.personId ≠ personId := by
  obtain ⟨lb, ub, _, hj⟩ := findControls_justified cfg store gen personId caseData indexDate
    stratumId draws out h
  intro r hr
  obtain ⟨i, controlData, value, _, _, _, _, _, hp, rfl⟩ := hj r hr
  exact ⟨rfl, rfl, hp⟩

/-- The insertion sort by date is an admissible `std::sort`. -/
theorem sortIndexDates_isDateSort : IsDateSort sortIndexDates := by
  haveI : IsTotal IndexDate (fun a b => a.date ≤ b.date) := ⟨fun a b => le_total a.date b.date⟩
  haveI : IsTrans IndexDate (fun a b => a.date ≤ b.date) :=
    ⟨fun a b c hab hbc => le_trans hab hbc⟩
  intro ds
  exact ⟨List.perm_insertionSort _ ds, List.sorted_insertionSort _ ds⟩

/-- The entry that `std::sort` places first carries the earliest date. -/
theorem dateSort_head {sortDates : List IndexDate → List IndexDate}
    (hsort : IsDateSort sortDates) {ds : List IndexDate} {d : IndexDate}
    {rest : List IndexDate} (h : sortDates ds = d :: rest) :
    d ∈ ds ∧ ∀ e ∈ ds, d.date ≤ e.date := by
  obtain ⟨hperm, hsorted⟩ := hsort ds
  rw [h] at hsorted hperm
  constructor
  · exact hperm.mem_iff.mp (List.mem_cons_self _ _)
  · intro e he
    have he2 := hperm.mem_iff.mpr he
    rw [List.mem_cons] at he2
    rcases he2 with rfl | he2
    · exact le_refl _
    · exact List.rel_of_sorted_cons hsorted e he2

/-- Sorting gives the empty list only for the empty list. -/
theorem dateSort_eq_nil {sortDates : List IndexDate → List IndexDate}
    (hsort : IsDateSort sortDates) {ds : List IndexDate} (h : sortDates ds = []) : ds = [] := by
  have hperm := (hsort ds).1
  rw [h] at hperm
  exact List.length_eq_zero.mp hperm.length_eq.symm

/-- What the loop body of `processCase` does for one entry. -/
theorem processEntry_spec (cfg : Config) (store : List NestingCohortData) (gen : Nat → Nat)
    (personId : Int) (caseData : CaseData) (d : IndexDate) (st st1 : RunState)
    (h : processEntry cfg store gen personId caseData d st = some st1) :
    (d.washedOut = true ∧ st1 = st) ∨
    (d.washedOut = false ∧ ∃ controls draws,
      findControls cfg store gen personId caseData d.date (st.stratumId + 1) st.draws
        = some (controls, draws) ∧
      st1 = ⟨st.rows ++ [⟨personId, d.date, true, st.stratumId + 1⟩] ++ controls, draws,
        st.stratumId + 1⟩) := by
  unfold processEntry at h
  split at h
  · rename_i hw
    split at h
    · cases h
    · rename_i controls draws hfc
      injection h with h
      exact Or.inr ⟨hw, controls, draws, hfc, h.symm⟩
  · rename_i hw
    injection h with h
    exact Or.inl ⟨by simpa using hw, h.symm⟩

/-- In first-outcome-only mode `processCase` processes the entry that
`std::sort` places first, and nothing else. -/
theorem processCase_first_entry (cfg : Config) (store : List NestingCohortData)
    (gen : Nat → Nat) (sortDates : List IndexDate → List IndexDate) (personId : Int)
    (caseData : CaseData) (st st1 : RunState) (hsort : IsDateSort sortDates)
    (hf : cfg.firstOutcomeOnly = true)
    (h : processCase cfg store gen sortDates personId caseData st = some st1) :
    (caseData.indexDates = [] ∧ st1 = st) ∨
    ∃ d rest, sortDates caseData.indexDates = d :: rest ∧ d ∈ caseData.indexDates ∧
      (∀ e ∈ caseData.indexDates, d.date ≤ e.date) ∧
      ((d.washedOut = true ∧ st1 = st) ∨
        (d.washedOut = false ∧ ∃ controls,
          st1.rows = st.rows ++ ⟨personId, d.date, true, st.stratumId + 1⟩ :: controls ∧
          (∀ r ∈ controls, r.isCase = false) ∧ st1.stratumId = st.stratumId + 1)) := by
  unfold processCase at h
  cases hs : sortDates caseData.indexDates with
  | nil =>
    left
    rw [hs] at h
    simp only [processEntries, Option.some.injEq] at h
    exact ⟨dateSort_eq_nil hsort hs, h.symm⟩
  | cons d rest =>
    right
    obtain ⟨hd1, hd2⟩ := dateSort_head hsort hs
    refine ⟨d, rest, rfl, hd1, hd2, ?_⟩
    rw [hs] at h
    unfold processEntries at h
    split at h
    · cases h
    · rename_i st2 hst2
      rw [if_pos hf] at h
      injection h with h
      subst h
      rcases processEntry_spec cfg store gen personId _ d st st2 hst2 with
        ⟨hw, heq⟩ | ⟨hw, controls, draws, hfc, heq⟩
      · exact Or.inl ⟨hw, heq⟩
      · right
        refine ⟨hw, controls, ?_, ?_, ?_⟩
        · rw [heq]
          simp
        · intro r hr
          exact (findControls_isCase cfg store gen personId _ d.date _ st.draws
            (controls, draws) hfc r hr).1
        · rw [heq]

/-- C5 (as amended). With first-outcome-only mode enabled, whatever order
`std::sort` gives to entries of equal dates, `processCase` looks only at the entry
sorted first, which carries the person's earliest index date: when that entry is
not washed out exactly one case row is emitted, dated at the earliest index
date, with a fresh stratum id and followed only by control rows; when it is
washed out (or the list is empty) nothing is emitted, even if later entries are
valid. So nothing is emitted when every entry of the earliest date is washed
out, and one case row at the earliest date when every entry of the earliest
date is valid. -/
theorem processCase_first_outcome_only (cfg : Config) (store : List NestingCohortData)
    (gen : Nat → Nat) (sortDates : List IndexDate → List IndexDate) (personId : Int)
    (caseData : CaseData) (st st1 : RunState) (hsort : IsDateSort sortDates)
    (hf : cfg.firstOutcomeOnly = true)
    (h : processCase cfg store gen sortDates personId caseData st = some st1) :
    ((caseData.indexDates = [] ∧ st1 = st) ∨
      ∃ d rest, sortDates caseData.indexDates = d :: rest ∧ d ∈ caseData.indexDates ∧
        (∀ e ∈ caseData.indexDates, d.date ≤ e.date) ∧
        ((d.washedOut = true ∧ st1 = st) ∨
          (d.washedOut = false ∧ ∃ controls,
            st1.rows = st.rows ++ ⟨personId, d.date, true, st.stratumId + 1⟩ :: controls ∧
            (∀ r ∈ controls, r.isCase = false) ∧ st1.stratumId = st.stratumId + 1))) ∧
    ((∀ e ∈ caseData.indexDates, (∀ e1 ∈ caseData.indexDates, e.date ≤ e1.date) →
        e.washedOut = true) → st1 = st) ∧
    (caseData.indexDates ≠ [] →
      (∀ e ∈ caseData.indexDates, (∀ e1 ∈ caseData.indexDates, e.date ≤ e1.date) →
        e.washedOut = false) →
      ∃ d controls, d ∈ caseData.indexDates ∧ (∀ e ∈ caseData.indexDates, d.date ≤ e.date) ∧
        st1.rows = st.rows ++ ⟨personId, d.date, true, st.stratumId + 1⟩ :: controls ∧
        (∀ r ∈ controls, r.isCase = false) ∧ st1.stratumId = st.stratumId + 1) := by
  have hmain := processCase_first_entry cfg store gen sortDates personId caseData st st1 hsort
    hf h
  refine ⟨hmain, ?_, ?_⟩
  · intro hall
    rcases hmain with ⟨_, heq⟩ | ⟨d, rest, _, hd1, hd2, hcase⟩
    · exact heq
    · rcases hcase with ⟨_, heq⟩ | ⟨hw, _⟩
      · exact heq
      · rw [hall d hd1 hd2] at hw
        cases hw
  · intro hne hall
    rcases hmain with ⟨hnil, _⟩ | ⟨d, rest, _, hd1, hd2, hcase⟩
    · exact absurd hnil hne
    · rcases hcase with ⟨hw, _⟩ | ⟨_, controls, h1, h2, h3⟩
      · rw [hall d hd1 hd2] at hw
        cases hw
      · exact ⟨d, controls, hd1, hd2, h1, h2, h3⟩

/-- An instance of C5 (as amended) for a person with outcomes on days 50 and
20, neither washed out: only day 20 yields a case row. -/
theorem processCase_first_outcome_only_witness :
    (IsDateSort sortIndexDates ∧ firstOnlyConfig.firstOutcomeOnly = true ∧
      processCase firstOnlyConfig washedFirstRecords (fun _ => 1) sortIndexDates 1
        { snapshot 0 with indexDates := [⟨50, false⟩, ⟨20, false⟩] } ⟨[], 0, 0⟩
        = some ⟨[⟨1, 20, true, 1⟩, ⟨2, 20, false, 1⟩], 1, 1⟩) ∧
    ((({ snapshot 0 with indexDates := [⟨50, false⟩, ⟨20, false⟩] } : CaseData).indexDates = [] ∧
        (⟨[⟨1, 20, true, 1⟩, ⟨2, 20, false, 1⟩], 1, 1⟩ : RunState) = ⟨[], 0, 0⟩) ∨
      ∃ d rest,
        sortIndexDates ({ snapshot 0 with indexDates := [⟨50, false⟩, ⟨20, false⟩] } :
          CaseData).indexDates = d :: rest ∧
        d ∈ ({ snapshot 0 with indexDates := [⟨50, false⟩, ⟨20, false⟩] } : CaseData).indexDates ∧
        (∀ e ∈ ({ snapshot 0 with indexDates := [⟨50, false⟩, ⟨20, false⟩] } :
          CaseData).indexDates, d.date ≤ e.date) ∧
        ((d.washedOut = true ∧
            (⟨[⟨1, 20, true, 1⟩, ⟨2, 20, false, 1⟩], 1, 1⟩ : RunState) = ⟨[], 0, 0⟩) ∨
          (d.washedOut = false ∧ ∃ controls,
            (⟨[⟨1, 20, true, 1⟩, ⟨2, 20, false, 1⟩], 1, 1⟩ : RunState).rows
              = (⟨[], 0, 0⟩ : RunState).rows ++ ⟨1, d.date, true, (0 : Int) + 1⟩ :: controls ∧
            (∀ r ∈ controls, r.isCase = false) ∧
            (⟨[⟨1, 20, true, 1⟩, ⟨2, 20, false, 1⟩], 1, 1⟩ : RunState).stratumId
              = (0 : Int) + 1))) :=
  ⟨⟨sortIndexDates_isDateSort, by decide, by decide⟩,
    (processCase_first_outcome_only firstOnlyConfig washedFirstRecords (fun _ => 1)
      sortIndexDates 1 { snapshot 0 with indexDates := [⟨50, false⟩, ⟨20, false⟩] } ⟨[], 0, 0⟩
      ⟨[⟨1, 20, true, 1⟩, ⟨2, 20, false, 1⟩], 1, 1⟩ sortIndexDates_isDateSort (by decide)
      (by decide)).1⟩

/-- C5 (as stated) fails: for person 1 of `washedFirstRecords` the constructor
stores a washed-out outcome on day 5 and a valid one on day 50 (no two entries
share a date); in first-outcome-only mode, for every admissible `std::sort`,
`processCase` stops after the washed-out entry and emits no case row, where the
claim asks for one case row dated 50. -/
theorem processCase_washed_out_first :
    mapFind (construct firstOnlyConfig washedFirstRecords).personId2CaseData 1
        = some washedFirstCase ∧
    (∃ d ∈ washedFirstCase.indexDates, d.washedOut = false) ∧
    ∀ sortDates, IsDateSort sortDates →
      processCase firstOnlyConfig
          (construct firstOnlyConfig washedFirstRecords).nestingCohortDatas (fun _ => 1)
          sortDates 1 washedFirstCase ⟨[], 0, 0⟩ = some ⟨[], 0, 0⟩ ∧
      ¬ ∃ st1, processCase firstOnlyConfig
          (construct firstOnlyConfig washedFirstRecords).nestingCohortDatas (fun _ => 1)
          sortDates 1 washedFirstCase ⟨[], 0, 0⟩ = some st1 ∧
        (st1.rows.filter (fun r => r.isCase)).map (fun r => r.date) = [50] := by
  refine ⟨by decide, by decide, ?_⟩
  intro sortDates hsort
  have h3 : processCase firstOnlyConfig
      (construct firstOnlyConfig washedFirstRecords).nestingCohortDatas (fun _ => 1)
      sortDates 1 washedFirstCase ⟨[], 0, 0⟩ = some ⟨[], 0, 0⟩ := by
    unfold processCase
    cases hs : sortDates washedFirstCase.indexDates with
    | nil =>
      have hnil := dateSort_eq_nil hsort hs
      exact absurd hnil (by decide)
    | cons d rest =>
      obtain ⟨hd1, hd2⟩ := dateSort_head hsort hs
      have hw : d.washedOut = true := by
        have hmem : d = ⟨5, true⟩ ∨ d = ⟨50, false⟩ := by
          simpa [washedFirstCase] using hd1
        rcases hmem with rfl | rfl
        · rfl
        · have := hd2 ⟨5, true⟩ (by decide)
          exact absurd this (by decide)
      have hfirst : firstOnlyConfig.firstOutcomeOnly = true := by decide
      simp only [processEntries, processEntry, hw, hfirst, Bool.true_eq_false, if_false,
        if_true]
  refine ⟨h3, ?_⟩
  rintro ⟨st1, h1, h2⟩
  rw [h3] at h1
  injection h1 with h1
  subst h1
  simp at h2

/-! ## The constructor -/

theorem mapFind_eq_none {m : List (Int × CaseData)} {k : Int} :
    mapFind m k = none ↔ k ∉ m.map Prod.fst := by
  unfold mapFind
  rw [Option.map_eq_none', List.find?_eq_none]
  simp only [decide_eq_true_eq, List.mem_map, not_exists, not_and]

theorem mapFind_eq_some {m : List (Int × CaseData)} {k : Int} {v : CaseData}
    (hnd : (m.map Prod.fst).Nodup) : mapFind m k = some v ↔ (k, v) ∈ m := by
  induction m with
  | nil => simp [mapFind]
  | cons p rest ih =>
    rw [List.map_cons, List.nodup_cons] at hnd
    unfold mapFind at ih ⊢
    rw [List.find?_cons]
    by_cases hk : p.1 = k
    · simp only [hk, decide_True, Option.map_some', Option.some.injEq, List.mem_cons]
      constructor
      · intro h
        left
        rw [← h, ← hk]
      · rintro (h | h)
        · rw [← h]
        · exfalso
          apply hnd.1
          rw [hk]
          exact List.mem_map_of_mem Prod.fst h
    · simp only [hk, decide_False, List.mem_cons]
      rw [ih hnd.2]
      constructor
      · exact Or.inr
      · rintro (h | h)
        · exfalso
          apply hk
          rw [← h]
        · exact h

theorem mem_mapInsert {m : List (Int × CaseData)} {k : Int} {v : CaseData}
    (hk : k ∉ m.map Prod.fst) (q : Int × CaseData) :
    q ∈ mapInsert m k v ↔ q = (k, v) ∨ q ∈ m := by
  induction m with
  | nil => simp [mapInsert]
  | cons p rest ih =>
    rw [List.map_cons, List.mem_cons, not_or] at hk
    unfold mapInsert
    split
    · simp
    · rw [if_neg hk.1, List.mem_cons, ih hk.2, List.mem_cons]
      tauto

theorem nodup_mapInsert {m : List (Int × CaseData)} {k : Int} {v : CaseData}
    (hk : k ∉ m.map Prod.fst) (hnd : (m.map Prod.fst).Nodup) :
    ((mapInsert m k v).map Prod.fst).Nodup := by
  induction m with
  | nil => simp [mapInsert]
  | cons p rest ih =>
    have hk0 := hk
    rw [List.map_cons, List.mem_cons, not_or] at hk
    rw [List.map_cons, List.nodup_cons] at hnd
    unfold mapInsert
    split
    · rw [List.map_cons, List.nodup_cons]
      exact ⟨hk0, by rw [List.map_cons, List.nodup_cons]; exact hnd⟩
    · rw [if_neg hk.1, List.map_cons, List.nodup_cons]
      refine ⟨?_, ih hk.2 hnd.2⟩
      intro hcon
      obtain ⟨q, hq, hq1⟩ := List.mem_map.mp hcon
      rcases (mem_mapInsert hk.2 q).mp hq with rfl | hq2
      · exact hk.1 hq1
      · exact hnd.1 (hq1 ▸ List.mem_map_of_mem Prod.fst hq2)

theorem map_fst_mapPushIndexDate (m : List (Int × CaseData)) (k : Int) (d : IndexDate) :
    (mapPushIndexDate m k d).map Prod.fst = m.map Prod.fst := by
  unfold mapPushIndexDate
  rw [List.map_map]
  apply List.map_congr_left
  intro p _
  simp only [Function.comp]
  split <;> rfl

theorem mem_mapPushIndexDate {m : List (Int × CaseData)} {k : Int} {d : IndexDate}
    {q : Int × CaseData} (hq : q ∈ mapPushIndexDate m k d) :
    ∃ q0 ∈ m, q.1 = q0.1 ∧ q.2.dateOfBirth = q0.2.dateOfBirth := by
  unfold mapPushIndexDate at hq
  obtain ⟨q0, hq0, rfl⟩ := List.mem_map.mp hq
  refine ⟨q0, hq0, ?_⟩
  split <;> exact ⟨rfl, rfl⟩

theorem addIndexDates_keeps (cfg : Config) (r : NestingCohortData) :
    ∀ (dates : List Int) (m : List (Int × CaseData)),
      (addIndexDates cfg r dates m).map Prod.fst = m.map Prod.fst ∧
      ∀ q ∈ addIndexDates cfg r dates m,
        ∃ q0 ∈ m, q.1 = q0.1 ∧ q.2.dateOfBirth = q0.2.dateOfBirth := by
  intro dates
  induction dates with
  | nil => intro m; exact ⟨rfl, fun q hq => ⟨q, hq, rfl, rfl⟩⟩
  | cons date rest ih =>
    intro m
    unfold addIndexDates
    split
    · obtain ⟨h1, h2⟩ := ih (mapPushIndexDate m r.personId ⟨date, washedOutFlag cfg r date⟩)
      refine ⟨by rw [h1, map_fst_mapPushIndexDate], ?_⟩
      intro q hq
      obtain ⟨q1, hq1, h3, h4⟩ := h2 q hq
      obtain ⟨q0, hq0, h5, h6⟩ := mem_mapPushIndexDate hq1
      exact ⟨q0, hq0, h3.trans h5, h4.trans h6⟩
    · exact ih m

theorem loadRecord_inv (cfg : Config) (s : Selector) (r : NestingCohortData) (hs : LoadInv s) :
    LoadInv (loadRecord cfg s r) := by
  unfold loadRecord
  split
  · obtain ⟨hnd, hdob⟩ := hs
    simp only
    split
    · rename_i hnone
      have hk : r.personId ∉ s.personId2CaseData.map Prod.fst :=
        mapFind_eq_none.mp (Option.isNone_iff_eq_none.mp hnone)
      obtain ⟨h1, h2⟩ := addIndexDates_keeps cfg r r.indexDates
        (mapInsert s.personId2CaseData r.personId
          ⟨r.genderConceptId, r.dateOfBirth, r.providerId, r.careSiteId, r.startDate, []⟩)
      refine ⟨by rw [h1]; exact nodup_mapInsert hk hnd, ?_⟩
      intro q hq
      obtain ⟨q0, hq0, h3, h4⟩ := h2 q hq
      rcases (mem_mapInsert hk q0).mp hq0 with rfl | hq1
      · exact ⟨r, List.mem_append_right _ (List.mem_singleton_self r), h3.symm, h4.symm⟩
      · obtain ⟨r0, hr0, h5, h6⟩ := hdob q0 hq1
        exact ⟨r0, List.mem_append_left _ hr0, h5.trans h3.symm, h6.trans h4.symm⟩
    · obtain ⟨h1, h2⟩ := addIndexDates_keeps cfg r r.indexDates s.personId2CaseData
      refine ⟨by rw [h1]; exact hnd, ?_⟩
      intro q hq
      obtain ⟨q0, hq0, h3, h4⟩ := h2 q hq
      obtain ⟨r0, hr0, h5, h6⟩ := hdob q0 hq0
      exact ⟨r0, List.mem_append_left _ hr0, h5.trans h3.symm, h6.trans h4.symm⟩
  · exact hs

theorem foldl_loadRecord_inv (cfg : Config) :
    ∀ (records : List NestingCohortData) (s : Selector), LoadInv s →
      LoadInv (records.foldl (loadRecord cfg) s) := by
  intro records
  induction records with
  | nil => intro s hs; exact hs
  | cons r rest ih => intro s hs; exact ih _ (loadRecord_inv cfg s r hs)

theorem mem_sortStore {store : List NestingCohortData} {r : NestingCohortData} :
    r ∈ sortStore store ↔ r ∈ store :=
  List.mem_insertionSort _

theorem sortStore_sorted (store : List NestingCohortData) : SortedByDob (sortStore store) := by
  haveI : IsTotal NestingCohortData (fun a b => a.dateOfBirth ≤ b.dateOfBirth) :=
    ⟨fun a b => le_total a.dateOfBirth b.dateOfBirth⟩
  haveI : IsTrans NestingCohortData (fun a b => a.dateOfBirth ≤ b.dateOfBirth) :=
    ⟨fun a b c hab hbc => le_trans hab hbc⟩
  exact sortedByDob_of_sorted _ (List.sorted_insertionSort _ store)

/-- After construction the case index has distinct person ids, and each of its
case records carries the date of birth of a record of that person in the
store; with age matching the store is sorted by date of birth. -/
theorem construct_inv (cfg : Config) (records : List NestingCohortData) :
    LoadInv (construct cfg records) ∧
      (cfg.matchOnAge = true → SortedByDob (construct cfg records).nestingCohortDatas) := by
  have h := foldl_loadRecord_inv cfg records ⟨[], []⟩
    ⟨List.nodup_nil, fun q hq => by cases hq⟩
  unfold construct
  cases hage : cfg.matchOnAge
  · exact ⟨h, fun hcon => by cases hcon⟩
  · simp only [if_true]
    refine ⟨⟨h.1, ?_⟩, fun _ => sortStore_sorted _⟩
    intro q hq
    obtain ⟨r, hr, h1, h2⟩ := h.2 q hq
    exact ⟨r, mem_sortStore.mpr hr, h1, h2⟩

/-! ## The age caliper in the output of `selectControls` -/

/-- With age matching on a sorted store that holds a record with the case's
date of birth, every control row of `findControls` comes from a record born
within the caliper of the case. -/
theorem findControls_age_window (cfg : Config) (store : List NestingCohortData)
    (gen : Nat → Nat) (personId : Int) (caseData : CaseData) (indexDate stratumId : Int)
    (draws : Nat) (out : List Row × Nat) (hage : cfg.matchOnAge = true)
    (hcal : 0 ≤ cfg.ageCaliperDays) (hs : SortedByDob store)
    (hw : ∃ r ∈ store, r.dateOfBirth = caseData.dateOfBirth)
    (h : findControls cfg store gen personId caseData indexDate stratumId draws = some out) :
    ∀ row ∈ out.1, row.isCase = false ∧ row.stratumId = stratumId ∧
      ∃ r ∈ store, r.personId = row.personId ∧ r.personId ≠ personId ∧
        |r.dateOfBirth - caseData.dateOfBirth| ≤ cfg.ageCaliperDays := by
  obtain ⟨lb, ub, hr, hj⟩ := findControls_justified cfg store gen personId caseData indexDate
    stratumId draws out h
  obtain ⟨w, hwm, hwd⟩ := hw
  obtain ⟨lb2, ub2, h1, h2, _, _, _, hexact⟩ := binarySearch_range_exact store
    (caseData.dateOfBirth - cfg.ageCaliperDays) (caseData.dateOfBirth + cfg.ageCaliperDays) hs
    ⟨w, hwm, by omega, by omega⟩
  have hr2 : candidateRange cfg store caseData = some (lb2, ub2) := by
    unfold candidateRange
    simp [hage, h1, h2]
  rw [hr2] at hr
  injection hr with hr
  injection hr with hlb hub
  subst hlb hub
  intro row hrow
  obtain ⟨i, controlData, value, hi1, hi2, hget, _, _, hp, rfl⟩ := hj row hrow
  refine ⟨rfl, rfl, controlData, getAt_mem hget, rfl, hp, ?_⟩
  have := (hexact i controlData hget).mp ⟨hi1, hi2⟩
  rw [abs_le]
  constructor <;> omega

/-- Induction over the loop of `processCase`: a property of the run state
that every emitted stratum preserves holds at the end. -/
theorem processEntries_induct (P : RunState → Prop) (cfg : Config)
    (store : List NestingCohortData) (gen : Nat → Nat) (personId : Int) (caseData : CaseData)
    (ds : List IndexDate)
    (hstep : ∀ (d : IndexDate) (st : RunState) (controls : List Row) (draws : Nat),
      d ∈ ds → d.washedOut = false → P st →
      findControls cfg store gen personId caseData d.date (st.stratumId + 1) st.draws
        = some (controls, draws) →
      P ⟨st.rows ++ [⟨personId, d.date, true, st.stratumId + 1⟩] ++ controls, draws,
        st.stratumId + 1⟩) :
    ∀ (st st1 : RunState), P st →
      processEntries cfg store gen personId caseData ds st = some st1 → P st1 := by
  induction ds with
  | nil =>
    intro st st1 hP h
    simp only [processEntries, Option.some.injEq] at h
    exact h ▸ hP
  | cons d rest ih =>
    intro st st1 hP h
    unfold processEntries at h
    split at h
    · cases h
    · rename_i st2 hst2
      have hP2 : P st2 := by
        rcases processEntry_spec cfg store gen personId caseData d st st2 hst2 with
          ⟨_, heq⟩ | ⟨hw, controls, draws, hfc, heq⟩
        · exact heq ▸ hP
        · rw [heq]
          exact hstep d st controls draws (List.mem_cons_self _ _) hw hP hfc
      split at h
      · injection h with h
        exact h ▸ hP2
      · exact ih (fun d0 st0 controls draws hd0 => hstep d0 st0 controls draws
          (List.mem_cons_of_mem _ hd0)) st2 st1 hP2 h

/-- Induction over the loop of `selectControls`: a property of the run state
that every emitted stratum preserves holds at the end. -/
theorem processCases_induct (P : RunState → Prop) (cfg : Config)
    (store : List NestingCohortData) (gen : Nat → Nat)
    (sortDates : List IndexDate → List IndexDate) (m : List (Int × CaseData))
    (hstep : ∀ (q : Int × CaseData) (d : IndexDate) (st : RunState) (controls : List Row)
      (draws : Nat), q ∈ m → d ∈ sortDates q.2.indexDates → d.washedOut = false → P st →
      findControls cfg store gen q.1
        { q.2 with indexDates := sortDates q.2.indexDates } d.date
        (st.stratumId + 1) st.draws = some (controls, draws) →
      P ⟨st.rows ++ [⟨q.1, d.date, true, st.stratumId + 1⟩] ++ controls, draws,
        st.stratumId + 1⟩) :
    ∀ (st st1 : RunState), P st →
      processCases cfg store gen sortDates m st = some st1 → P st1 := by
  induction m with
  | nil =>
    intro st st1 hP h
    simp only [processCases, Option.some.injEq] at h
    exact h ▸ hP
  | cons q rest ih =>
    intro st st1 hP h
    unfold processCases at h
    split at h
    · cases h
    · rename_i st2 hst2
      have hP2 : P st2 := by
        unfold processCase at hst2
        exact processEntries_induct P cfg store gen q.1 _ _
          (fun d st0 controls draws hd hw hP0 hfc =>
            hstep q d st0 controls draws (List.mem_cons_self _ _) hd hw hP0 hfc)
          st st2 hP hst2
      exact ih (fun q0 d st0 controls draws hq0 => hstep q0 d st0 controls draws
        (List.mem_cons_of_mem _ hq0)) st2 st1 hP2 h

/-- The age invariant holds before the first stratum. -/
theorem ageInv_init (cfg : Config) (sel : Selector) : AgeInv cfg sel ⟨[], 0, 0⟩ := by
  refine ⟨?_, ?_, ?_⟩
  · intro r hr
    cases hr
  · intro c hc
    cases hc
  · intro r hr
    cases hr

/-- One emitted stratum preserves the age invariant of the main loop. -/
theorem ageInv_step (cfg : Config) (sel : Selector) (gen : Nat → Nat)
    (sortDates : List IndexDate → List IndexDate)
    (hage : cfg.matchOnAge = true) (hcal : 0 ≤ cfg.ageCaliperDays) (hsel : LoadInv sel)
    (hsorted : SortedByDob sel.nestingCohortDatas)
    (q : Int × CaseData) (d : IndexDate) (st : RunState) (controls : List Row) (draws : Nat)
    (hq : q ∈ sel.personId2CaseData) (hP : AgeInv cfg sel st)
    (hfc : findControls cfg sel.nestingCohortDatas gen q.1
      { q.2 with indexDates := sortDates q.2.indexDates } d.date
      (st.stratumId + 1) st.draws = some (controls, draws)) :
    AgeInv cfg sel ⟨st.rows ++ [⟨q.1, d.date, true, st.stratumId + 1⟩] ++ controls, draws,
      st.stratumId + 1⟩ := by
  obtain ⟨hb, hu, hc⟩ := hP
  obtain ⟨hnd, hdob⟩ := hsel
  have hw := findControls_age_window cfg sel.nestingCohortDatas gen q.1
    { q.2 with indexDates := sortDates q.2.indexDates } d.date (st.stratumId + 1) st.draws
    (controls, draws) hage hcal hsorted
    (by obtain ⟨r, hr, _, h2⟩ := hdob q hq; exact ⟨r, hr, h2⟩) hfc
  have hfind : mapFind sel.personId2CaseData q.1 = some q.2 := (mapFind_eq_some hnd).mpr hq
  refine ⟨?_, ?_, ?_⟩
  · intro r hr
    simp only [List.mem_append, List.mem_singleton] at hr
    rcases hr with (hr | rfl) | hr
    · have := hb r hr
      simp only
      omega
    · exact le_refl _
    · rw [(hw r hr).2.1]
  · intro c hcm c1 hc1m hcc hc1c heq
    simp only [List.mem_append, List.mem_singleton] at hcm hc1m
    rcases hcm with (hcm | rfl) | hcm
    · rcases hc1m with (hc1m | rfl) | hc1m
      · exact hu c hcm c1 hc1m hcc hc1c heq
      · have := hb c hcm
        simp only at heq
        omega
      · rw [(hw c1 hc1m).1] at hc1c
        cases hc1c
    · rcases hc1m with (hc1m | rfl) | hc1m
      · have := hb c1 hc1m
        simp only at heq
        omega
      · rfl
      · rw [(hw c1 hc1m).1] at hc1c
        cases hc1c
    · rw [(hw c hcm).1] at hcc
      cases hcc
  · intro row hrow hrc
    simp only [List.mem_append, List.mem_singleton] at hrow
    rcases hrow with (hrow | rfl) | hrow
    · obtain ⟨c, hcm, h1, h2, h3⟩ := hc row hrow hrc
      exact ⟨c, List.mem_append_left _ (List.mem_append_left _ hcm), h1, h2, h3⟩
    · cases hrc
    · obtain ⟨_, h2, r, hr, h3, h4, h5⟩ := hw row hrow
      refine ⟨⟨q.1, d.date, true, st.stratumId + 1⟩,
        List.mem_append_left _ (List.mem_append_right _ (List.mem_singleton_self _)),
        rfl, h2.symm, q.2, hfind, r, hr, h3, h4, h5⟩

/-- C8. With age matching and a non-negative caliper, in the table returned by
`selectControls` on a constructed selector every control row belongs to the
stratum of exactly one case row, and was selected from a store record of
another person whose date of birth `d` satisfies
`|d - caseDob| ≤ ageCaliperDays`, where `caseDob` is the date of birth of the
snapshot of that case; hence a case for which no record of another person is
born inside the window has no control row in its stratum. -/
theorem selectControls_age_caliper (cfg : Config) (records : List NestingCohortData)
    (gen : Nat → Nat) (sortDates : List IndexDate → List IndexDate) (rows : List Row)
    (hage : cfg.matchOnAge = true) (hcal : 0 ≤ cfg.ageCaliperDays)
    (h : selectControls cfg (construct cfg records) gen sortDates = some rows) :
    (∀ row ∈ rows, row.isCase = false →
      ∃ c ∈ rows, c.isCase = true ∧ c.stratumId = row.stratumId ∧
        (∀ c1 ∈ rows, c1.isCase = true → c1.stratumId = row.stratumId → c1 = c) ∧
        WithinAge cfg (construct cfg records) c row) ∧
    (∀ c ∈ rows, c.isCase = true →
      ∀ caseData, mapFind (construct cfg records).personId2CaseData c.personId = some caseData →
      (∀ r ∈ (construct cfg records).nestingCohortDatas, r.personId ≠ c.personId →
        ¬ |r.dateOfBirth - caseData.dateOfBirth| ≤ cfg.ageCaliperDays) →
      ∀ row ∈ rows, row.isCase = false → row.stratumId ≠ c.stratumId) := by
  obtain ⟨hsel, hsorted⟩ := construct_inv cfg records
  have hinv : ∃ st1 : RunState, st1.rows = rows ∧ AgeInv cfg (construct cfg records) st1 := by
    unfold selectControls at h
    split at h
    · injection h with h
      exact ⟨⟨[], 0, 0⟩, h, ageInv_init cfg _⟩
    · obtain ⟨st1, hst1, hrows⟩ := Option.map_eq_some'.mp h
      refine ⟨st1, hrows, ?_⟩
      exact processCases_induct (AgeInv cfg (construct cfg records)) cfg
        (construct cfg records).nestingCohortDatas gen sortDates
        (construct cfg records).personId2CaseData
        (fun q d st controls draws hq _ _ hP hfc =>
          ageInv_step cfg (construct cfg records) gen sortDates hage hcal hsel (hsorted hage)
            q d st controls draws hq hP hfc)
        ⟨[], 0, 0⟩ st1 (ageInv_init cfg _) hst1
  obtain ⟨st1, hrows, _, hu, hc⟩ := hinv
  subst hrows
  have hfirst : ∀ row ∈ st1.rows, row.isCase = false →
      ∃ c ∈ st1.rows, c.isCase = true ∧ c.stratumId = row.stratumId ∧
        (∀ c1 ∈ st1.rows, c1.isCase = true → c1.stratumId = row.stratumId → c1 = c) ∧
        WithinAge cfg (construct cfg records) c row := by
    intro row hrow hrc
    obtain ⟨c, hcm, h1, h2, h3⟩ := hc row hrow hrc
    exact ⟨c, hcm, h1, h2, fun c1 hc1 h4 h5 => hu c1 hc1 c hcm h4 h1 (h5.trans h2.symm), h3⟩
  refine ⟨hfirst, ?_⟩
  intro c hcm hcc caseData hfind hnone row hrow hrc heq
  obtain ⟨c2, hc2m, h1, h2, h3, cd2, hfind2, r, hr, h4, h5, h6⟩ := hfirst row hrow hrc
  have hcc2 : c = c2 := h3 c hcm hcc heq.symm
  subst hcc2
  rw [hfind] at hfind2
  injection hfind2 with hfind2
  subst hfind2
  exact hnone r hr h5 h6

/-- An instance of C8 on `ageRecords`: person 2, born 100 days after the case,
is selected, and person 3, born 10000 days after, is not. -/
theorem selectControls_age_caliper_witness :
    (ageConfig.matchOnAge = true ∧ 0 ≤ ageConfig.ageCaliperDays ∧
      selectControls ageConfig (construct ageConfig ageRecords) (fun n => n) sortIndexDates
        = some [⟨1, 50, true, 1⟩, ⟨2, 50, false, 1⟩]) ∧
    ((∀ row ∈ ([⟨1, 50, true, 1⟩, ⟨2, 50, false, 1⟩] : List Row), row.isCase = false →
      ∃ c ∈ ([⟨1, 50, true, 1⟩, ⟨2, 50, false, 1⟩] : List Row),
        c.isCase = true ∧ c.stratumId = row.stratumId ∧
        (∀ c1 ∈ ([⟨1, 50, true, 1⟩, ⟨2, 50, false, 1⟩] : List Row),
          c1.isCase = true → c1.stratumId = row.stratumId → c1 = c) ∧
        WithinAge ageConfig (construct ageConfig ageRecords) c row) ∧
    (∀ c ∈ ([⟨1, 50, true, 1⟩, ⟨2, 50, false, 1⟩] : List Row), c.isCase = true →
      ∀ caseData,
        mapFind (construct ageConfig ageRecords).personId2CaseData c.personId = some caseData →
      (∀ r ∈ (construct ageConfig ageRecords).nestingCohortDatas, r.personId ≠ c.personId →
        ¬ |r.dateOfBirth - caseData.dateOfBirth| ≤ ageConfig.ageCaliperDays) →
      ∀ row ∈ ([⟨1, 50, true, 1⟩, ⟨2, 50, false, 1⟩] : List Row),
        row.isCase = false → row.stratumId ≠ c.stratumId)) :=
  ⟨⟨by decide, by decide, by decide⟩,
    selectControls_age_caliper ageConfig ageRecords (fun n => n) sortIndexDates
      [⟨1, 50, true, 1⟩, ⟨2, 50, false, 1⟩] (by decide) (by decide) (by decide)⟩

/-! ## Evaluations at inputs where the code departs from its contract -/

/-- When every probe lands on the case's own entry the probing loop selects
nothing, whatever its budget. -/
theorem probeLoop_stuck (maxIter : Nat) (store : List NestingCohortData) (ub : Int)
    (hub : 0 ≤ ub) (h0 : getAt store 0 = some (entry 1 0 [50] [])) :
    ∀ (fuel draws : Nat),
      probeLoop (twoControlsConfig maxIter) store (fun _ => 0) 1 (snapshot 0) 50 1 0 ub fuel
        ⟨[], [], draws⟩ = some ⟨[], [], draws + fuel⟩ := by
  intro fuel
  induction fuel with
  | zero => intro draws; rfl
  | succ fuel ih =>
    intro draws
    unfold probeLoop
    have h1 : sizeLt ([] : List Int).length (twoControlsConfig maxIter).controlsPerCase = true := by
      rfl
    have h2 : uniformInt 0 ub ((fun _ => 0) draws) = some 0 := by
      simp [uniformInt, hub]
    have h3 : isMatch (twoControlsConfig maxIter) (entry 1 0 [50] []) (snapshot 0) 50
        = some (twoControlsConfig maxIter).NO_MATCH := by
      simp [isMatch, twoControlsConfig, plainConfig, entry, snapshot, hasExcludingOutcome]
    simp only [h1, h2, h0, h3, if_true]
    rw [if_neg (by simp)]
    rw [ih (draws + 1)]
    congr 2
    omega

/-- C1. Evaluation of `findControls` on a store where person 2 has two eligible
entries: the exhaustive phase adds person 2 twice to the same stratum, whatever
the value of `MAX_ITER`. -/
theorem findControls_repeats_person (maxIter : Nat) :
    findControls (twoControlsConfig maxIter) repeatedStore (fun _ => 0) 1 (snapshot 0) 50 1 0
      = some ([⟨2, 50, false, 1⟩, ⟨2, 50, false, 1⟩], maxIter + 2) := by
  have hp := probeLoop_stuck maxIter repeatedStore 2 (by decide) (by decide) maxIter 0
  have hr : candidateRange (twoControlsConfig maxIter) repeatedStore (snapshot 0) = some (0, 2) := by
    rfl
  unfold findControls
  rw [hr]
  simp only []
  rw [if_neg (by simp [twoControlsConfig, plainConfig])]
  unfold sampleControls
  have hm : (twoControlsConfig maxIter).MAX_ITER = maxIter := rfl
  rw [hm, hp]
  simp only [Nat.zero_add]
  rfl

/-- C2. Evaluation of `findControls` with `controlsPerCase = 2` on a store where
person 2 has three eligible entries: three control rows are added to the
stratum, whatever the value of `MAX_ITER`. -/
theorem findControls_exceeds_quota (maxIter : Nat) :
    (twoControlsConfig maxIter).controlsPerCase = 2 ∧
    findControls (twoControlsConfig maxIter) tripleStore (fun _ => 0) 1 (snapshot 0) 50 1 0
      = some ([⟨2, 50, false, 1⟩, ⟨2, 50, false, 1⟩, ⟨2, 50, false, 1⟩], maxIter + 3) := by
  refine ⟨rfl, ?_⟩
  have hp := probeLoop_stuck maxIter tripleStore 3 (by decide) (by decide) maxIter 0
  have hr : candidateRange (twoControlsConfig maxIter) tripleStore (snapshot 0) = some (0, 3) := by
    rfl
  unfold findControls
  rw [hr]
  simp only []
  rw [if_neg (by simp [twoControlsConfig, plainConfig])]
  unfold sampleControls
  have hm : (twoControlsConfig maxIter).MAX_ITER = maxIter := rfl
  rw [hm, hp]
  simp only [Nat.zero_add]
  rfl

/-- In a constructed selector the age window of every case of the index, taken
with a non-negative caliper, holds a record of the store (one of the person's
own). `findControls` calls the two searches only with the bounds of such a
window, `processCase` handing it the case record with nothing but its index
dates reordered: there the window is never empty. -/
theorem construct_window_nonempty (cfg : Config) (records : List NestingCohortData)
    (q : Int × CaseData) (hq : q ∈ (construct cfg records).personId2CaseData)
    (hcal : 0 ≤ cfg.ageCaliperDays) :
    ∃ r ∈ (construct cfg records).nestingCohortDatas,
      q.2.dateOfBirth - cfg.ageCaliperDays ≤ r.dateOfBirth ∧
      r.dateOfBirth ≤ q.2.dateOfBirth + cfg.ageCaliperDays := by
  obtain ⟨⟨_, hdob⟩, _⟩ := construct_inv cfg records
  obtain ⟨r, hr, _, h2⟩ := hdob q hq
  exact ⟨r, hr, by omega, by omega⟩

theorem sorted_getElem?_le {v : List Int} (hs : v.Sorted (· ≤ ·)) {i j : Nat} {x y : Int}
    (hij : i ≤ j) (hx : v[i]? = some x) (hy : v[j]? = some y) : x ≤ y := by
  obtain ⟨hi, rfl⟩ := List.getElem?_eq_some_iff.mp hx
  obtain ⟨hj, rfl⟩ := List.getElem?_eq_some_iff.mp hy
  by_cases heq : i = j
  · subst heq
    exact le_refl _
  · exact List.pairwise_iff_getElem.mp hs i j hi hj (by omega)

/-- On an ascending vector the loop of `std::lower_bound` returns the position
that separates the elements below `val` from the others. -/
theorem lowerBoundLoop_spec (v : List Int) (val : Int) (hs : v.Sorted (· ≤ ·)) :
    ∀ (fuel first len : Nat), len ≤ fuel → first + len ≤ v.length →
      (∀ i x, i < first → v[i]? = some x → x < val) →
      (∀ i x, first + len ≤ i → v[i]? = some x → val ≤ x) →
      first ≤ lowerBoundLoop v val fuel first len ∧
      lowerBoundLoop v val fuel first len ≤ first + len ∧
      (∀ i x, i < lowerBoundLoop v val fuel first len → v[i]? = some x → x < val) ∧
      (∀ i x, lowerBoundLoop v val fuel first len ≤ i → v[i]? = some x → val ≤ x) := by
  intro fuel
  induction fuel with
  | zero =>
    intro first len hlen hn hlow hhigh
    have : len = 0 := by omega
    subst this
    exact ⟨le_refl _, le_refl _, hlow, hhigh⟩
  | succ fuel ih =>
    intro first len hlen hn hlow hhigh
    unfold lowerBoundLoop
    by_cases hpos : 0 < len
    · rw [if_pos hpos]
      have hmid : first + len / 2 < v.length := by omega
      simp only [List.getElem?_eq_getElem hmid]
      have hget : v[first + len / 2]? = some v[first + len / 2] := List.getElem?_eq_getElem hmid
      split
      · rename_i hlt
        obtain ⟨h1, h2, h3, h4⟩ := ih (first + len / 2 + 1) (len - len / 2 - 1) (by omega)
          (by omega)
          (fun i x hi hx => lt_of_le_of_lt (sorted_getElem?_le hs (by omega) hx hget) hlt)
          (fun i x hi hx => hhigh i x (by omega) hx)
        exact ⟨by omega, by omega, h3, h4⟩
      · rename_i hge
        obtain ⟨h1, h2, h3, h4⟩ := ih first (len / 2) (by omega) (by omega) hlow
          (fun i x hi hx => le_trans (not_lt.mp hge) (sorted_getElem?_le hs hi hget hx))
        exact ⟨h1, by omega, h3, h4⟩
    · rw [if_neg hpos]
      have : len = 0 := by omega
      subst this
      exact ⟨le_refl _, le_refl _, hlow, hhigh⟩

/-- On an ascending vector `std::lower_bound` returns the position of the first
element that is not below `val` (the length when there is none). -/
theorem lowerBoundPos_spec (v : List Int) (val : Int) (hs : v.Sorted (· ≤ ·)) :
    lowerBoundPos v val ≤ v.length ∧
    (∀ i x, i < lowerBoundPos v val → v[i]? = some x → x < val) ∧
    (∀ i x, lowerBoundPos v val ≤ i → v[i]? = some x → val ≤ x) := by
  obtain ⟨_, h2, h3, h4⟩ := lowerBoundLoop_spec v val hs v.length 0 v.length (le_refl _)
    (by omega) (fun i x hi _ => absurd hi (Nat.not_lt_zero i))
    (fun i x hi hx => by
      obtain ⟨hlt, _⟩ := List.getElem?_eq_some_iff.mp hx
      omega)
  exact ⟨by simpa [lowerBoundPos] using h2, h3, h4⟩

/-- After the checks 1 to 6, with visit-date matching: the value of `isMatch` in
terms of the element `std::lower_bound` points at. -/
theorem isMatch_visit_step (cfg : Config) (controlData : NestingCohortData)
    (caseData : CaseData) (indexDate : Int) (hv : cfg.matchOnVisitDate = true)
    (hp : PassesChecks cfg controlData caseData indexDate)
    (hne : controlData.visitDates ≠ []) :
    isMatch cfg controlData caseData indexDate =
      match controlData.visitDates[lowerBoundPos controlData.visitDates indexDate]? with
      | none => none
      | some visitDate =>
        if |visitDate - indexDate| ≤ cfg.visitDateCaliper then some visitDate
        else some cfg.NO_MATCH := by
  obtain ⟨⟨h1, h2⟩, h3, h4, h5, h6, h7, h8, h9⟩ := hp
  have hx : hasExcludingOutcome cfg controlData indexDate = false :=
    (hasExcludingOutcome_eq_false cfg controlData indexDate).mpr ⟨h8, h9⟩
  have hlen : ¬ controlData.visitDates.length = 0 := fun h => hne (List.length_eq_zero.mp h)
  unfold isMatch
  rw [if_neg (by omega), if_neg (fun c => c.2 (h4 c.1)), if_neg (fun c => c.2 (h5 c.1)),
    if_neg (fun c => c.2 (h6 c.1)), if_neg (fun c => not_lt.mpr (h7 c.1) c.2),
    if_neg (by simp [hx]), if_pos hv, if_neg hlen]

/-- C11. With visit-date matching enabled, for a candidate that passes the
checks 1 to 6 and whose `visitDates` are ascending and hold a date on or after
the index date, `isMatch` returns the smallest visit date `v ≥ indexDate` when
`v - indexDate ≤ visitDateCaliper` and `NO_MATCH` otherwise; a visit date before
the index date is never the reported one. -/
theorem isMatch_nearest_later_visit (cfg : Config) (controlData : NestingCohortData)
    (caseData : CaseData) (indexDate : Int) (hv : cfg.matchOnVisitDate = true)
    (hp : PassesChecks cfg controlData caseData indexDate)
    (hs : controlData.visitDates.Sorted (· ≤ ·))
    (hex : ∃ d ∈ controlData.visitDates, indexDate ≤ d) :
    ∃ v ∈ controlData.visitDates, indexDate ≤ v ∧
      (∀ d ∈ controlData.visitDates, indexDate ≤ d → v ≤ d) ∧
      isMatch cfg controlData caseData indexDate =
        some (if v - indexDate ≤ cfg.visitDateCaliper then v else cfg.NO_MATCH) := by
  obtain ⟨d, hd, hdt⟩ := hex
  obtain ⟨hle, hbelow, habove⟩ := lowerBoundPos_spec controlData.visitDates indexDate hs
  obtain ⟨j, hj⟩ := List.mem_iff_getElem?.mp hd
  have hpj : lowerBoundPos controlData.visitDates indexDate ≤ j := by
    by_contra hcon
    have := hbelow j d (by omega) hj
    omega
  have hjn : j < controlData.visitDates.length := (List.getElem?_eq_some_iff.mp hj).1
  have hpn : lowerBoundPos controlData.visitDates indexDate < controlData.visitDates.length := by
    omega
  have hget := List.getElem?_eq_getElem hpn
  refine ⟨_, List.getElem?_mem hget, habove _ _ (le_refl _) hget, ?_, ?_⟩
  · intro d2 hd2 hd2t
    obtain ⟨k, hk⟩ := List.mem_iff_getElem?.mp hd2
    have hpk : lowerBoundPos controlData.visitDates indexDate ≤ k := by
      by_contra hcon
      have := hbelow k d2 (by omega) hk
      omega
    exact sorted_getElem?_le hs hpk hget hk
  · rw [isMatch_visit_step cfg controlData caseData indexDate hv hp
      (List.ne_nil_of_mem hd), hget]
    have hnn := habove _ _ (le_refl _) hget
    simp only [abs_of_nonneg (sub_nonneg.mpr hnn)]
    split <;> rfl

/-- An instance of C11: with visits on days 49, 52 and 60 and the index date on
day 50, the visit of day 52 is reported, not the closer visit of day 49. -/
theorem isMatch_nearest_later_visit_witness :
    (visitConfig.matchOnVisitDate = true ∧
      PassesChecks visitConfig (entry 2 0 [] [49, 52, 60]) (snapshot 0) 50 ∧
      (entry 2 0 [] [49, 52, 60]).visitDates.Sorted (· ≤ ·) ∧
      ∃ d ∈ (entry 2 0 [] [49, 52, 60]).visitDates, (50 : Int) ≤ d) ∧
    ∃ v ∈ (entry 2 0 [] [49, 52, 60]).visitDates, (50 : Int) ≤ v ∧
      (∀ d ∈ (entry 2 0 [] [49, 52, 60]).visitDates, (50 : Int) ≤ d → v ≤ d) ∧
      isMatch visitConfig (entry 2 0 [] [49, 52, 60]) (snapshot 0) 50 =
        some (if v - 50 ≤ visitConfig.visitDateCaliper then v else visitConfig.NO_MATCH) :=
  ⟨⟨by decide, by unfold PassesChecks; decide, by decide, by decide⟩,
    isMatch_nearest_later_visit visitConfig (entry 2 0 [] [49, 52, 60]) (snapshot 0) 50
      (by decide) (by unfold PassesChecks; decide) (by decide) (by decide)⟩

/-- C18. Evaluation of `isMatch` with visit-date matching on a candidate that
passes the checks 1 to 6 and whose only visit (day 10) precedes the index date
(day 50): `std::lower_bound` returns position 1, past the last visit date, and
reading it is undefined. -/
theorem isMatch_past_last_visit :
    PassesChecks visitConfig (entry 2 0 [] [10]) (snapshot 0) 50 ∧
    (entry 2 0 [] [10]).visitDates ≠ [] ∧
    (entry 2 0 [] [10]).visitDates.Sorted (· ≤ ·) ∧
    lowerBoundPos (entry 2 0 [] [10]).visitDates 50 = 1 ∧
    ¬ lowerBoundPos (entry 2 0 [] [10]).visitDates 50 < (entry 2 0 [] [10]).visitDates.length ∧
    isMatch visitConfig (entry 2 0 [] [10]) (snapshot 0) 50 = none := by
  refine ⟨?_, by decide, by decide, by decide, by decide, by decide⟩
  unfold PassesChecks
  decide

/-- C9. Evaluation of `findControls` with visit-date matching (caliper of five
days) for the case of person 1 on day 50, on a store in which person 2 passes
the checks 1 to 6 and has one visit, on day 10, before the index date: the
match test on person 2 reads past the last visit date, so the value that would
become the date of the control row is not an element of the person's
`visitDates`; the call is undefined whether person 2 is met by a probe of
phase 1 (draws `1, 1, ...`) or by the scan of phase 2 (draws `0, 0, ...`). -/
theorem findControls_reads_past_last_visit :
    visitConfig.matchOnVisitDate = true ∧
    PassesChecks visitConfig (entry 2 0 [] [10]) (snapshot 0) 50 ∧
    (entry 2 0 [] [10]).visitDates = [10] ∧
    lowerBoundPos (entry 2 0 [] [10]).visitDates 50 = (entry 2 0 [] [10]).visitDates.length ∧
    isMatch visitConfig (entry 2 0 [] [10]) (snapshot 0) 50 = none ∧
    findControls visitConfig [entry 1 0 [50] [], entry 2 0 [] [10]] (fun _ => 1) 1 (snapshot 0)
      50 1 0 = none ∧
    findControls visitConfig [entry 1 0 [50] [], entry 2 0 [] [10]] (fun _ => 0) 1 (snapshot 0)
      50 1 0 = none := by
  refine ⟨by decide, ?_, by decide, by decide, by decide, by decide, by decide⟩
  unfold PassesChecks
  decide

/-! ## Bounds and termination of the range search -/

theorem lowerBoundSearchLoop_succ (store : List NestingCohortData) (key : Int) (fuel : Nat)
    (lo hi : Int) (hlt : lo < hi) :
    lowerBoundSearchLoop store key (fuel + 1) lo hi =
      (lowerBoundSearchStep store key lo hi).bind
        (fun p => lowerBoundSearchLoop store key fuel p.1 p.2) := by
  rw [lowerBoundSearchLoop, if_pos hlt]
  unfold lowerBoundSearchStep
  simp only
  cases getAt store ((lo + hi).tdiv 2) with
  | none => rfl
  | some r =>
    simp only [Option.bind]
    split <;> rfl

theorem upperBoundSearchLoop_succ (store : List NestingCohortData) (key : Int) (fuel : Nat)
    (lo hi : Int) (hlt : lo < hi) :
    upperBoundSearchLoop store key (fuel + 1) lo hi =
      (upperBoundSearchStep store key lo hi).bind
        (fun p => upperBoundSearchLoop store key fuel p.1 p.2) := by
  rw [upperBoundSearchLoop, if_pos hlt]
  unfold upperBoundSearchStep
  simp only
  cases getAt store (if (lo + hi).tmod 2 ≠ 0 then 1 + (lo + hi).tdiv 2 else (lo + hi).tdiv 2) with
  | none => rfl
  | some r =>
    simp only [Option.bind]
    split <;> rfl

/-- An iteration of the lower-bound search keeps the bounds inside the store
and strictly narrows the interval. -/
theorem lowerBoundSearchStep_narrows (store : List NestingCohortData) (key lo hi : Int)
    (h0 : 0 ≤ lo) (hlt : lo < hi) (hn : hi < store.length) :
    ∃ lo1 hi1, lowerBoundSearchStep store key lo hi = some (lo1, hi1) ∧
      lo ≤ lo1 ∧ lo1 ≤ hi1 ∧ hi1 ≤ hi ∧ hi1 - lo1 < hi - lo := by
  have hdiv : (lo + hi).tdiv 2 = (lo + hi) / 2 := Int.tdiv_eq_ediv (by omega) (by omega)
  unfold lowerBoundSearchStep
  rw [hdiv]
  obtain ⟨x, hx⟩ := getAt_some_iff store ((lo + hi) / 2) (by omega) (by omega)
  simp only [hx]
  split
  · exact ⟨_, _, rfl, by omega, by omega, by omega, by omega⟩
  · exact ⟨_, _, rfl, by omega, by omega, by omega, by omega⟩

/-- An iteration of the upper-bound search keeps the bounds inside the store
and strictly narrows the interval; the midpoint rounded up is what makes the
branch `lowerbound = index` narrow it. -/
theorem upperBoundSearchStep_narrows (store : List NestingCohortData) (key lo hi : Int)
    (h0 : 0 ≤ lo) (hlt : lo < hi) (hn : hi < store.length) :
    ∃ lo1 hi1, upperBoundSearchStep store key lo hi = some (lo1, hi1) ∧
      lo ≤ lo1 ∧ lo1 ≤ hi1 ∧ hi1 ≤ hi ∧ hi1 - lo1 < hi - lo := by
  have hdiv : (lo + hi).tdiv 2 = (lo + hi) / 2 := Int.tdiv_eq_ediv (by omega) (by omega)
  have hmod : (lo + hi).tmod 2 = (lo + hi) % 2 := Int.tmod_eq_emod (by omega) (by omega)
  unfold upperBoundSearchStep
  rw [hdiv, hmod]
  generalize hidx : (if (lo + hi) % 2 ≠ 0 then 1 + (lo + hi) / 2 else (lo + hi) / 2) = idx
  have hidx1 : lo < idx ∧ idx ≤ hi := by
    rw [← hidx]; split <;> omega
  obtain ⟨x, hx⟩ := getAt_some_iff store idx (by omega) (by omega)
  simp only [hx]
  split
  · exact ⟨_, _, rfl, by omega, by omega, by omega, by omega⟩
  · exact ⟨_, _, rfl, by omega, by omega, by omega, by omega⟩

/-- The lower-bound search returns for every store, the empty one included. -/
theorem binarySearchDateOfBirthLowerBound_returns (store : List NestingCohortData) (key : Int) :
    ∃ r, binarySearchDateOfBirthLowerBound store key = some r := by
  unfold binarySearchDateOfBirthLowerBound
  by_cases hs : store = []
  · subst hs
    exact ⟨0, by simp [lowerBoundSearchLoop]⟩
  · have hlen : 0 < store.length := List.length_pos.mpr hs
    obtain ⟨r, hr, _⟩ := lowerBoundSearchLoop_bounds store key store.length 0
      ((store.length : Int) - 1) (le_refl _) (by omega) (by omega) (by omega)
    exact ⟨r, hr⟩

/-- The upper-bound search returns for every store and every starting bound
that is not negative. -/
theorem binarySearchDateOfBirthUpperBound_returns (store : List NestingCohortData)
    (lowerBound key : Int) (h0 : 0 ≤ lowerBound) :
    ∃ r, binarySearchDateOfBirthUpperBound store lowerBound key = some r := by
  unfold binarySearchDateOfBirthUpperBound
  by_cases hle : lowerBound ≤ (store.length : Int) - 1
  · obtain ⟨r, hr, _⟩ := upperBoundSearchLoop_bounds store key store.length lowerBound
      ((store.length : Int) - 1) h0 hle (by omega) (by omega)
    exact ⟨r, hr⟩
  · have hnlt : ¬ lowerBound < (store.length : Int) - 1 := by omega
    cases hl : store.length with
    | zero =>
      rw [hl] at hnlt
      exact ⟨lowerBound, by simp only [upperBoundSearchLoop]; rw [if_neg hnlt]⟩
    | succ k =>
      rw [hl] at hnlt
      exact ⟨lowerBound, by rw [upperBoundSearchLoop, if_neg hnlt]⟩

/-- A result of the lower-bound loop does not depend on the spare budget. -/
theorem lowerBoundSearchLoop_more_fuel (store : List NestingCohortData) (key : Int) :
    ∀ (fuel : Nat) (lo hi r : Int), lowerBoundSearchLoop store key fuel lo hi = some r →
      ∀ k, lowerBoundSearchLoop store key (fuel + k) lo hi = some r := by
  intro fuel
  induction fuel with
  | zero =>
    intro lo hi r h k
    rw [lowerBoundSearchLoop] at h
    split at h
    · cases h
    · rename_i hnlt
      cases k with
      | zero => rw [lowerBoundSearchLoop, if_neg hnlt]; exact h
      | succ k =>
        rw [Nat.zero_add, lowerBoundSearchLoop, if_neg hnlt]
        exact h
  | succ fuel ih =>
    intro lo hi r h k
    have hk : fuel + 1 + k = (fuel + k) + 1 := by omega
    rw [hk]
    by_cases hlt : lo < hi
    · rw [lowerBoundSearchLoop_succ store key fuel lo hi hlt] at h
      rw [lowerBoundSearchLoop_succ store key (fuel + k) lo hi hlt]
      cases hstep : lowerBoundSearchStep store key lo hi with
      | none => rw [hstep] at h; cases h
      | some p =>
        rw [hstep] at h
        exact ih p.1 p.2 r h k
    · rw [lowerBoundSearchLoop, if_neg hlt] at h
      rw [lowerBoundSearchLoop, if_neg hlt]
      exact h

/-- A result of the upper-bound loop does not depend on the spare budget. -/
theorem upperBoundSearchLoop_more_fuel (store : List NestingCohortData) (key : Int) :
    ∀ (fuel : Nat) (lo hi r : Int), upperBoundSearchLoop store key fuel lo hi = some r →
      ∀ k, upperBoundSearchLoop store key (fuel + k) lo hi = some r := by
  intro fuel
  induction fuel with
  | zero =>
    intro lo hi r h k
    rw [upperBoundSearchLoop] at h
    split at h
    · cases h
    · rename_i hnlt
      cases k with
      | zero => rw [upperBoundSearchLoop, if_neg hnlt]; exact h
      | succ k =>
        rw [Nat.zero_add, upperBoundSearchLoop, if_neg hnlt]
        exact h
  | succ fuel ih =>
    intro lo hi r h k
    have hk : fuel + 1 + k = (fuel + k) + 1 := by omega
    rw [hk]
    by_cases hlt : lo < hi
    · rw [upperBoundSearchLoop_succ store key fuel lo hi hlt] at h
      rw [upperBoundSearchLoop_succ store key (fuel + k) lo hi hlt]
      cases hstep : upperBoundSearchStep store key lo hi with
      | none => rw [hstep] at h; cases h
      | some p =>
        rw [hstep] at h
        exact ih p.1 p.2 r h k
    · rw [upperBoundSearchLoop, if_neg hlt] at h
      rw [upperBoundSearchLoop, if_neg hlt]
      exact h

/-- C20. Both searches terminate: `binarySearchDateOfBirthLowerBound` returns for
every store and key, `binarySearchDateOfBirthUpperBound` for every store, key
and starting bound `0 ≤ _lowerBound`, with a result that no additional
iteration budget changes; each loop is the iteration of its body, and an
iteration entered with `0 ≤ lowerbound < upperbound ≤ size - 1` strictly
decreases `upperbound - lowerbound` (in the upper-bound search thanks to the
midpoint rounded up). -/
theorem binarySearch_terminates (store : List NestingCohortData) (key lowerBound : Int)
    (h0 : 0 ≤ lowerBound) :
    (∃ r, binarySearchDateOfBirthLowerBound store key = some r ∧
      ∀ k, lowerBoundSearchLoop store key (store.length + k) 0 ((store.length : Int) - 1)
        = some r) ∧
    (∃ r, binarySearchDateOfBirthUpperBound store lowerBound key = some r ∧
      ∀ k, upperBoundSearchLoop store key (store.length + k) lowerBound
        ((store.length : Int) - 1) = some r) ∧
    (∀ (fuel : Nat) (lo hi : Int), lo < hi →
      lowerBoundSearchLoop store key (fuel + 1) lo hi =
        (lowerBoundSearchStep store key lo hi).bind
          (fun p => lowerBoundSearchLoop store key fuel p.1 p.2)) ∧
    (∀ (lo hi : Int), 0 ≤ lo → lo < hi → hi < store.length →
      ∃ lo1 hi1, lowerBoundSearchStep store key lo hi = some (lo1, hi1) ∧
        lo ≤ lo1 ∧ lo1 ≤ hi1 ∧ hi1 ≤ hi ∧ hi1 - lo1 < hi - lo) ∧
    (∀ (fuel : Nat) (lo hi : Int), lo < hi →
      upperBoundSearchLoop store key (fuel + 1) lo hi =
        (upperBoundSearchStep store key lo hi).bind
          (fun p => upperBoundSearchLoop store key fuel p.1 p.2)) ∧
    (∀ (lo hi : Int), 0 ≤ lo → lo < hi → hi < store.length →
      ∃ lo1 hi1, upperBoundSearchStep store key lo hi = some (lo1, hi1) ∧
        lo ≤ lo1 ∧ lo1 ≤ hi1 ∧ hi1 ≤ hi ∧ hi1 - lo1 < hi - lo) := by
  obtain ⟨r1, hr1⟩ := binarySearchDateOfBirthLowerBound_returns store key
  obtain ⟨r2, hr2⟩ := binarySearchDateOfBirthUpperBound_returns store lowerBound key h0
  refine ⟨⟨r1, hr1, ?_⟩, ⟨r2, hr2, ?_⟩, ?_, ?_, ?_, ?_⟩
  · exact lowerBoundSearchLoop_more_fuel store key _ _ _ r1 hr1
  · exact upperBoundSearchLoop_more_fuel store key _ _ _ r2 hr2
  · exact fun fuel lo hi hlt => lowerBoundSearchLoop_succ store key fuel lo hi hlt
  · exact fun lo hi hlo hlt hn => lowerBoundSearchStep_narrows store key lo hi hlo hlt hn
  · exact fun fuel lo hi hlt => upperBoundSearchLoop_succ store key fuel lo hi hlt
  · exact fun lo hi hlo hlt hn => upperBoundSearchStep_narrows store key lo hi hlo hlt hn

/-- An instance of C20 on `smallStore`: both searches return index 2 for the
key 5, with any additional budget. -/
theorem binarySearch_terminates_witness :
    (0 : Int) ≤ 0 ∧
    (∃ r, binarySearchDateOfBirthLowerBound smallStore 5 = some r ∧
      ∀ k, lowerBoundSearchLoop smallStore 5 (smallStore.length + k) 0
        ((smallStore.length : Int) - 1) = some r) ∧
    (∃ r, binarySearchDateOfBirthUpperBound smallStore 0 5 = some r ∧
      ∀ k, upperBoundSearchLoop smallStore 5 (smallStore.length + k) 0
        ((smallStore.length : Int) - 1) = some r) :=
  ⟨by decide, (binarySearch_terminates smallStore 5 0 (by decide)).1,
    (binarySearch_terminates smallStore 5 0 (by decide)).2.1⟩

/-- C19. For a non-empty store of size `n`, sorted or not, and any keys, the
two searches return `lb` and `ub` with `0 ≤ lb ≤ ub ≤ n - 1`; so with age
matching every index drawn in phase 1 or scanned in phase 2 of `findControls`
is an index of the store, and the early return on `ub < lb` is never taken:
`findControls` always runs its two strategies. -/
theorem binarySearch_range_never_empty (cfg : Config) (store : List NestingCohortData)
    (gen : Nat → Nat) (personId : Int) (caseData : CaseData)
    (indexDate stratumId lowKey highKey : Int) (draws : Nat) (hne : store ≠ []) :
    (∃ lb ub, binarySearchDateOfBirthLowerBound store lowKey = some lb ∧
      binarySearchDateOfBirthUpperBound store lb highKey = some ub ∧
      0 ≤ lb ∧ lb ≤ ub ∧ ub ≤ (store.length : Int) - 1) ∧
    (∃ lb ub, candidateRange cfg store caseData = some (lb, ub) ∧
      0 ≤ lb ∧ lb ≤ ub ∧ ub ≤ (store.length : Int) - 1 ∧
      (∀ raw idx, uniformInt lb ub raw = some idx → ∃ r, getAt store idx = some r) ∧
      (∀ i ∈ scanIndices lb ub, ∃ r, getAt store i = some r) ∧
      findControls cfg store gen personId caseData indexDate stratumId draws =
        sampleControls cfg store gen personId caseData indexDate stratumId lb ub draws) := by
  constructor
  · obtain ⟨lb, ub, h1, h2, h3, h4, h5⟩ := binarySearch_range_valid store lowKey highKey hne
    exact ⟨lb, ub, h1, h2, h3, h4, by omega⟩
  · obtain ⟨lb, ub, hr, h0, hle, hn⟩ := candidateRange_valid cfg store caseData hne
    refine ⟨lb, ub, hr, h0, hle, by omega, ?_, ?_, ?_⟩
    · intro raw idx hidx
      obtain ⟨h1, h2⟩ := uniformInt_range hidx
      exact getAt_some_iff store idx (by omega) (by omega)
    · intro i hi
      obtain ⟨h1, h2⟩ := mem_scanIndices lb ub hi
      exact getAt_some_iff store i (by omega) (by omega)
    · unfold findControls
      simp only [hr]
      rw [if_neg (fun hcon => by omega)]

/-- An instance of C19 on the one-record store of C7, whose record lies outside
the window. -/
theorem binarySearch_range_never_empty_witness :
    ([entry 1 100 [] []] : List NestingCohortData) ≠ [] ∧
    ∃ lb ub, binarySearchDateOfBirthLowerBound [entry 1 100 [] []] 0 = some lb ∧
      binarySearchDateOfBirthUpperBound [entry 1 100 [] []] lb 10 = some ub ∧
      0 ≤ lb ∧ lb ≤ ub ∧ ub ≤ (([entry 1 100 [] []] : List NestingCohortData).length : Int) - 1 :=
  ⟨by decide,
    (binarySearch_range_never_empty ageConfig [entry 1 100 [] []] (fun _ => 0) 1 (snapshot 0)
      50 1 0 10 0 (by decide)).1⟩

/-! ## The calls return -/

/-- Without visit-date matching the match test is defined on every input. -/
theorem isMatch_returns (cfg : Config) (controlData : NestingCohortData) (caseData : CaseData)
    (indexDate : Int) (hv : cfg.matchOnVisitDate = false) :
    ∃ value, isMatch cfg controlData caseData indexDate = some value := by
  by_cases hp : PassesChecks cfg controlData caseData indexDate
  · exact ⟨0, isMatch_of_passes cfg controlData caseData indexDate hv hp⟩
  · exact ⟨cfg.NO_MATCH, isMatch_of_not_passes cfg controlData caseData indexDate hp⟩

/-- On a valid candidate range, with the match test defined on the range, the
probing loop returns, whatever the quota. -/
theorem probeLoop_returns (cfg : Config) (store : List NestingCohortData) (gen : Nat → Nat)
    (personId : Int) (caseData : CaseData) (indexDate stratumId lb ub : Int)
    (h0 : 0 ≤ lb) (hle : lb ≤ ub) (hn : ub < store.length)
    (hdef : ∀ (i : Int) (r : NestingCohortData), lb ≤ i → i ≤ ub → getAt store i = some r →
      ∃ value, isMatch cfg r caseData indexDate = some value) :
    ∀ (fuel : Nat) (s : Sampling),
      ∃ t, probeLoop cfg store gen personId caseData indexDate stratumId lb ub fuel s = some t := by
  intro fuel
  induction fuel with
  | zero => intro s; exact ⟨s, rfl⟩
  | succ fuel ih =>
    intro s
    unfold probeLoop
    by_cases hlt : sizeLt s.controlPersonIds.length cfg.controlsPerCase = true
    · rw [if_pos hlt]
      obtain ⟨idx, hidx⟩ := uniformInt_defined (gen s.draws) hle
      obtain ⟨hi1, hi2⟩ := uniformInt_range hidx
      obtain ⟨controlData, hget⟩ := getAt_some_iff store idx (by omega) (by omega)
      obtain ⟨value, hval⟩ := hdef idx controlData hi1 hi2 hget
      simp only [hidx, hget, hval]
      split
      · exact ih _
      · exact ih _
    · rw [if_neg hlt]
      exact ⟨s, rfl⟩

/-- With a budget of at least the number of candidates the drawing loop
returns, whatever the quota. -/
theorem drawLoop_returns (cfg : Config) (gen : Nat → Nat) (stratumId : Int) :
    ∀ (fuel : Nat) (cands : List (Int × Int)) (s : Sampling), cands.length ≤ fuel →
      ∃ t, drawLoop cfg gen stratumId fuel cands s = some t := by
  intro fuel
  induction fuel with
  | zero =>
    intro cands s hlen
    have hnil : cands = [] := List.length_eq_zero.mp (by omega)
    subst hnil
    exact ⟨s, by simp [drawLoop]⟩
  | succ fuel ih =>
    intro cands s hlen
    unfold drawLoop
    by_cases hcond : sizeLt s.controlPersonIds.length cfg.controlsPerCase = true ∧ cands.length > 0
    · rw [if_pos hcond]
      obtain ⟨idx, hidx⟩ := uniformInt_defined (a := 0) (b := (cands.length : Int) - 1)
        (gen s.draws) (by omega)
      obtain ⟨hi1, hi2⟩ := uniformInt_range hidx
      obtain ⟨c, hget⟩ := getAt_some_iff cands idx hi1 (by omega)
      simp only [hidx, hget]
      apply ih
      have hlen2 : idx.toNat < cands.length := by omega
      rw [List.length_eraseIdx, if_pos hlen2]
      omega
    · rw [if_neg hcond]
      exact ⟨s, rfl⟩

/-- For a non-empty store on whose records the match test is defined,
`findControls` returns, whatever the quota. -/
theorem findControls_returns (cfg : Config) (store : List NestingCohortData) (gen : Nat → Nat)
    (personId : Int) (caseData : CaseData) (indexDate stratumId : Int) (draws : Nat)
    (hne : store ≠ [])
    (hdef : ∀ r ∈ store, ∃ value, isMatch cfg r caseData indexDate = some value) :
    ∃ out, findControls cfg store gen personId caseData indexDate stratumId draws = some out := by
  obtain ⟨lb, ub, hr, h0, hle, hn⟩ := candidateRange_valid cfg store caseData hne
  have hdef2 : ∀ (i : Int) (r : NestingCohortData), lb ≤ i → i ≤ ub → getAt store i = some r →
      ∃ value, isMatch cfg r caseData indexDate = some value :=
    fun i r _ _ hget => hdef r (getAt_mem hget)
  unfold findControls
  simp only [hr]
  rw [if_neg (fun hcon => by omega)]
  unfold sampleControls
  obtain ⟨s1, hs1⟩ := probeLoop_returns cfg store gen personId caseData indexDate stratumId lb ub
    h0 hle hn hdef2 cfg.MAX_ITER ⟨[], [], draws⟩
  simp only [hs1]
  split
  · obtain ⟨cands, hcands, _⟩ := scanLoop_spec cfg store personId caseData indexDate
      s1.controlPersonIds (scanIndices lb ub) []
      (fun i hi => by
        obtain ⟨hi1, hi2⟩ := mem_scanIndices lb ub hi
        obtain ⟨r, hr⟩ := getAt_some_iff store i (by omega) (by omega)
        exact ⟨r, hr, hdef2 i r hi1 hi2 hr⟩)
    obtain ⟨t, ht⟩ := drawLoop_returns cfg gen stratumId cands.length cands s1 (le_refl _)
    simp only [hcands, ht]
    exact ⟨_, rfl⟩
  · exact ⟨_, rfl⟩

/-- The loop of `processCase` returns when every call of `findControls` it can
make does. -/
theorem processEntries_returns (cfg : Config) (store : List NestingCohortData)
    (gen : Nat → Nat) (personId : Int) (caseData : CaseData)
    (hfc : ∀ (indexDate stratumId : Int) (draws : Nat),
      ∃ out, findControls cfg store gen personId caseData indexDate stratumId draws = some out) :
    ∀ (ds : List IndexDate) (st : RunState),
      ∃ st1, processEntries cfg store gen personId caseData ds st = some st1 := by
  intro ds
  induction ds with
  | nil => intro st; exact ⟨st, rfl⟩
  | cons d rest ih =>
    intro st
    have hentry : ∃ st2, processEntry cfg store gen personId caseData d st = some st2 := by
      unfold processEntry
      split
      · obtain ⟨out, hout⟩ := hfc d.date (st.stratumId + 1) st.draws
        rw [hout]
        exact ⟨_, rfl⟩
      · exact ⟨st, rfl⟩
    obtain ⟨st2, hst2⟩ := hentry
    unfold processEntries
    simp only [hst2]
    split
    · exact ⟨st2, rfl⟩
    · exact ih st2

theorem blockRows_append (xs ys : List (Row × List Row)) :
    blockRows (xs ++ ys) = blockRows xs ++ blockRows ys := by
  induction xs with
  | nil => rfl
  | cons b rest ih => simp [blockRows, ih]

/-- In a table made of strata blocks the case rows carry the stratum ids
`1, 2, ..., n` in this order. -/
theorem strataBlocks_case_ids (blocks : List (Row × List Row)) (h : StrataBlocks blocks) :
    ((blockRows blocks).filter (fun r => r.isCase)).map (fun r => r.stratumId)
      = (List.range blocks.length).map (fun (k : Nat) => (k : Int) + 1) := by
  induction blocks using List.reverseRecOn with
  | nil => rfl
  | append_singleton init b ih =>
    have hinit : StrataBlocks init := by
      intro k c hc
      have hk : k < init.length := (List.getElem?_eq_some_iff.mp hc).1
      exact h k c (by rw [List.getElem?_append_left hk]; exact hc)
    have hb := h init.length b (by simp)
    have hctl : b.2.filter (fun r => r.isCase) = [] := by
      rw [List.filter_eq_nil_iff]
      intro r hr
      rw [(hb.2.2 r hr).1]
      simp
    rw [blockRows_append, List.filter_append, List.map_append, ih hinit, List.length_append,
      List.length_singleton, List.range_succ, List.map_append]
    simp [blockRows, hb.1, hb.2.1, hctl]

/-- One emitted stratum extends the block structure of the table. -/
theorem strataBlocks_step (cfg : Config) (store : List NestingCohortData) (gen : Nat → Nat)
    (q : Int × CaseData) (caseData : CaseData) (d : IndexDate) (st : RunState)
    (controls : List Row) (draws : Nat)
    (hP : ∃ blocks, st.rows = blockRows blocks ∧ st.stratumId = (blocks.length : Int) ∧
      StrataBlocks blocks)
    (hfc : findControls cfg store gen q.1 caseData d.date (st.stratumId + 1) st.draws
      = some (controls, draws)) :
    ∃ blocks, (st.rows ++ [⟨q.1, d.date, true, st.stratumId + 1⟩] ++ controls)
        = blockRows blocks ∧
      st.stratumId + 1 = (blocks.length : Int) ∧ StrataBlocks blocks := by
  obtain ⟨blocks, hrows, hsid, hblocks⟩ := hP
  refine ⟨blocks ++ [(⟨q.1, d.date, true, st.stratumId + 1⟩, controls)], ?_, ?_, ?_⟩
  · rw [blockRows_append, hrows]
    simp [blockRows]
  · rw [List.length_append, hsid]
    simp
  · intro k b hb
    by_cases hk : k < blocks.length
    · rw [List.getElem?_append_left hk] at hb
      exact hblocks k b hb
    · rw [List.getElem?_append_right (by omega)] at hb
      have hk0 : k - blocks.length = 0 := by
        by_contra hne
        have h1 : 1 ≤ k - blocks.length := by omega
        rw [List.getElem?_eq_none (by simpa using h1)] at hb
        cases hb
      rw [hk0] at hb
      simp only [List.getElem?_cons_zero, Option.some.injEq] at hb
      subst hb
      have hkeq : (k : Int) = blocks.length := by omega
      refine ⟨rfl, by simp only; omega, ?_⟩
      intro r hr
      obtain ⟨h1, h2, _⟩ := findControls_isCase cfg store gen q.1 caseData d.date
        (st.stratumId + 1) st.draws (controls, draws) hfc r hr
      exact ⟨h1, by rw [h2]; omega⟩

/-- C12. The table returned by `selectControls` on a freshly constructed
selector (stratum counter 0) is a concatenation of strata blocks: the `k`-th
block, `k = 1, 2, 3, ...`, is exactly one case row with `stratumId = k` followed
only by control rows (`isCase = false`) with `stratumId = k`; so the stratum ids
of the case rows are 1-based, consecutive and increasing across all persons. -/
theorem selectControls_strata_blocks (cfg : Config) (sel : Selector) (gen : Nat → Nat)
    (sortDates : List IndexDate → List IndexDate) (rows : List Row)
    (h : selectControls cfg sel gen sortDates = some rows) :
    ∃ blocks, rows = blockRows blocks ∧ StrataBlocks blocks ∧
      (rows.filter (fun r => r.isCase)).map (fun r => r.stratumId)
        = (List.range blocks.length).map (fun (k : Nat) => (k : Int) + 1) := by
  have hmain : ∃ blocks, rows = blockRows blocks ∧ StrataBlocks blocks := by
    unfold selectControls at h
    split at h
    · injection h with h
      exact ⟨[], h.symm, fun k b hb => by cases hb⟩
    · obtain ⟨st1, hst1, hrows⟩ := Option.map_eq_some'.mp h
      have hP := processCases_induct
        (fun st => ∃ blocks, st.rows = blockRows blocks ∧ st.stratumId = (blocks.length : Int) ∧
          StrataBlocks blocks)
        cfg sel.nestingCohortDatas gen sortDates sel.personId2CaseData
        (fun q d st controls draws _ _ _ hP hfc =>
          strataBlocks_step cfg sel.nestingCohortDatas gen q _ d st controls draws hP hfc)
        ⟨[], 0, 0⟩ st1 ⟨[], rfl, rfl, fun k b hb => by cases hb⟩ hst1
      obtain ⟨blocks, h1, _, h3⟩ := hP
      exact ⟨blocks, by rw [← hrows, h1], h3⟩
  obtain ⟨blocks, hrows, hblocks⟩ := hmain
  refine ⟨blocks, hrows, hblocks, ?_⟩
  rw [hrows]
  exact strataBlocks_case_ids blocks hblocks

/-- The control rows of `findControls` contain no case row. -/
theorem findControls_filter_isCase (cfg : Config) (store : List NestingCohortData)
    (gen : Nat → Nat) (personId : Int) (caseData : CaseData) (indexDate stratumId : Int)
    (draws : Nat) (out : List Row × Nat)
    (h : findControls cfg store gen personId caseData indexDate stratumId draws = some out) :
    out.1.filter (fun r => r.isCase) = [] := by
  rw [List.filter_eq_nil_iff]
  intro r hr
  rw [(findControls_isCase cfg store gen personId caseData indexDate stratumId draws out h
    r hr).1]
  simp

/-- In all-outcomes mode the loop of `processCase` adds one case row for each
entry that is not washed out, in the order of the entries. -/
theorem processEntries_case_rows (cfg : Config) (store : List NestingCohortData)
    (gen : Nat → Nat) (personId : Int) (caseData : CaseData)
    (hf : cfg.firstOutcomeOnly = false) :
    ∀ (ds : List IndexDate) (st st1 : RunState),
      processEntries cfg store gen personId caseData ds st = some st1 →
      ∃ new, st1.rows = st.rows ++ new ∧
        (new.filter (fun r => r.isCase)).map (fun r => (r.personId, r.date))
          = (ds.filter (fun d => !d.washedOut)).map (fun d => (personId, d.date)) := by
  intro ds
  induction ds with
  | nil =>
    intro st st1 h
    simp only [processEntries, Option.some.injEq] at h
    exact ⟨[], by rw [h]; simp, rfl⟩
  | cons d rest ih =>
    intro st st1 h
    unfold processEntries at h
    split at h
    · cases h
    · rename_i st2 hst2
      rw [if_neg (by simp [hf])] at h
      obtain ⟨new2, hrows2, hcase2⟩ := ih st2 st1 h
      rcases processEntry_spec cfg store gen personId caseData d st st2 hst2 with
        ⟨hw, heq⟩ | ⟨hw, controls, draws, hfc, heq⟩
      · subst heq
        refine ⟨new2, hrows2, ?_⟩
        rw [hcase2, List.filter_cons]
        simp [hw]
      · have hctl := findControls_filter_isCase cfg store gen personId caseData d.date
          (st.stratumId + 1) st.draws (controls, draws) hfc
        refine ⟨[⟨personId, d.date, true, st.stratumId + 1⟩] ++ controls ++ new2, ?_, ?_⟩
        · rw [hrows2, heq]
          simp
        · simp only at hctl
          rw [List.filter_append, List.filter_append, hctl, List.map_append, hcase2]
          simp [List.filter_cons, hw]

/-- C13. With first-outcome-only mode disabled, whatever order `std::sort`
gives to entries of equal dates, `processCase` emits exactly one case row per
entry of the person's index-date list that is not washed out, in ascending date
order, each with the person's id, the entry's date and `isCase = true`, and no
case row for a washed-out entry; and it returns whenever the store is not empty
and the match test is defined (no visit-date matching). -/
theorem processCase_all_outcomes (cfg : Config) (store : List NestingCohortData)
    (gen : Nat → Nat) (sortDates : List IndexDate → List IndexDate) (personId : Int)
    (caseData : CaseData) (st : RunState) (hsort : IsDateSort sortDates)
    (hf : cfg.firstOutcomeOnly = false) :
    (∀ st1, processCase cfg store gen sortDates personId caseData st = some st1 →
      ∃ new, st1.rows = st.rows ++ new ∧
        (new.filter (fun r => r.isCase)).map (fun r => (r.personId, r.date))
          = ((sortDates caseData.indexDates).filter (fun d => !d.washedOut)).map
              (fun d => (personId, d.date))) ∧
    (sortDates caseData.indexDates).Sorted (fun a b => a.date ≤ b.date) ∧
    (sortDates caseData.indexDates).Perm caseData.indexDates ∧
    (cfg.matchOnVisitDate = false → store ≠ [] →
      ∃ st1, processCase cfg store gen sortDates personId caseData st = some st1) := by
  refine ⟨?_, (hsort caseData.indexDates).2, (hsort caseData.indexDates).1, ?_⟩
  · intro st1 h
    exact processEntries_case_rows cfg store gen personId _ hf _ st st1 h
  · intro hv hne
    exact processEntries_returns cfg store gen personId _
      (fun indexDate stratumId draws => findControls_returns cfg store gen personId _ indexDate
        stratumId draws hne (fun r _ => isMatch_returns cfg r _ indexDate hv)) _ st

/-- C15. With first-outcome-only mode enabled, whatever order `std::sort` gives
to entries of equal dates, for a person whose index-date list is not empty and
holds only entries that are not washed out, `processCase`
emits exactly one case row, dated at the minimum of the person's index dates
and followed only by control rows, and allocates exactly one stratum id; and it
returns whenever the store is not empty and the match test is defined (no
visit-date matching). -/
theorem processCase_first_of_valid_outcomes (cfg : Config) (store : List NestingCohortData)
    (gen : Nat → Nat) (sortDates : List IndexDate → List IndexDate) (personId : Int)
    (caseData : CaseData) (st : RunState) (hsort : IsDateSort sortDates)
    (hf : cfg.firstOutcomeOnly = true) (hne : caseData.indexDates ≠ [])
    (hall : ∀ d ∈ caseData.indexDates, d.washedOut = false) :
    (∀ st1, processCase cfg store gen sortDates personId caseData st = some st1 →
      ∃ d controls, d ∈ caseData.indexDates ∧ (∀ e ∈ caseData.indexDates, d.date ≤ e.date) ∧
        st1.rows = st.rows ++ ⟨personId, d.date, true, st.stratumId + 1⟩ :: controls ∧
        (∀ r ∈ controls, r.isCase = false) ∧ st1.stratumId = st.stratumId + 1) ∧
    (cfg.matchOnVisitDate = false → store ≠ [] →
      ∃ st1, processCase cfg store gen sortDates personId caseData st = some st1) := by
  constructor
  · intro st1 h
    unfold processCase at h
    cases hs : sortDates caseData.indexDates with
    | nil => exact absurd (dateSort_eq_nil hsort hs) hne
    | cons d rest =>
      obtain ⟨hd1, hd2⟩ := dateSort_head hsort hs
      rw [hs] at h
      unfold processEntries at h
      split at h
      · cases h
      · rename_i st2 hst2
        rw [if_pos hf] at h
        injection h with h
        subst h
        rcases processEntry_spec cfg store gen personId _ d st st2 hst2 with
          ⟨hw, _⟩ | ⟨_, controls, draws, hfc, heq⟩
        · rw [hall d hd1] at hw
          cases hw
        · refine ⟨d, controls, hd1, hd2, by rw [heq]; simp, ?_, by rw [heq]⟩
          intro r hr
          exact (findControls_isCase cfg store gen personId _ d.date _ st.draws
            (controls, draws) hfc r hr).1
  · intro hv hne2
    exact processEntries_returns cfg store gen personId _
      (fun indexDate stratumId draws => findControls_returns cfg store gen personId _ indexDate
        stratumId draws hne2 (fun r _ => isMatch_returns cfg r _ indexDate hv)) _ st

/-- An instance of C12 on `twoCaseRecords`: three strata, numbered 1, 2, 3. -/
theorem selectControls_strata_blocks_witness :
    selectControls plainConfig (construct plainConfig twoCaseRecords) (fun n => n)
        sortIndexDates
      = some [⟨1, 50, true, 1⟩, ⟨2, 50, false, 1⟩, ⟨2, 20, true, 2⟩, ⟨3, 20, false, 2⟩,
          ⟨2, 60, true, 3⟩, ⟨1, 60, false, 3⟩] ∧
    ∃ blocks,
      ([⟨1, 50, true, 1⟩, ⟨2, 50, false, 1⟩, ⟨2, 20, true, 2⟩, ⟨3, 20, false, 2⟩,
          ⟨2, 60, true, 3⟩, ⟨1, 60, false, 3⟩] : List Row) = blockRows blocks ∧
      StrataBlocks blocks ∧
      (([⟨1, 50, true, 1⟩, ⟨2, 50, false, 1⟩, ⟨2, 20, true, 2⟩, ⟨3, 20, false, 2⟩,
          ⟨2, 60, true, 3⟩, ⟨1, 60, false, 3⟩] : List Row).filter (fun r => r.isCase)).map
            (fun r => r.stratumId)
        = (List.range blocks.length).map (fun (k : Nat) => (k : Int) + 1) :=
  ⟨by decide,
    selectControls_strata_blocks plainConfig (construct plainConfig twoCaseRecords) (fun n => n)
      sortIndexDates [⟨1, 50, true, 1⟩, ⟨2, 50, false, 1⟩, ⟨2, 20, true, 2⟩, ⟨3, 20, false, 2⟩,
        ⟨2, 60, true, 3⟩, ⟨1, 60, false, 3⟩] (by decide)⟩

/-- An instance of C13: outcomes on days 60, 5 (washed out) and 20 give the
case rows of days 20 and 60, in this order. -/
theorem processCase_all_outcomes_witness :
    (IsDateSort sortIndexDates ∧ plainConfig.firstOutcomeOnly = false) ∧
    ∀ st1, processCase plainConfig twoCaseRecords (fun n => n) sortIndexDates 2
        { snapshot 0 with indexDates := [⟨60, false⟩, ⟨5, true⟩, ⟨20, false⟩] } ⟨[], 0, 0⟩
        = some st1 →
      ∃ new, st1.rows = (⟨[], 0, 0⟩ : RunState).rows ++ new ∧
        (new.filter (fun r => r.isCase)).map (fun r => (r.personId, r.date))
          = ((sortIndexDates ({ snapshot 0 with
                indexDates := [⟨60, false⟩, ⟨5, true⟩, ⟨20, false⟩] } :
                CaseData).indexDates).filter (fun d => !d.washedOut)).map
              (fun d => ((2 : Int), d.date)) :=
  ⟨⟨sortIndexDates_isDateSort, by decide⟩,
    (processCase_all_outcomes plainConfig twoCaseRecords (fun n => n) sortIndexDates 2
      { snapshot 0 with indexDates := [⟨60, false⟩, ⟨5, true⟩, ⟨20, false⟩] } ⟨[], 0, 0⟩
      sortIndexDates_isDateSort (by decide)).1⟩

/-- An instance of C15: three valid outcomes on days 60, 30 and 20 give the one
case row of day 20. -/
theorem processCase_first_of_valid_outcomes_witness :
    (IsDateSort sortIndexDates ∧
      ({ plainConfig with firstOutcomeOnly := true } : Config).firstOutcomeOnly = true ∧
      ({ snapshot 0 with indexDates := [⟨60, false⟩, ⟨30, false⟩, ⟨20, false⟩] } :
        CaseData).indexDates ≠ [] ∧
      ∀ d ∈ ({ snapshot 0 with indexDates := [⟨60, false⟩, ⟨30, false⟩, ⟨20, false⟩] } :
        CaseData).indexDates, d.washedOut = false) ∧
    ∃ st1, processCase { plainConfig with firstOutcomeOnly := true } twoCaseRecords
        (fun n => n) sortIndexDates 2
        { snapshot 0 with indexDates := [⟨60, false⟩, ⟨30, false⟩, ⟨20, false⟩] } ⟨[], 0, 0⟩
        = some st1 :=
  ⟨⟨sortIndexDates_isDateSort, by decide, by decide, by decide⟩,
    (processCase_first_of_valid_outcomes { plainConfig with firstOutcomeOnly := true }
      twoCaseRecords (fun n => n) sortIndexDates 2
      { snapshot 0 with indexDates := [⟨60, false⟩, ⟨30, false⟩, ⟨20, false⟩] } ⟨[], 0, 0⟩
      sortIndexDates_isDateSort (by decide) (by decide) (by decide)).2 (by decide)
      (by decide)⟩

theorem isRetained_eq (cfg : Config) (r : NestingCohortData) :
    isRetained cfg r = retainedBySpec cfg r := by
  unfold isRetained retainedBySpec
  cases cfg.matchOnProvider <;> cases cfg.matchOnCareSite <;> simp

theorem specIndexDates_append (cfg : Config) (pre : List NestingCohortData)
    (r : NestingCohortData) (p : Int) :
    specIndexDates cfg (pre ++ [r]) p = specIndexDates cfg pre p ++
      (if retainedBySpec cfg r = true ∧ r.personId = p then specEntries cfg r else []) := by
  induction pre with
  | nil => simp [specIndexDates]
  | cons r0 rest ih => simp [specIndexDates, ih]

theorem specIndexDates_eq_nil (cfg : Config) (pre : List NestingCohortData) (p : Int)
    (h : ∀ r ∈ pre, retainedBySpec cfg r = true → r.personId ≠ p) :
    specIndexDates cfg pre p = [] := by
  induction pre with
  | nil => rfl
  | cons r0 rest ih =>
    unfold specIndexDates
    rw [if_neg (fun hc => h r0 (List.mem_cons_self _ _) hc.1 hc.2),
      ih (fun r hr => h r (List.mem_cons_of_mem _ hr))]
    rfl

/-- The entries the constructor appends for the dates `dates` of a record. -/
theorem codeEntries_eq (cfg : Config) (r : NestingCohortData) :
    (r.indexDates.filter (keepsIndexDate cfg r)).map
      (fun date => (⟨date, washedOutFlag cfg r date⟩ : IndexDate)) = specEntries cfg r := by
  unfold specEntries
  congr 1
  funext date
  simp only [washedOutFlag, max_assoc]

theorem mapFind_mapPushIndexDate (m : List (Int × CaseData)) (k : Int) (d : IndexDate)
    (p : Int) :
    mapFind (mapPushIndexDate m k d) p =
      (mapFind m p).map (fun cd =>
        if p = k then { cd with indexDates := cd.indexDates ++ [d] } else cd) := by
  induction m with
  | nil => rfl
  | cons q rest ih =>
    unfold mapFind at ih ⊢
    unfold mapPushIndexDate at ih ⊢
    rw [List.map_cons, List.find?_cons, List.find?_cons]
    have hfst : (if q.1 = k then (q.1, { q.2 with indexDates := q.2.indexDates ++ [d] })
        else q).1 = q.1 := by split <;> rfl
    rw [hfst]
    by_cases hq : q.1 = p
    · simp only [hq, decide_True, Option.map_some']
      by_cases hk : p = k
      · subst hq
        simp [hk]
      · subst hq
        simp [hk]
    · simp only [hq, decide_False]
      exact ih

theorem mapFind_addIndexDates (cfg : Config) (r : NestingCohortData) (p : Int) :
    ∀ (dates : List Int) (m : List (Int × CaseData)),
      mapFind (addIndexDates cfg r dates m) p =
        (mapFind m p).map (fun cd =>
          if p = r.personId then
            { cd with
              indexDates := cd.indexDates ++ (dates.filter (keepsIndexDate cfg r)).map
                (fun date => (⟨date, washedOutFlag cfg r date⟩ : IndexDate)) }
          else cd) := by
  intro dates
  induction dates with
  | nil =>
    intro m
    unfold addIndexDates
    cases mapFind m p with
    | none => rfl
    | some cd => simp
  | cons date rest ih =>
    intro m
    unfold addIndexDates
    split
    · rename_i hkeep
      rw [ih, mapFind_mapPushIndexDate]
      cases mapFind m p with
      | none => rfl
      | some cd =>
        by_cases hp : p = r.personId
        · simp [hp, List.filter_cons, hkeep]
        · simp [hp]
    · rename_i hkeep
      rw [ih]
      cases mapFind m p with
      | none => rfl
      | some cd =>
        by_cases hp : p = r.personId
        · simp [hp, List.filter_cons, hkeep]
        · simp [hp]

theorem mapFind_mapInsert {m : List (Int × CaseData)} {k : Int} {v : CaseData}
    (hnd : (m.map Prod.fst).Nodup) (hk : k ∉ m.map Prod.fst) (p : Int) :
    mapFind (mapInsert m k v) p = if p = k then some v else mapFind m p := by
  have hnd2 := nodup_mapInsert (v := v) hk hnd
  apply Option.ext
  intro cd
  simp only [Option.mem_def]
  rw [mapFind_eq_some hnd2, mem_mapInsert hk]
  by_cases hp : p = k
  · rw [if_pos hp]
    subst hp
    constructor
    · rintro (h | h)
      · injection h with _ h2
        rw [h2]
      · exact absurd (List.mem_map_of_mem Prod.fst h) hk
    · intro h
      injection h with h
      left
      rw [h]
  · rw [if_neg hp, mapFind_eq_some hnd]
    constructor
    · rintro (h | h)
      · injection h with h1 _
        exact absurd h1 hp
      · exact h
    · exact Or.inr

theorem mem_specIndexDates (cfg : Config) (records : List NestingCohortData) (p : Int)
    (e : IndexDate) :
    e ∈ specIndexDates cfg records p ↔
      ∃ r ∈ records, retainedBySpec cfg r = true ∧ r.personId = p ∧ e ∈ specEntries cfg r := by
  induction records with
  | nil => simp [specIndexDates]
  | cons r0 rest ih =>
    unfold specIndexDates
    rw [List.mem_append, ih]
    constructor
    · rintro (h | ⟨r, hr, h⟩)
      · split at h
        · rename_i hc
          exact ⟨r0, List.mem_cons_self _ _, hc.1, hc.2, h⟩
        · cases h
      · exact ⟨r, List.mem_cons_of_mem _ hr, h⟩
    · rintro ⟨r, hr, h1, h2, h3⟩
      rcases List.mem_cons.mp hr with rfl | hr
      · left
        rw [if_pos ⟨h1, h2⟩]
        exact h3
      · exact Or.inr ⟨r, hr, h1, h2, h3⟩

/-- Loading one record keeps the invariant of the case index. -/
theorem loadRecord_caseIndexInv (cfg : Config) (pre : List NestingCohortData) (s : Selector)
    (r : NestingCohortData) (hs : CaseIndexInv cfg pre s) :
    CaseIndexInv cfg (pre ++ [r]) (loadRecord cfg s r) := by
  obtain ⟨hnd, hstore, hnone, hdates⟩ := hs
  unfold loadRecord
  by_cases hret : isRetained cfg r = true
  · rw [if_pos hret]
    have hret2 : retainedBySpec cfg r = true := by rw [← isRetained_eq]; exact hret
    simp only
    generalize hm0 : (if (mapFind s.personId2CaseData r.personId).isNone = true then
        mapInsert s.personId2CaseData r.personId
          ⟨r.genderConceptId, r.dateOfBirth, r.providerId, r.careSiteId, r.startDate, []⟩
      else s.personId2CaseData) = m0
    have hm0nd : (m0.map Prod.fst).Nodup := by
      rw [← hm0]
      split
      · rename_i hn
        exact nodup_mapInsert (mapFind_eq_none.mp (Option.isNone_iff_eq_none.mp hn)) hnd
      · exact hnd
    have hm0find : ∀ p, mapFind m0 p =
        if p = r.personId then
          (match mapFind s.personId2CaseData r.personId with
           | none => some ⟨r.genderConceptId, r.dateOfBirth, r.providerId, r.careSiteId,
               r.startDate, []⟩
           | some cd => some cd)
        else mapFind s.personId2CaseData p := by
      intro p
      rw [← hm0]
      cases hfind : mapFind s.personId2CaseData r.personId with
      | none =>
        simp only [Option.isNone_none, if_true]
        rw [mapFind_mapInsert hnd (mapFind_eq_none.mp hfind)]
      | some cd0 =>
        simp only [Option.isNone_some, Bool.false_eq_true, if_false]
        by_cases hp : p = r.personId
        · rw [if_pos hp, hp, hfind]
        · rw [if_neg hp]
    refine ⟨?_, ?_, ?_, ?_⟩
    · rw [(addIndexDates_keeps cfg r r.indexDates m0).1]
      exact hm0nd
    · rw [hstore, List.filter_append]
      simp [hret2]
    · intro p
      rw [mapFind_addIndexDates, Option.map_eq_none', hm0find p]
      by_cases hp : p = r.personId
      · rw [if_pos hp]
        constructor
        · intro h
          exfalso
          cases hfind : mapFind s.personId2CaseData r.personId with
          | none => rw [hfind] at h; cases h
          | some cd0 => rw [hfind] at h; cases h
        · intro h
          exact absurd hp.symm (h r (List.mem_append_right _ (List.mem_singleton_self r)) hret2)
      · rw [if_neg hp, hnone p]
        constructor
        · intro h r0 hr0 hr0ret
          rcases List.mem_append.mp hr0 with hr0 | hr0
          · exact h r0 hr0 hr0ret
          · rw [List.mem_singleton.mp hr0]
            exact fun hcon => hp hcon.symm
        · intro h r0 hr0 hr0ret
          exact h r0 (List.mem_append_left _ hr0) hr0ret
    · intro p cd hcd
      rw [mapFind_addIndexDates, hm0find p] at hcd
      rw [specIndexDates_append]
      by_cases hp : p = r.personId
      · rw [if_pos hp] at hcd
        rw [if_pos ⟨hret2, hp.symm⟩, ← codeEntries_eq]
        cases hfind : mapFind s.personId2CaseData r.personId with
        | none =>
          rw [hfind] at hcd
          simp only [Option.map_some', hp, if_true, Option.some.injEq] at hcd
          rw [← hcd]
          have hnil : specIndexDates cfg pre p = [] :=
            specIndexDates_eq_nil cfg pre p ((hnone p).mp (by rw [hp]; exact hfind))
          rw [hnil]
        | some cd0 =>
          rw [hfind] at hcd
          simp only [Option.map_some', hp, if_true, Option.some.injEq] at hcd
          rw [← hcd]
          have := hdates r.personId cd0 hfind
          simp only
          rw [this, hp]
      · rw [if_neg hp] at hcd
        rw [if_neg (fun hc => hp hc.2.symm), List.append_nil]
        obtain ⟨cd0, hcd0, hcdeq⟩ := Option.map_eq_some'.mp hcd
        rw [if_neg hp] at hcdeq
        rw [← hcdeq]
        exact hdates p cd0 hcd0
  · rw [if_neg hret]
    have hret2 : retainedBySpec cfg r = false := by
      rw [← isRetained_eq]
      simpa using hret
    refine ⟨hnd, ?_, ?_, ?_⟩
    · rw [hstore, List.filter_append]
      simp [hret2]
    · intro p
      rw [hnone p]
      constructor
      · intro h r0 hr0 hr0ret
        rcases List.mem_append.mp hr0 with hr0 | hr0
        · exact h r0 hr0 hr0ret
        · rw [List.mem_singleton.mp hr0, hret2] at hr0ret
          cases hr0ret
      · intro h r0 hr0 hr0ret
        exact h r0 (List.mem_append_left _ hr0) hr0ret
    · intro p cd hcd
      rw [specIndexDates_append, if_neg (fun hc => by rw [hret2] at hc; cases hc.1),
        List.append_nil]
      exact hdates p cd hcd

theorem foldl_loadRecord_caseIndexInv (cfg : Config) :
    ∀ (rest pre : List NestingCohortData) (s : Selector), CaseIndexInv cfg pre s →
      CaseIndexInv cfg (pre ++ rest) (rest.foldl (loadRecord cfg) s) := by
  intro rest
  induction rest with
  | nil => intro pre s hs; simpa using hs
  | cons r rest ih =>
    intro pre s hs
    have := ih (pre ++ [r]) (loadRecord cfg s r) (loadRecord_caseIndexInv cfg pre s r hs)
    simpa using this

/-- The case index built by the constructor, and its store before sorting. -/
theorem construct_caseIndex (cfg : Config) (records : List NestingCohortData) :
    ((construct cfg records).personId2CaseData.map Prod.fst).Nodup ∧
    (construct cfg records).nestingCohortDatas.Perm (records.filter (retainedBySpec cfg)) ∧
    (cfg.matchOnAge = false →
      (construct cfg records).nestingCohortDatas = records.filter (retainedBySpec cfg)) ∧
    (∀ p, mapFind (construct cfg records).personId2CaseData p = none ↔
      ∀ r ∈ records, retainedBySpec cfg r = true → r.personId ≠ p) ∧
    (∀ p cd, mapFind (construct cfg records).personId2CaseData p = some cd →
      cd.indexDates = specIndexDates cfg records p) := by
  have hinit : CaseIndexInv cfg [] ⟨[], []⟩ := by
    refine ⟨List.nodup_nil, rfl, fun p => ⟨?_, fun _ => rfl⟩, ?_⟩
    · intro _ r hr
      cases hr
    · intro p cd hcd
      cases hcd
  have h := foldl_loadRecord_caseIndexInv cfg records [] ⟨[], []⟩ hinit
  rw [List.nil_append] at h
  obtain ⟨h1, h2, h3, h4⟩ := h
  unfold construct
  cases hage : cfg.matchOnAge
  · simp only [Bool.false_eq_true, if_false]
    exact ⟨h1, by rw [h2], fun _ => h2, h3, h4⟩
  · simp only [if_true]
    refine ⟨h1, ?_, ?_, h3, h4⟩
    · rw [← h2]
      exact List.perm_insertionSort _ _
    · intro hc
      cases hc

theorem mem_specEntries (cfg : Config) (r : NestingCohortData) (e : IndexDate) :
    e ∈ specEntries cfg r ↔
      ∃ date ∈ r.indexDates, date ≤ min (r.dateOfBirth + cfg.maxAgeDays) r.endDate ∧
        e = ⟨date, decide (date < max (r.observationPeriodStartDate + cfg.washoutPeriod)
          (max (r.dateOfBirth + cfg.minAgeDays) r.startDate))⟩ := by
  unfold specEntries
  rw [List.mem_map]
  constructor
  · rintro ⟨date, hd, rfl⟩
    rw [List.mem_filter] at hd
    exact ⟨date, hd.1, of_decide_eq_true hd.2, rfl⟩
  · rintro ⟨date, hd, hle, rfl⟩
    exact ⟨date, List.mem_filter.mpr ⟨hd, decide_eq_true hle⟩, rfl⟩

/-- C14. After construction, the index-date list of each person of the case
index is the list the spec describes: one entry for every pair of a retained
record `r` of that person and a date of `r.indexDates` with
`date ≤ min(r.dateOfBirth + maxAgeDays, r.endDate)`, flagged washed out exactly
when `date < max(r.observationPeriodStartDate + washoutPeriod,
r.dateOfBirth + minAgeDays, r.startDate)`; in particular a kept date before
`r.observationPeriodStartDate + washoutPeriod` is stored as washed out. -/
theorem construct_indexDates (cfg : Config) (records : List NestingCohortData) (p : Int)
    (cd : CaseData) (h : mapFind (construct cfg records).personId2CaseData p = some cd) :
    cd.indexDates = specIndexDates cfg records p ∧
    (∀ e, e ∈ cd.indexDates ↔
      ∃ r ∈ records, retainedBySpec cfg r = true ∧ r.personId = p ∧
        ∃ date ∈ r.indexDates, date ≤ min (r.dateOfBirth + cfg.maxAgeDays) r.endDate ∧
          e = ⟨date, decide (date < max (r.observationPeriodStartDate + cfg.washoutPeriod)
            (max (r.dateOfBirth + cfg.minAgeDays) r.startDate))⟩) ∧
    (∀ r ∈ records, retainedBySpec cfg r = true → r.personId = p →
      ∀ date ∈ r.indexDates, date ≤ min (r.dateOfBirth + cfg.maxAgeDays) r.endDate →
        date < r.observationPeriodStartDate + cfg.washoutPeriod →
        (⟨date, true⟩ : IndexDate) ∈ cd.indexDates) := by
  have heq := (construct_caseIndex cfg records).2.2.2.2 p cd h
  have hmem : ∀ e, e ∈ cd.indexDates ↔
      ∃ r ∈ records, retainedBySpec cfg r = true ∧ r.personId = p ∧
        ∃ date ∈ r.indexDates, date ≤ min (r.dateOfBirth + cfg.maxAgeDays) r.endDate ∧
          e = ⟨date, decide (date < max (r.observationPeriodStartDate + cfg.washoutPeriod)
            (max (r.dateOfBirth + cfg.minAgeDays) r.startDate))⟩ := by
    intro e
    rw [heq, mem_specIndexDates]
    constructor
    · rintro ⟨r, hr, h1, h2, h3⟩
      exact ⟨r, hr, h1, h2, (mem_specEntries cfg r e).mp h3⟩
    · rintro ⟨r, hr, h1, h2, h3⟩
      exact ⟨r, hr, h1, h2, (mem_specEntries cfg r e).mpr h3⟩
  refine ⟨heq, hmem, ?_⟩
  intro r hr hret hp date hd hle hlt
  refine (hmem _).mpr ⟨r, hr, hret, hp, date, hd, hle, ?_⟩
  have hflag : decide (date < max (r.observationPeriodStartDate + cfg.washoutPeriod)
      (max (r.dateOfBirth + cfg.minAgeDays) r.startDate)) = true :=
    decide_eq_true (lt_of_lt_of_le hlt (le_max_left _ _))
  rw [hflag]

/-- An instance of C14: for person 1 of `washedFirstRecords` the outcome of day
5 is stored as washed out and that of day 50 as valid. -/
theorem construct_indexDates_witness :
    mapFind (construct firstOnlyConfig washedFirstRecords).personId2CaseData 1
        = some washedFirstCase ∧
    washedFirstCase.indexDates = specIndexDates firstOnlyConfig washedFirstRecords 1 :=
  ⟨by decide,
    (construct_indexDates firstOnlyConfig washedFirstRecords 1 washedFirstCase (by decide)).1⟩

/-- C17. After construction, a record whose provider is absent while provider
matching is set, or whose care site is absent while care-site matching is set,
is in neither structure: the store holds exactly the other records (in input
order, or sorted with age matching), a person has a case record exactly when
one of the other records is theirs, and every stored index date comes from one
of the other records of that person. -/
theorem construct_drops_incomplete_records (cfg : Config) (records : List NestingCohortData) :
    (∀ r, retainedBySpec cfg r = false ↔
      (cfg.matchOnProvider = true ∧ r.providerId = NA_INTEGER) ∨
        (cfg.matchOnCareSite = true ∧ r.careSiteId = NA_INTEGER)) ∧
    (construct cfg records).nestingCohortDatas.Perm (records.filter (retainedBySpec cfg)) ∧
    (cfg.matchOnAge = false →
      (construct cfg records).nestingCohortDatas = records.filter (retainedBySpec cfg)) ∧
    (∀ r, r ∈ (construct cfg records).nestingCohortDatas ↔
      r ∈ records ∧ retainedBySpec cfg r = true) ∧
    (∀ p, (∃ cd, mapFind (construct cfg records).personId2CaseData p = some cd) ↔
      ∃ r ∈ records, retainedBySpec cfg r = true ∧ r.personId = p) ∧
    (∀ p cd e, mapFind (construct cfg records).personId2CaseData p = some cd →
      e ∈ cd.indexDates →
      ∃ r ∈ records, retainedBySpec cfg r = true ∧ r.personId = p ∧ e.date ∈ r.indexDates) := by
  obtain ⟨_, hperm, hraw, hnone, hdates⟩ := construct_caseIndex cfg records
  refine ⟨?_, hperm, hraw, ?_, ?_, ?_⟩
  · intro r
    unfold retainedBySpec
    cases cfg.matchOnProvider <;> cases cfg.matchOnCareSite <;> simp
    all_goals tauto
  · intro r
    rw [hperm.mem_iff, List.mem_filter]
  · intro p
    constructor
    · rintro ⟨cd, hcd⟩
      by_contra hcon
      have : mapFind (construct cfg records).personId2CaseData p = none :=
        (hnone p).mpr (fun r hr hret hp => hcon ⟨r, hr, hret, hp⟩)
      rw [this] at hcd
      cases hcd
    · rintro ⟨r, hr, hret, hp⟩
      cases hfind : mapFind (construct cfg records).personId2CaseData p with
      | none => exact absurd hp ((hnone p).mp hfind r hr hret)
      | some cd => exact ⟨cd, rfl⟩
  · intro p cd e hcd he
    rw [hdates p cd hcd, mem_specIndexDates] at he
    obtain ⟨r, hr, hret, hp, hmem⟩ := he
    obtain ⟨date, hd, _, rfl⟩ := (mem_specEntries cfg r e).mp hmem
    exact ⟨r, hr, hret, hp, hd⟩

end CaseControl
